import Mathlib

/-!
# k8s-kubecost-exporter: a shallow embedding

Lean model of the exporter's core (`util.go`, `client.go`, `metrics.go`, `main.go`):
path resolution in nested maps, canonical strings of slices and maps, the query
window of the Allocation API URL, field lookup by name, and the polling loop.

Conventions of the embedding.

* A Go `map[string]any` is an association list `List (String × Value)`; a Go map
  has pairwise distinct keys, which theorems assume as `NodupKeys` where the
  enumeration order matters. `m[k]` is `index m k`.
* A panic (failed type assertion, index out of range) is the result `none`.
* Go strings are Lean strings; `<` on strings is lexicographic on characters,
  which is Go's byte-wise order on valid UTF-8.
* `float64` values are carried as bit patterns; what the standard library prints
  for them, and its `float64` arithmetic, is a parameter (`StdLib`).
* Instants are Unix nanoseconds with a location. `Zoned.Time` carries a location
  with zone transitions and `Zoned.Date` is `time.Date` with its zone lookup;
  `Time` is the special case of a location with one fixed offset (`FixedZone`,
  `time.UTC`), related to it by `Time.inFixedZone` and `GetURL_inFixedZone`.
  `time.Duration` is a signed 64-bit count of nanoseconds.
* `sort.Slice` is the insertion sort Go runs on short slices; on longer slices its
  result is the same wherever the comparator is a strict total order.
-/

namespace KubecostExporter

/-! ## Go values -/

/-- IEEE-754 binary64 value (Go `float64`), kept as its 64-bit pattern. -/
structure Float64 where
  bits : Nat
deriving DecidableEq, Repr

/-- The zero value of `float64` (`+0`). -/
def Float64.zero : Float64 := ⟨0⟩

/-- A Go value of static type `any`, as decoded from JSON or YAML or built by the tests:
`nil`, `bool`, `string`, `int`, `float64`, `[]any`, `map[string]any`. -/
inductive Value where
  | nil
  | bool (b : Bool)
  | str (s : String)
  | int (n : Int)
  | float (f : Float64)
  | slice (xs : List Value)
  | map (kvs : List (String × Value))

/-- A Go `map[string]any`. -/
abbrev GoMap := List (String × Value)

/-- Keys of a Go map are pairwise distinct. -/
def NodupKeys (m : GoMap) : Prop := (m.map Prod.fst).Nodup

/-- Go's `m[k]` on a `map[string]any`: the stored value, or the zero value `nil` of `any`
when the key is absent. -/
def index (m : GoMap) (k : String) : Value := (m.lookup k).getD Value.nil

/-- Results of Go's standard library that the embedding takes as given: they print or compute
with `float64` values, or print composite values. -/
structure StdLib where
  /-- `fmt.Sprint` on a `float64` (verb `%v`). -/
  sprintFloat : Float64 → String
  /-- `strconv.FormatFloat(f, 'f', -1, 64)`. -/
  formatFloat : Float64 → String
  /-- `fmt.Sprint` on a `[]any`. -/
  sprintSlice : List Value → String
  /-- `fmt.Sprint` on a `map[string]any`. -/
  sprintMap : GoMap → String
  /-- `uint64(float64(f) * (float64(unit) / scale))` of `time.ParseDuration`, where `scale` is
  `1` multiplied `k` times by `10`: the nanoseconds of the fraction `f / 10^k` of a unit. -/
  fracNanos : (f : Nat) → (unit : Nat) → (k : Nat) → Nat

/-- Decimal rendering of a Go `int` (`%d`, and `%v` on an `int`). -/
def fmtInt (n : Int) : String := toString n

/-- Go's `fmt.Sprint(v)` for one operand. -/
def Sprint (lib : StdLib) : Value → String
  | .nil => "<nil>"
  | .bool b => if b then "true" else "false"
  | .str s => s
  | .int n => fmtInt n
  | .float f => lib.sprintFloat f
  | .slice xs => lib.sprintSlice xs
  | .map kvs => lib.sprintMap kvs

/-! ## Package `strings` -/

/-- Scan for `strings.Split`: the characters of the first segment and the remaining segments. -/
def splitAux (sep : Char) : List Char → List Char × List (List Char)
  | [] => ([], [])
  | c :: cs =>
    if c = sep then ([], (splitAux sep cs).1 :: (splitAux sep cs).2)
    else (c :: (splitAux sep cs).1, (splitAux sep cs).2)

/-- Go's `strings.Split(s, sep)` for a separator of one character: always at least one
segment (`Split "" sep = [""]`). -/
def Split (s : String) (sep : Char) : List String :=
  ((splitAux sep s.data).1 :: (splitAux sep s.data).2).map String.mk

/-- Go's `strings.Join(elems, sep)`. -/
def Join : List String → String → String
  | [], _ => ""
  | [a], _ => a
  | a :: b :: l, sep => a ++ sep ++ Join (b :: l) sep

/-! ## Comparisons and `sort.Slice` -/

/-- Go's `a < b` on strings. -/
def strLess (a b : String) : Bool := decide (a.data < b.data)

/-- A `float64` is a NaN when its exponent is all ones and its fraction is not zero. -/
def Float64.isNaN (f : Float64) : Bool := decide (0x7FF0000000000000 < f.bits % 2 ^ 63)

/-- Order key of a `float64` that is not a NaN: sign and magnitude (both zeros give 0). -/
def Float64.key (f : Float64) : Int :=
  if f.bits / 2 ^ 63 % 2 = 1 then -((f.bits % 2 ^ 63 : Nat) : Int) else ((f.bits % 2 ^ 63 : Nat) : Int)

/-- Go's `a < b` on `float64`. -/
def floatLess (a b : Float64) : Bool := !a.isNaN && !b.isNaN && decide (a.key < b.key)

/-- The comparator `x[i].(string) < x[j].(string)`; `none` is the panic of the assertion. -/
def lessString : Value → Value → Option Bool
  | .str a, .str b => some (strLess a b)
  | _, _ => none

/-- The comparator `x[i].(int) < x[j].(int)`. -/
def lessInt : Value → Value → Option Bool
  | .int a, .int b => some (decide (a < b))
  | _, _ => none

/-- The comparator `x[i].(float64) < x[j].(float64)`. -/
def lessFloat : Value → Value → Option Bool
  | .float a, .float b => some (floatLess a b)
  | _, _ => none

/-- The inner loop of `insertionSortLessFunc` for one element `a`, on the sorted elements before
it, which are held last first: `for j := i; j > a && less(data[j], data[j-1]); j--` swaps the
element towards the front as long as it is less than the element before it. -/
def insertSorted {α : Type} (less : α → α → Option Bool) (a : α) : List α → Option (List α)
  | [] => some [a]
  | b :: l =>
    match less a b with
    | none => none
    | some true => (insertSorted less a l).map (fun r => b :: r)
    | some false => some (a :: b :: l)

/-- The outer loop of `insertionSortLessFunc`: `rev` holds the elements sorted so far, last
first; the elements of the second list are inserted one after the other. -/
def sortFrom {α : Type} (less : α → α → Option Bool) : List α → List α → Option (List α)
  | rev, [] => some rev.reverse
  | rev, a :: l => (insertSorted less a rev).bind (fun r => sortFrom less r l)

/-- Go's `sort.Slice(x, less)` as `insertionSortLessFunc`, the algorithm Go runs on slices of at
most 12 elements: an element moves towards the front only past elements it is less than, so
elements that compare equal keep their order. The comparator may panic. On longer slices Go
runs another algorithm; for a strict total order on the elements the sorted arrangement is
unique, so that one returns this list too. -/
def sortSlice {α : Type} (less : α → α → Option Bool) (l : List α) : Option (List α) :=
  sortFrom less [] l

/-- Insertion into a sorted list under a comparator that cannot panic. -/
def insertLess {α : Type} (less : α → α → Bool) (a : α) : List α → List α
  | [] => [a]
  | b :: l => if less a b then a :: b :: l else b :: insertLess less a l

/-- Insertion sort under a comparator that cannot panic. -/
def sortLess {α : Type} (less : α → α → Bool) : List α → List α
  | [] => []
  | a :: l => insertLess less a (sortLess less l)

/-- Go's `sort.Strings`. -/
def sortStrings (ks : List String) : List String := sortLess strLess ks

/-! ## `util.go` -/

/-- Walk of `GetElementFromKey` along the segments `ks` of the key: `elem := m[ks[0]]`, returned
when it is the only segment, else descended into when it is a `map[string]any`. -/
def getElementFromKeys : List String → GoMap → Value
  | [], _ => Value.nil
  | [k], m => index m k
  | k :: k2 :: ks, m =>
    match index m k with
    | .map m2 => getElementFromKeys (k2 :: ks) m2
    | _ => Value.nil

/-- `GetElementFromKey(k, m)` of `util.go`: retrieve an element from a map using a dot-separated
key. The source recurses on the key re-joined from `ks[1:]`; the equation is
`GetElementFromKey_rec`. -/
def GetElementFromKey (k : String) (m : GoMap) : Value :=
  getElementFromKeys (Split k '.') m

/-- A type argument of `GetElementOrZeroValue` (the constraint `BasicTypes`). -/
inductive BasicType where
  | bool | string | int | float64
deriving DecidableEq, Repr

/-- The zero value of a basic type. -/
def BasicType.zero : BasicType → Value
  | .bool => Value.bool false
  | .string => Value.str ""
  | .int => Value.int 0
  | .float64 => Value.float Float64.zero

/-- The type assertion `elem.(T)` for a basic type `T`: `none` is its panic. -/
def assertType : BasicType → Value → Option Value
  | .bool, .bool b => some (.bool b)
  | .string, .str s => some (.str s)
  | .int, .int n => some (.int n)
  | .float64, .float f => some (.float f)
  | _, _ => none

/-- `GetElementOrZeroValue[T](k, m)` of `util.go`. -/
def GetElementOrZeroValue (T : BasicType) (k : String) (m : GoMap) : Option Value :=
  match index m k with
  | .nil => some T.zero
  | elem => assertType T elem

/-- The sort step of `SortAndJoinSlice`: the type switch on `x[0]` picks the comparator; a first
element of any other type leaves the slice as it is. -/
def sortByFirst (x0 : Value) (x : List Value) : Option (List Value) :=
  match x0 with
  | .str _ => sortSlice lessString x
  | .int _ => sortSlice lessInt x
  | .float _ => sortSlice lessFloat x
  | _ => some x

/-- `SortAndJoinSlice(x, sep)` of `util.go`; `none` is a panic (`x[0]` on an empty slice, or a
failed type assertion in the comparator). -/
def SortAndJoinSlice (lib : StdLib) (x : List Value) (sep : String) : Option String :=
  match x with
  | [] => none
  | x0 :: _ => (sortByFirst x0 x).map (fun sorted => Join (sorted.map (Sprint lib)) sep)

/-- The loop body of `SortAndJoinMap` for the key `k`: the element appended, if any. -/
def mapElem (lib : StdLib) (m : GoMap) (k : String) : Option String :=
  match index m k with
  | .str s => some (k ++ ":" ++ s)
  | .int n => some (k ++ ":" ++ fmtInt n)
  | .float f => some (k ++ ":" ++ lib.formatFloat f)
  | _ => none

/-- `SortAndJoinMap(m, sep)` of `util.go`. -/
def SortAndJoinMap (lib : StdLib) (m : GoMap) (sep : String) : String :=
  Join ((sortStrings (m.map Prod.fst)).filterMap (mapElem lib m)) sep

/-! ## Package `time`: durations -/

/-- Reduction of an integer to the range of `int64` (two's complement wrap-around). -/
def wrapInt64 (x : Int) : Int := (x + 2 ^ 63) % 2 ^ 64 - 2 ^ 63

/-- Go's unary `-d` on a `time.Duration` (an `int64`). -/
def negDuration (d : Int) : Int := wrapInt64 (-d)

/-- The units of `time.ParseDuration` (`unitMap`), in nanoseconds. -/
def unitMap (u : String) : Option Nat :=
  if u = "ns" then some 1
  else if u = "us" then some 1000
  else if u = "µs" then some 1000
  else if u = "μs" then some 1000
  else if u = "ms" then some 1000000
  else if u = "s" then some 1000000000
  else if u = "m" then some 60000000000
  else if u = "h" then some 3600000000000
  else none

/-- An ASCII digit. -/
def isDigit (c : Char) : Bool := decide (48 ≤ c.toNat) && decide (c.toNat ≤ 57)

/-- `leadingInt` of package `time`: consume `[0-9]*`, starting from the value `x`; `none` when
the value exceeds `1 << 63`. -/
def leadingInt : Nat → List Char → Option (Nat × List Char)
  | x, [] => some (x, [])
  | x, c :: cs =>
    if isDigit c then
      if x > 2 ^ 63 / 10 then none
      else if x * 10 + (c.toNat - 48) > 2 ^ 63 then none
      else leadingInt (x * 10 + (c.toNat - 48)) cs
    else some (x, c :: cs)

/-- `leadingFraction` of package `time`: consume `[0-9]*` after the point; returns the digits
read as a number, how many digits were taken into it and the rest. Digits after an overflow
are skipped. -/
def leadingFraction : Nat → Nat → Bool → List Char → Nat × Nat × List Char
  | x, k, _, [] => (x, k, [])
  | x, k, overflow, c :: cs =>
    if isDigit c then
      if overflow then leadingFraction x k true cs
      else if x > (2 ^ 63 - 1) / 10 then leadingFraction x k true cs
      else if x * 10 + (c.toNat - 48) > 2 ^ 63 then leadingFraction x k true cs
      else leadingFraction (x * 10 + (c.toNat - 48)) (k + 1) false cs
    else (x, k, c :: cs)

/-- A character that ends a unit: `.` or a digit. -/
def endsUnit (c : Char) : Bool := c = '.' || isDigit c

/-- The part `(\.[0-9]*)?` of one element of a duration, read from `s1`: the digits after the
point as a number, how many of them were taken, whether any digit was consumed, and the rest. -/
def readFraction (s1 : List Char) : Nat × Nat × Bool × List Char :=
  match s1 with
  | '.' :: t =>
    ((leadingFraction 0 0 false t).1, (leadingFraction 0 0 false t).2.1,
      (leadingFraction 0 0 false t).2.2.length != t.length, (leadingFraction 0 0 false t).2.2)
  | _ => (0, 0, false, s1)

/-- One round of the loop `for s != ""` of `time.ParseDuration`: read one element
`[0-9]*(\.[0-9]*)?[a-z]+` from `s`; returns its nanoseconds (a `uint64`) and the rest of the
input, or `none` for the error result. -/
def parseElem (lib : StdLib) (s : List Char) : Option (Nat × List Char) :=
  match s with
  | [] => none
  | c :: cs =>
    if !endsUnit c then none
    else
      match leadingInt 0 (c :: cs) with
      | none => none
      | some (v, s1) =>
        if s1.length == (c :: cs).length && !(readFraction s1).2.2.1 then none
        else if ((readFraction s1).2.2.2.takeWhile (fun x => !endsUnit x)).isEmpty then none
        else
          match unitMap (String.mk ((readFraction s1).2.2.2.takeWhile (fun x => !endsUnit x))) with
          | none => none
          | some unit =>
            if v > 2 ^ 63 / unit then none
            else if (readFraction s1).1 > 0
                ∧ (v * unit + lib.fracNanos (readFraction s1).1 unit (readFraction s1).2.1)
                    % 2 ^ 64 > 2 ^ 63 then none
            else
              some (if (readFraction s1).1 > 0
                  then (v * unit + lib.fracNanos (readFraction s1).1 unit (readFraction s1).2.1)
                    % 2 ^ 64
                  else v * unit,
                (readFraction s1).2.2.2.dropWhile (fun x => !endsUnit x))

/-- The loop `for s != ""` of `time.ParseDuration`, adding each element to the `uint64`
accumulator `d`. Every round consumes at least one character, so a fuel of at least the length
of the input is never used up (`parseElems_fuel`). -/
def parseElems (lib : StdLib) : Nat → Nat → List Char → Option Nat
  | _, d, [] => some d
  | 0, _, _ :: _ => none
  | fuel + 1, d, c :: cs =>
    match parseElem lib (c :: cs) with
    | none => none
    | some (v, rest) =>
      if (d + v) % 2 ^ 64 > 2 ^ 63 then none
      else parseElems lib fuel ((d + v) % 2 ^ 64) rest

/-- Go's `time.ParseDuration(s)`: a possibly signed sequence of decimal numbers, each with an
optional fraction and a unit suffix (`ns`, `us`, `µs`, `ms`, `s`, `m`, `h`). The result is an
`int64` count of nanoseconds; `none` is the error result. The magnitude is summed in a `uint64`
that may reach `1 << 63`: with a minus sign it gives the minimal `int64`, without one an error
(`"-9223372036854775808ns"` is `-1 << 63`, `"9223372036854775808ns"` is invalid). -/
def ParseDuration (lib : StdLib) (s : String) : Option Int :=
  let neg : Bool := match s.data with
    | '-' :: _ => true
    | _ => false
  let body : List Char := match s.data with
    | '-' :: t => t
    | '+' :: t => t
    | cs => cs
  if body = ['0'] then some 0
  else if body.isEmpty then none
  else
    match parseElems lib (body.length + 1) 0 body with
    | none => none
    | some d =>
      if neg then some (negDuration (wrapInt64 d))
      else if d > 2 ^ 63 - 1 then none
      else some (d : Int)

/-! ## Package `time`: instants -/

/-- A `time.Time` in a location with one fixed offset (`time.UTC`, `time.FixedZone`):
nanoseconds since 1970-01-01T00:00:00Z and the seconds east of UTC of its location (`0` for
UTC). An instant in a location with zone transitions is a `Zoned.Time`. -/
structure Time where
  unixNano : Int
  offset : Int
deriving DecidableEq, Repr

/-- Year, month and day of the proleptic Gregorian calendar for a number of days since
1970-01-01: 400-year, 100-year, 4-year and 1-year cycles are cut off as in `absDate` of package
`time`, counting from a 1st of March. -/
def civilFromDays (days : Int) : Int × Int × Int :=
  let z := days + 719468
  let era := z / 146097
  let doe := z - era * 146097
  let c := doe / 36524 - doe / 36524 / 4
  let doc := doe - 36524 * c
  let q := doc / 1461
  let doq := doc - 1461 * q
  let yy := doq / 365 - doq / 365 / 4
  let doy := doq - 365 * yy
  let y := 400 * era + 100 * c + 4 * q + yy
  let mp := (5 * doy + 2) / 153
  let d := doy - (153 * mp + 2) / 5 + 1
  let m := if mp < 10 then mp + 3 else mp - 9
  (if m ≤ 2 then y + 1 else y, m, d)

/-- Days since 1970-01-01 of a date of the proleptic Gregorian calendar (month in `1..12`). -/
def daysFromCivil (y0 m d : Int) : Int :=
  let y := if m ≤ 2 then y0 - 1 else y0
  let era := y / 400
  let yoe := y - era * 400
  let doy := (153 * (if m > 2 then m - 3 else m + 9) + 2) / 5 + d - 1
  let doe := yoe * 365 + yoe / 4 - yoe / 100 + doy
  era * 146097 + doe - 719468

/-- Wall-clock seconds of an instant in its location, counted from 1970-01-01T00:00:00. -/
def Time.wallSec (t : Time) : Int := t.unixNano / 1000000000 + t.offset

/-- `t.Year()`. -/
def Time.Year (t : Time) : Int := (civilFromDays (t.wallSec / 86400)).1

/-- `t.Month()`, as a number in `1..12`. -/
def Time.Month (t : Time) : Int := (civilFromDays (t.wallSec / 86400)).2.1

/-- `t.Day()`. -/
def Time.Day (t : Time) : Int := (civilFromDays (t.wallSec / 86400)).2.2

/-- `t.Hour()`. -/
def Time.Hour (t : Time) : Int := t.wallSec % 86400 / 3600

/-- `t.Minute()`. -/
def Time.Minute (t : Time) : Int := t.wallSec % 3600 / 60

/-- `t.Second()`. -/
def Time.Second (t : Time) : Int := t.wallSec % 60

/-- `t.Nanosecond()`. -/
def Time.Nanosecond (t : Time) : Int := t.unixNano % 1000000000

/-- `time.Date(year, month, day, hour, min, sec, nsec, loc)` for fields in their ranges (the
only calls the exporter makes), `loc` being the location with the fixed offset `offset`. -/
def Date (year month day hour min sec nsec offset : Int) : Time :=
  ⟨(daysFromCivil year month day * 86400 + hour * 3600 + min * 60 + sec - offset) * 1000000000
      + nsec, offset⟩

/-- `t.Add(d)`. -/
def Time.Add (t : Time) (d : Int) : Time := ⟨t.unixNano + d, t.offset⟩

/-- Decimal digits of `n`, padded with zeros on the left to `width`. -/
def padZero (width n : Nat) : String :=
  String.mk (List.replicate (width - (toString n).length) '0') ++ toString n

/-- `appendInt` of package `time`: a sign for a negative number, then the zero-padded digits. -/
def appendInt (x : Int) (width : Nat) : String :=
  if x < 0 then "-" ++ padZero width (-x).toNat else padZero width x.toNat

/-- The zone of the layout element `Z07:00`: `Z` for the offset zero, else sign, hours and
minutes (seconds are cut off). -/
def formatZone (offset : Int) : String :=
  if offset = 0 then "Z"
  else if offset ≤ -60 then "-" ++ padZero 2 ((-offset).toNat / 60 / 60) ++ ":"
    ++ padZero 2 ((-offset).toNat / 60 % 60)
  else "+" ++ padZero 2 (offset.toNat / 60 / 60) ++ ":" ++ padZero 2 (offset.toNat / 60 % 60)

/-- `t.Format(time.RFC3339)`, the layout `2006-01-02T15:04:05Z07:00`. -/
def Time.FormatRFC3339 (t : Time) : String :=
  appendInt t.Year 4 ++ "-" ++ appendInt t.Month 2 ++ "-" ++ appendInt t.Day 2 ++ "T"
    ++ appendInt t.Hour 2 ++ ":" ++ appendInt t.Minute 2 ++ ":" ++ appendInt t.Second 2
    ++ formatZone t.offset

/-! ## Package `net/url` -/

/-- The bytes of the UTF-8 encoding of a string. -/
def utf8Bytes (s : String) : List Nat :=
  (s.data.flatMap String.utf8EncodeChar).map UInt8.toNat

/-- The escaping modes of `net/url` that `URL.String` and `Values.Encode` use here. -/
inductive Encoding where
  | encodePath | encodeHost | encodeQueryComponent
deriving DecidableEq, Repr

/-- `shouldEscape(c, mode)` of `net/url`: letters, digits and `-_.~` are never escaped; a host
keeps its sub-delimiters, `:`, brackets and quotes; a path keeps the reserved characters but
`?`; a query component keeps nothing else. -/
def shouldEscape (c : Nat) (mode : Encoding) : Bool :=
  if (97 ≤ c ∧ c ≤ 122) ∨ (65 ≤ c ∧ c ≤ 90) ∨ (48 ≤ c ∧ c ≤ 57) then false
  else if mode = Encoding.encodeHost ∧ c ∈ [33, 36, 38, 39, 40, 41, 42, 43, 44, 59, 61, 58, 91,
      93, 60, 62, 34] then false
  else if c ∈ [45, 95, 46, 126] then false
  else if mode = Encoding.encodePath ∧ c ∈ [36, 38, 43, 44, 47, 58, 59, 61, 64] then false
  else true

/-- An upper-case hexadecimal digit. -/
def upperHex (n : Nat) : Char :=
  if n < 10 then Char.ofNat (48 + n) else Char.ofNat (55 + n)

/-- `escape(s, mode)` of `net/url`: a space of a query component becomes `+`, any other byte to
escape becomes `%XX`. -/
def escape (s : String) (mode : Encoding) : String :=
  String.mk ((utf8Bytes s).flatMap (fun c =>
    if c = 32 ∧ mode = Encoding.encodeQueryComponent then ['+']
    else if shouldEscape c mode then ['%', upperHex (c / 16), upperHex (c % 16)]
    else [Char.ofNat c]))

/-- `url.QueryEscape(s)`. -/
def QueryEscape (s : String) : String := escape s Encoding.encodeQueryComponent

/-- A `url.Values`, a `map[string][]string`. -/
abbrev Values := List (String × List String)

/-- `v.Add(key, value)`: append the value to the values of the key. -/
def Values.Add : Values → String → String → Values
  | [], k, v => [(k, [v])]
  | (k2, vs) :: q, k, v =>
    if k2 = k then (k2, vs ++ [v]) :: q else (k2, vs) :: Values.Add q k v

/-- `v.Set(key, value)`: replace the values of the key by the one value. -/
def Values.Set : Values → String → String → Values
  | [], k, v => [(k, [v])]
  | (k2, vs) :: q, k, v =>
    if k2 = k then (k2, [v]) :: q else (k2, vs) :: Values.Set q k v

/-- The values of a key (`v[key]`), none when the key is absent. -/
def Values.values (q : Values) (k : String) : List String := (q.lookup k).getD []

/-- `v.Encode()`: the pairs `key=value`, both escaped, by ascending key, joined by `&`. -/
def Values.Encode (q : Values) : String :=
  Join ((sortStrings (q.map Prod.fst)).flatMap (fun k =>
    (Values.values q k).map (fun v => QueryEscape k ++ "=" ++ QueryEscape v))) "&"

/-- `u.String()` for a `url.URL` with the fields `Scheme`, `Host`, `Path` and `RawQuery` set, the
scheme and the host not empty. -/
def urlString (scheme host path rawQuery : String) : String :=
  scheme ++ ":" ++ "//" ++ escape host Encoding.encodeHost
    ++ (if path ≠ "" ∧ path.data.head? ≠ some '/' then "/" else "")
    ++ (if path = "*" then "*" else escape path Encoding.encodePath)
    ++ (if rawQuery ≠ "" then "?" ++ rawQuery else "")

/-! ## `client.go`: the URL of the Allocation API -/

/-- The loop `for k, v := range params` with its body `query.Add(k, v.(string))`; `none` is the
panic of the type assertion on a value that is not a string. -/
def addParams : Values → GoMap → Option Values
  | q, [] => some q
  | q, (k, .str v) :: ps => addParams (q.Add k v) ps
  | _, _ :: _ => none

/-- The instant `end` of `GetURL` in a location with one fixed offset: `now` with seconds and
nanoseconds set to zero by
`time.Date(now.Year(), now.Month(), now.Day(), now.Hour(), now.Minute(), 0, 0, now.Location())`.
In a location with zone transitions `time.Date` looks the zone up: `Zoned.windowEnd`. -/
def windowEnd (now : Time) : Time :=
  Date now.Year now.Month now.Day now.Hour now.Minute 0 0 now.offset

/-- The duration of `GetURL` (and the interval of `RecordMetrics`): `time.ParseDuration` of the
configured string, or of `"1m"` when that fails. -/
def windowDuration (lib : StdLib) (w : String) : Int :=
  match ParseDuration lib w with
  | some dur => dur
  | none => (ParseDuration lib "1m").getD 0

/-- The instant `start` of `GetURL`: `end.Add(-dur)`. -/
def windowStart (lib : StdLib) (w : String) (now : Time) : Time :=
  (windowEnd now).Add (negDuration (windowDuration lib w))

/-- The string `window` of `GetURL`: `fmt.Sprintf("%s,%s", start.Format(time.RFC3339),
end.Format(time.RFC3339))`. -/
def windowValue (lib : StdLib) (w : String) (now : Time) : String :=
  (windowStart lib w now).FormatRFC3339 ++ "," ++ (windowEnd now).FormatRFC3339

/-- The `url.Values` of `GetURL` after `query.Set("window", window)`; `none` is a panic: a
parameter that is not a string, or no string under `"window"`. -/
def getURLQuery (lib : StdLib) (params : GoMap) (now : Time) : Option Values :=
  match addParams [] params with
  | none => none
  | some query =>
    match index params "window" with
    | .str w => some (query.Set "window" (windowValue lib w now))
    | _ => none

/-- `AllocationAPIClient.GetURL(host, port, path, params)` of `client.go`, with the instant
`now` that `Now()` returns. -/
def GetURL (lib : StdLib) (host : String) (port : Int) (path : String) (params : GoMap)
    (now : Time) : Option String :=
  (getURLQuery lib params now).map (fun query =>
    urlString "http" (host ++ ":" ++ fmtInt port) path query.Encode)

/-! ## `client.go`: allocations -/

/-- The struct `Allocation` of `client.go`; every field defaults to its zero value. -/
structure Allocation where
  Name : String := ""
  Properties : GoMap := []
  Window : GoMap := []
  Start : String := ""
  End : String := ""
  Minutes : Float64 := Float64.zero
  CPUCores : Float64 := Float64.zero
  CPUCoreRequestAverage : Float64 := Float64.zero
  CPUCoreUsageAverage : Float64 := Float64.zero
  CPUCoreHours : Float64 := Float64.zero
  CPUCost : Float64 := Float64.zero
  CPUCostAdjustment : Float64 := Float64.zero
  CPUEfficiency : Float64 := Float64.zero
  GPUCount : Float64 := Float64.zero
  GPUHours : Float64 := Float64.zero
  GPUCost : Float64 := Float64.zero
  GPUCostAdjustment : Float64 := Float64.zero
  NetworkTransferBytes : Float64 := Float64.zero
  NetworkReceiveBytes : Float64 := Float64.zero
  NetworkCost : Float64 := Float64.zero
  NetworkCostAdjustment : Float64 := Float64.zero
  LoadBalancerCost : Float64 := Float64.zero
  LoadBalancerCostAdjustment : Float64 := Float64.zero
  PVBytes : Float64 := Float64.zero
  PVByteHours : Float64 := Float64.zero
  PVCost : Float64 := Float64.zero
  PVs : GoMap := []
  PVCostAdjustment : Float64 := Float64.zero
  RAMBytes : Float64 := Float64.zero
  RAMByteRequestAverage : Float64 := Float64.zero
  RAMByteUsageAverage : Float64 := Float64.zero
  RAMByteHours : Float64 := Float64.zero
  RAMCost : Float64 := Float64.zero
  RAMCostAdjustment : Float64 := Float64.zero
  RAMEfficiency : Float64 := Float64.zero
  SharedCost : Float64 := Float64.zero
  ExternalCost : Float64 := Float64.zero
  TotalCost : Float64 := Float64.zero
  TotalEfficiency : Float64 := Float64.zero
  RawAllocationOnly : GoMap := []

/-- The value of a struct field as `reflect` sees it: its kind and content. -/
inductive FieldValue where
  | string (s : String)
  | map (m : GoMap)
  | float (f : Float64)

/-- The fields of an `Allocation` by name, in the order of their declaration. -/
def Allocation.fields (a : Allocation) : List (String × FieldValue) :=
  [
   ("Name", FieldValue.string a.Name),
   ("Properties", FieldValue.map a.Properties),
   ("Window", FieldValue.map a.Window),
   ("Start", FieldValue.string a.Start),
   ("End", FieldValue.string a.End),
   ("Minutes", FieldValue.float a.Minutes),
   ("CPUCores", FieldValue.float a.CPUCores),
   ("CPUCoreRequestAverage", FieldValue.float a.CPUCoreRequestAverage),
   ("CPUCoreUsageAverage", FieldValue.float a.CPUCoreUsageAverage),
   ("CPUCoreHours", FieldValue.float a.CPUCoreHours),
   ("CPUCost", FieldValue.float a.CPUCost),
   ("CPUCostAdjustment", FieldValue.float a.CPUCostAdjustment),
   ("CPUEfficiency", FieldValue.float a.CPUEfficiency),
   ("GPUCount", FieldValue.float a.GPUCount),
   ("GPUHours", FieldValue.float a.GPUHours),
   ("GPUCost", FieldValue.float a.GPUCost),
   ("GPUCostAdjustment", FieldValue.float a.GPUCostAdjustment),
   ("NetworkTransferBytes", FieldValue.float a.NetworkTransferBytes),
   ("NetworkReceiveBytes", FieldValue.float a.NetworkReceiveBytes),
   ("NetworkCost", FieldValue.float a.NetworkCost),
   ("NetworkCostAdjustment", FieldValue.float a.NetworkCostAdjustment),
   ("LoadBalancerCost", FieldValue.float a.LoadBalancerCost),
   ("LoadBalancerCostAdjustment", FieldValue.float a.LoadBalancerCostAdjustment),
   ("PVBytes", FieldValue.float a.PVBytes),
   ("PVByteHours", FieldValue.float a.PVByteHours),
   ("PVCost", FieldValue.float a.PVCost),
   ("PVs", FieldValue.map a.PVs),
   ("PVCostAdjustment", FieldValue.float a.PVCostAdjustment),
   ("RAMBytes", FieldValue.float a.RAMBytes),
   ("RAMByteRequestAverage", FieldValue.float a.RAMByteRequestAverage),
   ("RAMByteUsageAverage", FieldValue.float a.RAMByteUsageAverage),
   ("RAMByteHours", FieldValue.float a.RAMByteHours),
   ("RAMCost", FieldValue.float a.RAMCost),
   ("RAMCostAdjustment", FieldValue.float a.RAMCostAdjustment),
   ("RAMEfficiency", FieldValue.float a.RAMEfficiency),
   ("SharedCost", FieldValue.float a.SharedCost),
   ("ExternalCost", FieldValue.float a.ExternalCost),
   ("TotalCost", FieldValue.float a.TotalCost),
   ("TotalEfficiency", FieldValue.float a.TotalEfficiency),
   ("RawAllocationOnly", FieldValue.map a.RawAllocationOnly)]

/-- The names of the fields of `Allocation` of type `float64`. -/
def numericFieldNames : List String :=
  [
   "Minutes", "CPUCores", "CPUCoreRequestAverage", "CPUCoreUsageAverage", "CPUCoreHours",
   "CPUCost", "CPUCostAdjustment", "CPUEfficiency", "GPUCount", "GPUHours", "GPUCost",
   "GPUCostAdjustment", "NetworkTransferBytes", "NetworkReceiveBytes", "NetworkCost",
   "NetworkCostAdjustment", "LoadBalancerCost", "LoadBalancerCostAdjustment", "PVBytes",
   "PVByteHours", "PVCost", "PVCostAdjustment", "RAMBytes", "RAMByteRequestAverage",
   "RAMByteUsageAverage", "RAMByteHours", "RAMCost", "RAMCostAdjustment", "RAMEfficiency",
   "SharedCost", "ExternalCost", "TotalCost", "TotalEfficiency"]

/-- `reflect.ValueOf(a).FieldByName(name)`: `none` is the zero `reflect.Value`, returned when
the struct has no field of that name. -/
def Allocation.FieldByName (a : Allocation) (name : String) : Option FieldValue :=
  a.fields.lookup name

/-- `Allocation.GetValueByFieldNameFloat(name)` of `client.go`: the zero `float64` when
`FieldByName` finds no field, else `fv.Float()`, which panics (`none`) on a field whose kind is
not a float. -/
def Allocation.GetValueByFieldNameFloat (a : Allocation) (name : String) : Option Float64 :=
  match a.FieldByName name with
  | none => some Float64.zero
  | some (FieldValue.float f) => some f
  | some _ => none

/-! ## `metrics.go` -/

/-- The configuration values that the core reads from Viper: `api.host`, `api.port`,
`api.path`, `api.parameters`, `server.update_interval` and the map under `metrics`. -/
structure Config where
  apiHost : String
  apiPort : Int
  apiPath : String
  apiParameters : GoMap
  updateInterval : String
  metrics : GoMap

/-- One entry of `GetPrometheusMetricsNames` or `GetPrometheusMetricsLabels`: the map with the
entries `k1: GetElementOrZeroValue[string](k1, e.(map[string]any))` and `k2: ...` as the pair
of its two values; `none` is the panic of a type assertion. -/
def stringPair (k1 k2 : String) (e : Value) : Option (String × String) :=
  match e with
  | .map em =>
    match GetElementOrZeroValue BasicType.string k1 em,
      GetElementOrZeroValue BasicType.string k2 em with
    | some (.str a), some (.str b) => some (a, b)
    | _, _ => none
  | _ => none

/-- The loop over the entries of `metrics.names` or `metrics.labels`. -/
def stringPairs (k1 k2 : String) : List Value → Option (List (String × String))
  | [] => some []
  | e :: es =>
    match stringPair k1 k2 e with
    | none => none
    | some pr => (stringPairs k1 k2 es).map (fun r => pr :: r)

/-- `GetPrometheusMetricsNames(v)`: the pairs (`name`, `field`) of `metrics.names`. -/
def GetPrometheusMetricsNames (cfg : Config) : Option (List (String × String)) :=
  match index cfg.metrics "names" with
  | .slice ns => stringPairs "name" "field" ns
  | _ => none

/-- `GetPrometheusMetricsLabels(v)`: the pairs (`name`, `key`) of `metrics.labels`. -/
def GetPrometheusMetricsLabels (cfg : Config) : Option (List (String × String)) :=
  match index cfg.metrics "labels" with
  | .slice ls => stringPairs "name" "key" ls
  | _ => none

/-- `GetPrometheusMetricsLabelNames(c)`. -/
def GetPrometheusMetricsLabelNames (cfg : Config) : Option (List String) :=
  (GetPrometheusMetricsLabels cfg).map (fun ls => ls.map Prod.fst)

/-- A `prometheus.Labels`, a `map[string]string`. -/
abbrev Labels := List (String × String)

/-- The assignment `labels[name] = v`. -/
def Labels.set : Labels → String → String → Labels
  | [], n, v => [(n, v)]
  | (n2, v2) :: ls, n, v => if n2 = n then (n2, v) :: ls else (n2, v2) :: Labels.set ls n v

/-- The value that `NewPrometheusLabelsFromValues` gives the label with the source key `key`:
the type switch on `GetElementFromKey(key, m)`, with the separator `","`. -/
def labelValue (lib : StdLib) (m : GoMap) (key : String) : Option String :=
  match GetElementFromKey key m with
  | .str s => some s
  | .slice xs => SortAndJoinSlice lib xs ","
  | .map kvs => some (SortAndJoinMap lib kvs ",")
  | _ => some ""

/-- The loop of `NewPrometheusLabelsFromValues` over the configured labels. -/
def fillLabels (lib : StdLib) (m : GoMap) : Labels → List (String × String) → Option Labels
  | labels, [] => some labels
  | labels, (name, key) :: ls =>
    match labelValue lib m key with
    | none => none
    | some v => fillLabels lib m (labels.set name v) ls

/-- `NewPrometheusLabelsFromValues(v, m)` of `metrics.go`. -/
def NewPrometheusLabelsFromValues (lib : StdLib) (cfg : Config) (m : GoMap) : Option Labels :=
  match GetPrometheusMetricsLabels cfg with
  | none => none
  | some ls => fillLabels lib m [] ls

/-- A `prometheus.GaugeVec`: its variable labels and the value of each gauge created so far,
keyed by the label values in the order of the variable labels. -/
structure GaugeVec where
  labelNames : List String
  gauges : List (List String × Float64)

/-- The label values of `ls` in the order of `names`; `none` when a name is missing. -/
def labelValues (ls : Labels) : List String → Option (List String)
  | [] => some []
  | n :: ns =>
    match ls.lookup n with
    | none => none
    | some v => (labelValues ls ns).map (fun r => v :: r)

/-- `metric.GetMetricWith(ls)`: the key of the gauge; `none` is the error returned when the
number or the names of the labels differ from the variable labels. -/
def GaugeVec.GetMetricWith (g : GaugeVec) (ls : Labels) : Option (List String) :=
  if ls.length = g.labelNames.length then labelValues ls g.labelNames else none

/-- `m.Set(x)` on the gauge with the key `key`. -/
def setGauge : List (List String × Float64) → List String → Float64
    → List (List String × Float64)
  | [], key, x => [(key, x)]
  | (k2, x2) :: gs, key, x => if k2 = key then (k2, x) :: gs else (k2, x2) :: setGauge gs key x

/-- `PrometheusMetrics`, a map from the name of a field of `Allocation` to its metric. -/
abbrev PrometheusMetrics := List (String × GaugeVec)

/-- `NewPrometheusMetrics(v)`: one `GaugeVec` per entry of `metrics.names`, stored under the
field name, all with the configured label names. -/
def NewPrometheusMetrics (cfg : Config) : Option PrometheusMetrics :=
  match GetPrometheusMetricsNames cfg, GetPrometheusMetricsLabelNames cfg with
  | some names, some labels =>
    some (names.foldl (fun (ms : PrometheusMetrics) n =>
      if (ms.lookup n.2).isSome then ms.map (fun e => if e.1 = n.2 then (e.1, ⟨labels, []⟩) else e)
      else ms ++ [(n.2, ⟨labels, []⟩)]) [])
  | _, _ => none

/-! ## `main.go`: the polling loop -/

/-- What `c.GetAllocation(url)` returns: the allocations and the error, if any. -/
structure FetchResult where
  allocations : List Allocation
  err : Option String

/-- The body of the loop over `metrics` in `RecordMetrics`, for the allocation `a` and the
metric stored under `name`. A label mismatch is logged and the metric skipped. -/
def updateMetric (lib : StdLib) (cfg : Config) (a : Allocation) (name : String)
    (metric : GaugeVec) : Option GaugeVec :=
  match NewPrometheusLabelsFromValues lib cfg a.Properties with
  | none => none
  | some ls =>
    match metric.GetMetricWith ls with
    | none => some metric
    | some key =>
      match a.GetValueByFieldNameFloat name with
      | none => none
      | some x => some ⟨metric.labelNames, setGauge metric.gauges key x⟩

/-- The loop `for name, metric := range metrics` for one allocation. -/
def updateMetrics (lib : StdLib) (cfg : Config) (a : Allocation) :
    PrometheusMetrics → Option PrometheusMetrics
  | [] => some []
  | (name, metric) :: ms =>
    match updateMetric lib cfg a name metric with
    | none => none
    | some g => (updateMetrics lib cfg a ms).map (fun r => (name, g) :: r)

/-- The loop `for _, a := range as`. -/
def updateAll (lib : StdLib) (cfg : Config) : List Allocation → PrometheusMetrics
    → Option PrometheusMetrics
  | [], ms => some ms
  | a :: as, ms =>
    match updateMetrics lib cfg a ms with
    | none => none
    | some ms2 => updateAll lib cfg as ms2

/-- The state of the goroutine started by `RecordMetrics`: the variables `url` and `i` that
its closure captures, and the gauges. -/
structure Poller where
  url : String
  interval : Int
  metrics : PrometheusMetrics

/-- `RecordMetrics(c, metrics)` up to the start of the goroutine, called at the instant `now`:
`url := c.GetURL(...)`, the interval with its fallback, and `time.NewTicker(i)`, which panics on
an interval that is not positive. -/
def RecordMetrics (lib : StdLib) (cfg : Config) (metrics : PrometheusMetrics) (now : Time) :
    Option Poller :=
  match GetURL lib cfg.apiHost cfg.apiPort cfg.apiPath cfg.apiParameters now with
  | none => none
  | some url =>
    if windowDuration lib cfg.updateInterval ≤ 0 then none
    else some ⟨url, windowDuration lib cfg.updateInterval, metrics⟩

/-- One round of the loop as its environment determines it: the instant at which the round
runs and what the Allocation API answers to a URL at that instant. -/
structure Tick where
  now : Time
  api : String → FetchResult

/-- One round of the loop of the goroutine: `c.GetAllocation(url)`, the update of the gauges,
then the wait for the ticker. Returns the URL requested and the next state. -/
def Poller.round (lib : StdLib) (cfg : Config) (p : Poller) (t : Tick) :
    Option (String × Poller) :=
  match updateAll lib cfg (t.api p.url).allocations p.metrics with
  | none => none
  | some ms => some (p.url, ⟨p.url, p.interval, ms⟩)

/-- The loop of the goroutine over the given rounds: the URLs requested, in order, and the
final state. -/
def Poller.run (lib : StdLib) (cfg : Config) : Poller → List Tick → Option (List String × Poller)
  | p, [] => some ([], p)
  | p, t :: ts =>
    match p.round lib cfg t with
    | none => none
    | some (u, p2) => (Poller.run lib cfg p2 ts).map (fun r => (u :: r.1, r.2))

/-! ## The specification's wording, for comparison -/

/-- Path resolution as the specification words it: each segment indexes one level deeper;
`none` is "not found", which is the result when a segment is absent from the mapping reached at
its level, or when a segment before the last resolves to a value that is not a mapping. -/
def resolvePath : List String → GoMap → Option Value
  | [], _ => none
  | [k], m => m.lookup k
  | k :: k2 :: ks, m =>
    match m.lookup k with
    | some (.map m2) => resolvePath (k2 :: ks) m2
    | _ => none

/-- A value is a string. -/
def Value.isStr : Value → Bool
  | .str _ => true
  | _ => false

/-- A value is an `int`. -/
def Value.isInt : Value → Bool
  | .int _ => true
  | _ => false

/-- A value is a `float64`. -/
def Value.isFloat : Value → Bool
  | .float _ => true
  | _ => false

/-- The `float64` held by a value (zero for a value that is not a `float64`). -/
def Value.getFloat : Value → Float64
  | .float f => f
  | _ => Float64.zero

/-- A sequence of `float64` values that `<` orders strictly: none is a NaN, and no two different
values compare equal (as the two zeros `0` and `-0` do). -/
def strictFloats (s : List Value) : Prop :=
  (∀ v ∈ s, v.isFloat = true ∧ v.getFloat.isNaN = false)
  ∧ ∀ v ∈ s, ∀ w ∈ s, v.getFloat.key = w.getFloat.key → v.getFloat = w.getFloat

/-- A value is a `bool`. -/
def Value.isBool : Value → Bool
  | .bool _ => true
  | _ => false

/-- A value is `nil`. -/
def Value.isNil : Value → Bool
  | .nil => true
  | _ => false

/-- The string held by a value (empty for a value that is not a string). -/
def Value.getStr : Value → String
  | .str s => s
  | _ => ""

/-- The integer held by a value (zero for a value that is not an `int`). -/
def Value.getInt : Value → Int
  | .int n => n
  | _ => 0

/-- The text of a scalar in a canonical string: a string as it is, an `int` in decimal (a sign
and digits, no decimal point). -/
def renderScalar : Value → String
  | .str s => s
  | .int n => toString n
  | _ => ""

/-- Go's `a < b` on `int`. -/
def intLess (a b : Int) : Bool := decide (a < b)

/-- A `url.Values` with the values of the first entry of the key `k` removed: two `url.Values`
that agree on it differ at most in the values of `k`. -/
def Values.clearFirst (k : String) : Values → Values
  | [] => []
  | (k2, vs) :: q => if k2 = k then (k2, []) :: q else (k2, vs) :: Values.clearFirst k q

/-- A standard library whose unmodelled results are all empty, to evaluate examples that do not
depend on them. -/
def sampleLib : StdLib := ⟨fun _ => "", fun _ => "", fun _ => "", fun _ => "", fun _ _ _ => 0⟩

/-- A standard library that prints the `float64` values of the examples as `fmt.Sprint` does:
the zeros `0` and `-0`, `1`, the values `1.1`, `2.2` and `3.3` of `TestSortAndJoinSlice`, and
the NaN of `math.NaN()`. -/
def floatLib : StdLib :=
  ⟨fun f =>
      if f.bits = 0 then "0"
      else if f.bits = 0x8000000000000000 then "-0"
      else if f.bits = 0x3FF0000000000000 then "1"
      else if f.bits = 0x3FF199999999999A then "1.1"
      else if f.bits = 0x400199999999999A then "2.2"
      else if f.bits = 0x400A666666666666 then "3.3"
      else if f.bits = 0x7FF8000000000001 then "NaN"
      else "",
    fun _ => "", fun _ => "", fun _ => "", fun _ _ _ => 0⟩

/-- The minimal value of a `time.Duration`. -/
def minDuration : Int := -(2 ^ 63)

/-- The instant 1970-01-01T01:33:07Z, to which `TestGetURL` sets `Now`. -/
def sampleNow : Time := ⟨5587000000000, 0⟩

/-- The parameters of the first case of `TestGetURL`. -/
def sampleParams : GoMap := [("window", Value.str "1m"), ("aggregate", Value.str "pod")]

/-- A configuration with the host, port, path and parameters of `TestGetURL`, an update
interval of one minute, one metric and one label. -/
def sampleConfig : Config :=
  { apiHost := "localhost"
    apiPort := 9003
    apiPath := "/allocation/compute"
    apiParameters := sampleParams
    updateInterval := "1m"
    metrics :=
      [("names", Value.slice
          [Value.map [("name", Value.str "cpu_cost"), ("field", Value.str "CPUCost")]]),
        ("labels", Value.slice
          [Value.map [("name", Value.str "namespace"), ("key", Value.str "namespace")]])] }

/-! ## `client.go`: fetching allocations -/

/-- The numeric fields of `Allocation`, each name with the field it names. -/
def numericAccessors : List (String × (Allocation → Float64)) :=
  [
   ("Minutes", Allocation.Minutes),
   ("CPUCores", Allocation.CPUCores),
   ("CPUCoreRequestAverage", Allocation.CPUCoreRequestAverage),
   ("CPUCoreUsageAverage", Allocation.CPUCoreUsageAverage),
   ("CPUCoreHours", Allocation.CPUCoreHours),
   ("CPUCost", Allocation.CPUCost),
   ("CPUCostAdjustment", Allocation.CPUCostAdjustment),
   ("CPUEfficiency", Allocation.CPUEfficiency),
   ("GPUCount", Allocation.GPUCount),
   ("GPUHours", Allocation.GPUHours),
   ("GPUCost", Allocation.GPUCost),
   ("GPUCostAdjustment", Allocation.GPUCostAdjustment),
   ("NetworkTransferBytes", Allocation.NetworkTransferBytes),
   ("NetworkReceiveBytes", Allocation.NetworkReceiveBytes),
   ("NetworkCost", Allocation.NetworkCost),
   ("NetworkCostAdjustment", Allocation.NetworkCostAdjustment),
   ("LoadBalancerCost", Allocation.LoadBalancerCost),
   ("LoadBalancerCostAdjustment", Allocation.LoadBalancerCostAdjustment),
   ("PVBytes", Allocation.PVBytes),
   ("PVByteHours", Allocation.PVByteHours),
   ("PVCost", Allocation.PVCost),
   ("PVCostAdjustment", Allocation.PVCostAdjustment),
   ("RAMBytes", Allocation.RAMBytes),
   ("RAMByteRequestAverage", Allocation.RAMByteRequestAverage),
   ("RAMByteUsageAverage", Allocation.RAMByteUsageAverage),
   ("RAMByteHours", Allocation.RAMByteHours),
   ("RAMCost", Allocation.RAMCost),
   ("RAMCostAdjustment", Allocation.RAMCostAdjustment),
   ("RAMEfficiency", Allocation.RAMEfficiency),
   ("SharedCost", Allocation.SharedCost),
   ("ExternalCost", Allocation.ExternalCost),
   ("TotalCost", Allocation.TotalCost),
   ("TotalEfficiency", Allocation.TotalEfficiency)]

/-- A Go `error`: one made by `errors.New(text)`, or one made by `fmt.Errorf` with the verb `%w`,
which has its own text and wraps the error given for `%w`. An error value is identified by its
structure. -/
inductive GoError where
  | new (text : String)
  | wrap (text : String) (inner : GoError)
deriving DecidableEq, Repr

/-- `err.Error()`. -/
def GoError.Error : GoError → String
  | .new text => text
  | .wrap text _ => text

/-- `errors.Is(err, target)`: `target` is `err` or an error in the chain that `err` wraps. -/
def GoError.Is : GoError → GoError → Bool
  | .new text, target => decide (GoError.new text = target)
  | .wrap text inner, target => decide (GoError.wrap text inner = target) || inner.Is target

/-- The sentinel `ErrFailedAllocationAPICall` of `client.go`. -/
def ErrFailedAllocationAPICall : GoError :=
  GoError.new "Failed to retrieve cost allocation data from Allocation API"

/-- `fmt.Errorf("%w: ...", ErrFailedAllocationAPICall, ...)`, where `detail` is the text that
the rest of the format gives. -/
def errFailed (detail : String) : GoError :=
  GoError.wrap (ErrFailedAllocationAPICall.Error ++ ": " ++ detail) ErrFailedAllocationAPICall

/-- An `http.Response` as `GetAllocation` uses it: the status code and what
`io.ReadAll(resp.Body)` returns. -/
structure HTTPResponse where
  StatusCode : Int
  Body : Except GoError String

/-- The struct `Response` of `client.go`, the envelope of the Allocation API; a map of `Data`
is the list of its entries in the order in which `range` enumerates them. -/
structure Response where
  Code : Int
  Status : String
  Data : List (List (String × Allocation))
  Message : String
  Warning : String

/-- What `GetAllocation` returns: the slice of allocations (`none` is the `nil` slice) and the
error (`none` is the `nil` error). -/
structure AllocationResult where
  allocations : Option (List Allocation)
  err : Option GoError

/-- The loop of `GetAllocation` over one aggregation: the key is discarded and the allocation
appended. -/
def appendAggregation (as : List Allocation) (aggregation : List (String × Allocation)) :
    List Allocation :=
  aggregation.foldl (fun acc e => acc ++ [e.2]) as

/-- `AllocationAPIClient.GetAllocation(url)` of `client.go`. `get` is `c.Client.Get` and
`unmarshal` is `json.Unmarshal` into a `Response`. -/
def GetAllocation (unmarshal : String → Except GoError Response)
    (get : String → Except GoError HTTPResponse) (url : String) : AllocationResult :=
  match get url with
  | .error err => ⟨none, some (errFailed err.Error)⟩
  | .ok resp =>
    if resp.StatusCode ≠ 200 then
      ⟨none, some (errFailed ("unexpected status code: " ++ fmtInt resp.StatusCode))⟩
    else
      match resp.Body with
      | .error err => ⟨none, some (errFailed ("unable to read response body: " ++ err.Error))⟩
      | .ok body =>
        match unmarshal body with
        | .error err =>
          ⟨none, some (errFailed ("unable to unmarshal response JSON: " ++ err.Error))⟩
        | .ok r => ⟨some (r.Data.foldl appendAggregation []), none⟩

/-- What the loop of `RecordMetrics` sees of a result of `GetAllocation`: ranging over a `nil`
slice runs no iteration, and the error is logged with its text. -/
def AllocationResult.toFetchResult (r : AllocationResult) : FetchResult :=
  ⟨r.allocations.getD [], r.err.map GoError.Error⟩

/-- The four failure conditions of a fetch, each with what it carries. -/
inductive FetchFailure where
  | transport (cause : GoError)
  | status (code : Int)
  | readBody (cause : GoError)
  | decode (cause : GoError)

/-- The failure condition, if any, of a fetch of `url`: the GET fails, the status is not 200,
the body cannot be read, or the envelope cannot be decoded. -/
def fetchFailure (unmarshal : String → Except GoError Response)
    (get : String → Except GoError HTTPResponse) (url : String) : Option FetchFailure :=
  match get url with
  | .error cause => some (FetchFailure.transport cause)
  | .ok resp =>
    if resp.StatusCode ≠ 200 then some (FetchFailure.status resp.StatusCode)
    else
      match resp.Body with
      | .error cause => some (FetchFailure.readBody cause)
      | .ok body =>
        match unmarshal body with
        | .error cause => some (FetchFailure.decode cause)
        | .ok _ => none

/-- The text that follows the text of the sentinel and `": "` in the error of a failure. -/
def FetchFailure.detail : FetchFailure → String
  | .transport cause => cause.Error
  | .status code => "unexpected status code: " ++ fmtInt code
  | .readBody cause => "unable to read response body: " ++ cause.Error
  | .decode cause => "unable to unmarshal response JSON: " ++ cause.Error

/-- Two failures are of the same one of the four conditions. -/
def FetchFailure.sameKind : FetchFailure → FetchFailure → Bool
  | .transport _, .transport _ => true
  | .status _, .status _ => true
  | .readBody _, .readBody _ => true
  | .decode _, .decode _ => true
  | _, _ => false

/-- A failure is a transport failure. -/
def FetchFailure.isTransport : FetchFailure → Bool
  | .transport _ => true
  | _ => false

/-! ## Shapes of values and of the metric configuration, for the statements -/

/-- A value that has a canonical string in `NewPrometheusLabelsFromValues`: a string, a
sequence or a mapping. Every other value (`nil`, a boolean, a number) has none. -/
def Value.hasCanonicalForm : Value → Bool
  | .str _ => true
  | .slice _ => true
  | .map _ => true
  | _ => false

/-- An entry of `metrics.names` or `metrics.labels` as the specification wants it: a mapping
that carries a string under each of its two keys. -/
def entryCarries (k1 k2 : String) (e : Value) : Bool :=
  match e with
  | .map em => (index em k1).isStr && (index em k2).isStr
  | _ => false

/-- A `metrics.names` or `metrics.labels` as the specification wants it: a list whose entries
all carry their two strings. An absent key is the value `nil`, which is no list. -/
def listWellFormed (k1 k2 : String) (v : Value) : Bool :=
  match v with
  | .slice es => es.all (entryCarries k1 k2)
  | _ => false

/-- An entry that the code accepts: a mapping in which each of the two keys is absent (or
`nil`) or holds a string. -/
def entryAccepted (k1 k2 : String) (e : Value) : Bool :=
  match e with
  | .map em =>
    ((index em k1).isStr || (index em k1).isNil) && ((index em k2).isStr || (index em k2).isNil)
  | _ => false

/-- A `metrics.names` or `metrics.labels` that the code accepts: a list of accepted entries. -/
def listAccepted (k1 k2 : String) (v : Value) : Bool :=
  match v with
  | .slice es => es.all (entryAccepted k1 k2)
  | _ => false

/-- The configuration of the third case of `TestNewPrometheusLabelsFromValues`. -/
def testConfig : Config :=
  { apiHost := ""
    apiPort := 0
    apiPath := ""
    apiParameters := []
    updateInterval := ""
    metrics :=
      [("namespace", Value.str "namespace"), ("subsystem", Value.str "subsystem"),
        ("names", Value.slice
          [Value.map [("name", Value.str "name"), ("field", Value.str "field")]]),
        ("labels", Value.slice
          [Value.map [("name", Value.str "label_a"), ("key", Value.str "key1.key2")],
            Value.map [("name", Value.str "label_b"), ("key", Value.str "key2")],
            Value.map [("name", Value.str "label_c"), ("key", Value.str "key3")]])] }

/-- The properties of the third case of `TestNewPrometheusLabelsFromValues`. -/
def testProperties : GoMap :=
  [("key1", Value.map [("key2", Value.str "value1")]),
    ("key2", Value.slice [Value.str "value2a", Value.str "value2b", Value.str "value2c"]),
    ("key3", Value.map [("key3a", Value.str "value3a"), ("key3b", Value.str "value3b"),
      ("key3c", Value.str "value3c")])]

/-- The two strings of an entry of `metrics.names` or `metrics.labels`: the string under each
of the two keys, empty where the entry holds none. -/
def entryStrings (k1 k2 : String) (e : Value) : String × String :=
  match e with
  | .map em => ((index em k1).getStr, (index em k2).getStr)
  | _ => ("", "")

/-- A configuration whose one metric has no `field` and whose one label has no `key`. -/
def noFieldConfig : Config :=
  { apiHost := ""
    apiPort := 0
    apiPath := ""
    apiParameters := []
    updateInterval := ""
    metrics :=
      [("names", Value.slice [Value.map [("name", Value.str "cpu_cost")]]),
        ("labels", Value.slice [Value.map [("name", Value.str "pod")]])] }

/-! ## The properties mapping as a variable: `sort.Slice` sorts in place -/

/-- The map after the value stored under the key `k` is overwritten by `v` (a map without the
key is left as it is). -/
def replaceValue : GoMap → String → Value → GoMap
  | [], _, _ => []
  | (k2, v2) :: m, k, v => if k2 = k then (k2, v) :: m else (k2, v2) :: replaceValue m k v

/-- The map `m` after the elements of the slice that `getElementFromKeys ks m` returns are
overwritten by `xs`: the `[]any` that `GetElementFromKey` returns shares its backing array with
the slice stored in the (nested) map, so writing its elements writes the stored slice. -/
def writeSliceAt : List String → GoMap → List Value → GoMap
  | [], m, _ => m
  | [k], m, xs =>
    match index m k with
    | .slice _ => replaceValue m k (Value.slice xs)
    | _ => m
  | k :: k2 :: ks, m, xs =>
    match index m k with
    | .map m2 => replaceValue m k (Value.map (writeSliceAt (k2 :: ks) m2 xs))
    | _ => m

/-- `SortAndJoinSlice(x, sep)` with its effect on `x`: the elements of `x` after the call
(`sort.Slice` has sorted them in place) and the string returned; `none` is a panic. -/
def SortAndJoinSliceInPlace (lib : StdLib) (x : List Value) (sep : String) :
    Option (List Value × String) :=
  match x with
  | [] => none
  | x0 :: _ => (sortByFirst x0 x).map (fun sorted => (sorted, Join (sorted.map (Sprint lib)) sep))

/-- One round of the loop of `NewPrometheusLabelsFromValues` with its effect on `m`: the map
after the round and the value of the label. Only the case `[]any` writes, through
`SortAndJoinSlice`. -/
def labelStep (lib : StdLib) (m : GoMap) (key : String) : Option (GoMap × String) :=
  match GetElementFromKey key m with
  | .str s => some (m, s)
  | .slice xs =>
    (SortAndJoinSliceInPlace lib xs ",").map (fun r => (writeSliceAt (Split key '.') m r.1, r.2))
  | .map kvs => some (m, SortAndJoinMap lib kvs ",")
  | _ => some (m, "")

/-- The loop of `NewPrometheusLabelsFromValues` with its effect on `m`. -/
def fillLabelsInPlace (lib : StdLib) : GoMap → Labels → List (String × String)
    → Option (GoMap × Labels)
  | m, labels, [] => some (m, labels)
  | m, labels, (name, key) :: ls =>
    match labelStep lib m key with
    | none => none
    | some r => fillLabelsInPlace lib r.1 (labels.set name r.2) ls

/-- `NewPrometheusLabelsFromValues(v, m)` with its effect on `m`: the map after the call and
the labels returned. -/
def NewPrometheusLabelsFromValuesInPlace (lib : StdLib) (cfg : Config) (m : GoMap) :
    Option (GoMap × Labels) :=
  match GetPrometheusMetricsLabels cfg with
  | none => none
  | some ls => fillLabelsInPlace lib m [] ls

/-- The value `w` holds what `v` holds up to the order of a sequence: the same scalar, a
sequence with the same elements, or a mapping with the same keys (the values of a mapping are
compared at their own paths). -/
def Value.sameUpToOrder (v w : Value) : Prop :=
  match v with
  | .slice xs => ∃ ys, w = Value.slice ys ∧ ys.Perm xs
  | .map kvs => ∃ kvs2, w = Value.map kvs2 ∧ kvs2.map Prod.fst = kvs.map Prod.fst
  | _ => w = v

/-- A value is a sequence. -/
def Value.isSlice : Value → Bool
  | .slice _ => true
  | _ => false

/-- The type switch of `NewPrometheusLabelsFromValues` on the element `elem`: the value of the
label, with the separator `","`. -/
def canonicalString (lib : StdLib) (elem : Value) : Option String :=
  match elem with
  | .str s => some s
  | .slice xs => SortAndJoinSlice lib xs ","
  | .map kvs => some (SortAndJoinMap lib kvs ",")
  | _ => some ""

/-- A sequence of strings only, or of integers only. -/
def homogeneous (xs : List Value) : Prop :=
  (∀ v ∈ xs, v.isStr = true) ∨ (∀ v ∈ xs, v.isInt = true)

/-! ## Package `time`: locations with zone transitions -/

/-- A zone of a location as `Location.lookup` returns it: the seconds east of UTC, and the Unix
seconds `start` and `stop` between which the zone is in effect (`start` included). -/
structure Zone where
  offset : Int
  start : Int
  stop : Int
deriving DecidableEq, Repr

/-- A `time.Location`: `lookup sec` is the zone in effect at the Unix second `sec`. -/
structure Location where
  lookup : Int → Zone

/-- `time.FixedZone(name, offset)`, and `time.UTC` for the offset zero: one zone at all times,
for which `lookup` returns the bounds `alpha` and `omega`. -/
def FixedZone (offset : Int) : Location := ⟨fun _ => ⟨offset, -(2 ^ 63), 2 ^ 63 - 1⟩⟩

/-- The location `America/New_York` in 2021: UTC-5 until 2021-03-14T07:00:00Z, UTC-4 until
2021-11-07T06:00:00Z, then UTC-5 again (the zones in effect before 2020-11-01 and after
2022-03-13 are left out). -/
def newYork2021 : Location :=
  ⟨fun sec =>
    if sec < 1615705200 then ⟨-18000, 1604210400, 1615705200⟩
    else if sec < 1636264800 then ⟨-14400, 1615705200, 1636264800⟩
    else ⟨-18000, 1636264800, 1647154800⟩⟩

namespace Zoned

/-- A `time.Time`: nanoseconds since 1970-01-01T00:00:00Z and the location. -/
structure Time where
  unixNano : Int
  loc : Location

/-- The Unix second of an instant. -/
def Time.unixSec (t : Time) : Int := t.unixNano / 1000000000

/-- The offset in effect at an instant in its location (`l.lookup(sec)` in `Time.abs`). -/
def Time.offset (t : Time) : Int := (t.loc.lookup t.unixSec).offset

/-- Wall-clock seconds of an instant in its location, counted from 1970-01-01T00:00:00. -/
def Time.wallSec (t : Time) : Int := t.unixSec + t.offset

/-- `t.Year()`. -/
def Time.Year (t : Time) : Int := (civilFromDays (t.wallSec / 86400)).1

/-- `t.Month()`, as a number in `1..12`. -/
def Time.Month (t : Time) : Int := (civilFromDays (t.wallSec / 86400)).2.1

/-- `t.Day()`. -/
def Time.Day (t : Time) : Int := (civilFromDays (t.wallSec / 86400)).2.2

/-- `t.Hour()`. -/
def Time.Hour (t : Time) : Int := t.wallSec % 86400 / 3600

/-- `t.Minute()`. -/
def Time.Minute (t : Time) : Int := t.wallSec % 3600 / 60

/-- `t.Second()`. -/
def Time.Second (t : Time) : Int := t.wallSec % 60

/-- `t.Nanosecond()`. -/
def Time.Nanosecond (t : Time) : Int := t.unixNano % 1000000000

/-- The wall clock of `time.Date` read as if it were UTC: the value `unix` before the zone
offset is taken off. -/
def dateUnix (year month day hour min sec : Int) : Int :=
  daysFromCivil year month day * 86400 + hour * 3600 + min * 60 + sec

/-- The zone offset that `time.Date` takes off `unix`: that of `l.lookup(unix)`, unless
`unix - offset` lies outside the bounds of that zone, then that of `l.lookup(unix - offset)`;
nothing is looked up again for the offset zero. -/
def dateOffset (loc : Location) (unix : Int) : Int :=
  if (loc.lookup unix).offset ≠ 0 then
    if unix - (loc.lookup unix).offset < (loc.lookup unix).start
        ∨ unix - (loc.lookup unix).offset ≥ (loc.lookup unix).stop then
      (loc.lookup (unix - (loc.lookup unix).offset)).offset
    else (loc.lookup unix).offset
  else 0

/-- `time.Date(year, month, day, hour, min, sec, nsec, loc)` for fields in their ranges (the
only calls the exporter makes). -/
def Date (year month day hour min sec nsec : Int) (loc : Location) : Time :=
  ⟨(dateUnix year month day hour min sec
      - dateOffset loc (dateUnix year month day hour min sec)) * 1000000000 + nsec, loc⟩

/-- `t.Add(d)`. -/
def Time.Add (t : Time) (d : Int) : Time := ⟨t.unixNano + d, t.loc⟩

/-- `t.Format(time.RFC3339)`, the layout `2006-01-02T15:04:05Z07:00`, with the zone in effect
at `t`. -/
def Time.FormatRFC3339 (t : Time) : String :=
  appendInt t.Year 4 ++ "-" ++ appendInt t.Month 2 ++ "-" ++ appendInt t.Day 2 ++ "T"
    ++ appendInt t.Hour 2 ++ ":" ++ appendInt t.Minute 2 ++ ":" ++ appendInt t.Second 2
    ++ formatZone t.offset

/-- The instant `end` of `GetURL`:
`time.Date(now.Year(), now.Month(), now.Day(), now.Hour(), now.Minute(), 0, 0, now.Location())`. -/
def windowEnd (now : Time) : Time :=
  Date now.Year now.Month now.Day now.Hour now.Minute 0 0 now.loc

/-- The instant `start` of `GetURL`: `end.Add(-dur)`. -/
def windowStart (lib : StdLib) (w : String) (now : Time) : Time :=
  (windowEnd now).Add (negDuration (windowDuration lib w))

/-- The string `window` of `GetURL`: `fmt.Sprintf("%s,%s", start.Format(time.RFC3339),
end.Format(time.RFC3339))`. -/
def windowValue (lib : StdLib) (w : String) (now : Time) : String :=
  (windowStart lib w now).FormatRFC3339 ++ "," ++ (windowEnd now).FormatRFC3339

/-- The `url.Values` of `GetURL` after `query.Set("window", window)`; `none` is a panic: a
parameter that is not a string, or no string under `"window"`. -/
def getURLQuery (lib : StdLib) (params : GoMap) (now : Time) : Option Values :=
  match addParams [] params with
  | none => none
  | some query =>
    match index params "window" with
    | .str w => some (query.Set "window" (windowValue lib w now))
    | _ => none

/-- `AllocationAPIClient.GetURL(host, port, path, params)` of `client.go`, with the instant
`now` that `Now()` returns, in any location. -/
def GetURL (lib : StdLib) (host : String) (port : Int) (path : String) (params : GoMap)
    (now : Time) : Option String :=
  (getURLQuery lib params now).map (fun query =>
    urlString "http" (host ++ ":" ++ fmtInt port) path query.Encode)

/-- The offset in effect at `now` is the one that `time.Date` finds for the minute of `now`: it
is also in effect at the Unix second that equals the wall clock of that minute, and at the
start of that minute. Both hold at every instant of a location with a fixed offset; they can
fail within the length of the offset of a zone transition. -/
def Time.settled (now : Time) : Prop :=
  (now.loc.lookup (now.wallSec - now.wallSec % 60)).offset = now.offset
  ∧ (now.loc.lookup (now.wallSec - now.wallSec % 60 - now.offset)).offset = now.offset

end Zoned

/-- An instant of a location with a fixed offset as an instant of `FixedZone offset`. -/
def Time.inFixedZone (t : Time) : Zoned.Time := ⟨t.unixNano, FixedZone t.offset⟩

/-- The instant 2021-11-07T01:30:30-05:00 in `America/New_York`, half an hour after the clocks
were set back from 02:00 UTC-4 to 01:00 UTC-5. -/
def nyFallBack : Zoned.Time := ⟨1636266630000000000, newYork2021⟩

/-- The instant 2021-07-01T12:00:30-04:00 in `America/New_York`. -/
def nySummer : Zoned.Time := ⟨1625155230000000000, newYork2021⟩

/-! ## Sorting -/

theorem strLess_iff (a b : String) : strLess a b = true ↔ a < b := by
  simp [strLess, String.lt_iff_toList_lt]

theorem insertLess_perm {α : Type} (less : α → α → Bool) (a : α) (l : List α) :
    (insertLess less a l).Perm (a :: l) := by
  induction l with
  | nil => simp [insertLess]
  | cons b l ih =>
    simp only [insertLess]
    split
    · exact List.Perm.refl _
    · exact (ih.cons b).trans (List.Perm.swap a b l)

theorem sortLess_perm {α : Type} (less : α → α → Bool) (l : List α) :
    (sortLess less l).Perm l := by
  induction l with
  | nil => simp [sortLess]
  | cons a l ih => exact (insertLess_perm less a _).trans (ih.cons a)

theorem insertLess_sorted {α : Type} [LinearOrder α] (less : α → α → Bool)
    (h : ∀ a b, less a b = true ↔ a < b) (a : α) (l : List α) (hl : l.Sorted (· ≤ ·)) :
    (insertLess less a l).Sorted (· ≤ ·) := by
  induction l with
  | nil => simp [insertLess]
  | cons b l ih =>
    simp only [insertLess]
    have hb := List.sorted_cons.1 hl
    split
    · rename_i hab
      have hab2 : a < b := (h a b).1 hab
      refine List.sorted_cons.2 ⟨?_, hl⟩
      intro c hc
      rcases List.mem_cons.1 hc with rfl | hc
      · exact hab2.le
      · exact hab2.le.trans (hb.1 c hc)
    · rename_i hab
      have hba : b ≤ a := not_lt.1 (fun hlt => hab ((h a b).2 hlt))
      refine List.sorted_cons.2 ⟨?_, ih hb.2⟩
      intro c hc
      rcases List.mem_cons.1 ((insertLess_perm less a l).mem_iff.1 hc) with rfl | hc
      · exact hba
      · exact hb.1 c hc

theorem sortLess_sorted {α : Type} [LinearOrder α] (less : α → α → Bool)
    (h : ∀ a b, less a b = true ↔ a < b) (l : List α) : (sortLess less l).Sorted (· ≤ ·) := by
  induction l with
  | nil => simp [sortLess]
  | cons a l ih => exact insertLess_sorted less h a _ ih

theorem sortLess_eq_of_perm {α : Type} [LinearOrder α] (less : α → α → Bool)
    (h : ∀ a b, less a b = true ↔ a < b) {l l2 : List α} (hp : l.Perm l2) :
    sortLess less l = sortLess less l2 :=
  List.eq_of_perm_of_sorted
    (((sortLess_perm less l).trans hp).trans (sortLess_perm less l2).symm)
    (sortLess_sorted less h l) (sortLess_sorted less h l2)

/-- Insertion into elements whose keys descend keeps the elements and the descent, when the
comparator is `<` on the keys. -/
theorem insertSorted_keyed {α β γ : Type} [LinearOrder γ] (f : β → α) (k : β → γ)
    (lessV : α → α → Option Bool) (a : β) :
    ∀ rev : List β, (∀ b ∈ rev, lessV (f a) (f b) = some (decide (k a < k b))) →
      (rev.map k).Sorted (· ≥ ·) →
      ∃ r : List β, insertSorted lessV (f a) (rev.map f) = some (r.map f) ∧ r.Perm (a :: rev)
        ∧ (r.map k).Sorted (· ≥ ·) := by
  intro rev
  induction rev with
  | nil => intro _ _; exact ⟨[a], rfl, List.Perm.refl _, by simp⟩
  | cons b l ih =>
    intro h hs
    have hb := h b (List.mem_cons_self _ _)
    simp only [List.map_cons, List.sorted_cons] at hs
    simp only [List.map_cons, insertSorted, hb]
    by_cases hlt : k a < k b
    · simp only [hlt, decide_True]
      obtain ⟨r, hr, hp, hsr⟩ := ih (fun c hc => h c (List.mem_cons_of_mem _ hc)) hs.2
      refine ⟨b :: r, by rw [hr]; rfl, (hp.cons b).trans (List.Perm.swap a b l), ?_⟩
      simp only [List.map_cons, List.sorted_cons]
      refine ⟨?_, hsr⟩
      intro c hc
      have hc2 : c ∈ (a :: l).map k := (hp.map k).mem_iff.1 hc
      simp only [List.map_cons, List.mem_cons] at hc2
      rcases hc2 with h1 | h1
      · rw [h1]; exact hlt.le
      · exact hs.1 c h1
    · simp only [hlt, decide_False]
      refine ⟨a :: b :: l, rfl, List.Perm.refl _, ?_⟩
      simp only [List.map_cons, List.sorted_cons]
      refine ⟨?_, hs⟩
      intro c hc
      rcases List.mem_cons.1 hc with h1 | h1
      · rw [h1]; exact not_lt.1 hlt
      · exact le_trans (hs.1 c h1) (not_lt.1 hlt)

theorem sortFrom_keyed {α β γ : Type} [LinearOrder γ] (f : β → α) (k : β → γ)
    (lessV : α → α → Option Bool) :
    ∀ (l rev : List β),
      (∀ a ∈ rev ++ l, ∀ b ∈ rev ++ l, lessV (f a) (f b) = some (decide (k a < k b))) →
      (rev.map k).Sorted (· ≥ ·) →
      ∃ r : List β, sortFrom lessV (rev.map f) (l.map f) = some (r.map f) ∧ r.Perm (rev ++ l)
        ∧ (r.map k).Sorted (· ≤ ·) := by
  intro l
  induction l with
  | nil =>
    intro rev _ hs
    refine ⟨rev.reverse, ?_, ?_, ?_⟩
    · simp only [List.map_nil, sortFrom, List.map_reverse]
    · simp
    · rw [List.map_reverse]
      exact List.pairwise_reverse.2 hs
  | cons a l ih =>
    intro rev h hs
    obtain ⟨r1, hr1, hp1, hs1⟩ := insertSorted_keyed f k lessV a rev
      (fun b hb => h a (by simp) b (by simp [hb])) hs
    have hmem : ∀ c ∈ r1 ++ l, c ∈ rev ++ a :: l := by
      intro c hc
      rcases List.mem_append.1 hc with h1 | h1
      · rcases List.mem_cons.1 (hp1.mem_iff.1 h1) with h2 | h2
        · simp [h2]
        · simp [h2]
      · simp [h1]
    obtain ⟨r, hr, hp, hsr⟩ := ih r1 (fun c hc d hd => h c (hmem c hc) d (hmem d hd)) hs1
    refine ⟨r, ?_, ?_, hsr⟩
    · simp only [List.map_cons, sortFrom, hr1, Option.some_bind]
      exact hr
    · exact hp.trans ((hp1.append_right l).trans List.perm_middle.symm)

/-- The result of `sort.Slice` when the comparator is `<` on keys of the elements: the
elements, with their keys in ascending order. -/
theorem sortSlice_keyed {α β γ : Type} [LinearOrder γ] (f : β → α) (k : β → γ)
    (lessV : α → α → Option Bool) (l : List β)
    (h : ∀ a ∈ l, ∀ b ∈ l, lessV (f a) (f b) = some (decide (k a < k b))) :
    ∃ r : List β, sortSlice lessV (l.map f) = some (r.map f) ∧ r.Perm l
      ∧ (r.map k).Sorted (· ≤ ·) := by
  obtain ⟨r, hr, hp, hs⟩ := sortFrom_keyed f k lessV l []
    (by simpa using h) (by simp)
  exact ⟨r, hr, by simpa using hp, hs⟩

theorem sortSlice_map {α β : Type} [LinearOrder β] (f : β → α)
    (lessV : α → α → Option Bool) (less : β → β → Bool)
    (h : ∀ a b, lessV (f a) (f b) = some (less a b))
    (hlt : ∀ a b, less a b = true ↔ a < b) (l : List β) :
    sortSlice lessV (l.map f) = some ((sortLess less l).map f) := by
  obtain ⟨r, hr, hp, hs⟩ := sortSlice_keyed f id lessV l (fun a _ b _ => by
    rw [h]
    congr 1
    rw [Bool.eq_iff_iff]
    simp [hlt])
  have he : r = sortLess less l :=
    List.eq_of_perm_of_sorted (hp.trans (sortLess_perm less l).symm)
      (by simpa using hs) (sortLess_sorted less hlt l)
  rw [hr, he]

/-- `SortAndJoinSlice` on a slice of strings: a panic on the empty slice, else the strings in
sorted order, joined. -/
theorem SortAndJoinSlice_strings (lib : StdLib) (xs : List String) (sep : String) :
    SortAndJoinSlice lib (xs.map Value.str) sep
      = if xs = [] then none else some (Join (sortLess strLess xs) sep) := by
  cases xs with
  | nil => simp [SortAndJoinSlice]
  | cons a l =>
    have hs := sortSlice_map Value.str lessString strLess (fun _ _ => rfl) strLess_iff (a :: l)
    simp only [List.map_cons] at hs
    simp only [List.map_cons, SortAndJoinSlice, sortByFirst, hs, Option.map_some', List.map_map]
    have : (Sprint lib ∘ Value.str) = id := by funext s; rfl
    simp [this]

/-- `SortAndJoinSlice` on a slice of integers. -/
theorem SortAndJoinSlice_ints (lib : StdLib) (ns : List Int) (sep : String) :
    SortAndJoinSlice lib (ns.map Value.int) sep
      = if ns = [] then none
        else some (Join ((sortLess intLess ns).map fmtInt) sep) := by
  cases ns with
  | nil => simp [SortAndJoinSlice]
  | cons a l =>
    have hs := sortSlice_map Value.int lessInt intLess (fun _ _ => rfl)
      (fun a b => by simp [intLess]) (a :: l)
    simp only [List.map_cons] at hs
    simp only [List.map_cons, SortAndJoinSlice, sortByFirst, hs, Option.map_some', List.map_map]
    have : (Sprint lib ∘ Value.int) = fmtInt := by funext s; rfl
    simp [this]


theorem intLess_iff (a b : Int) : intLess a b = true ↔ a < b := by
  simp [intLess]

theorem map_str_getStr (s : List Value) (h : ∀ v ∈ s, v.isStr = true) :
    (s.map Value.getStr).map Value.str = s := by
  induction s with
  | nil => rfl
  | cons v l ih =>
    have hv := h v (List.mem_cons_self _ _)
    have hl := ih (fun w hw => h w (List.mem_cons_of_mem _ hw))
    cases v <;> simp_all [Value.isStr, Value.getStr]

theorem map_int_getInt (s : List Value) (h : ∀ v ∈ s, v.isInt = true) :
    (s.map Value.getInt).map Value.int = s := by
  induction s with
  | nil => rfl
  | cons v l ih =>
    have hv := h v (List.mem_cons_self _ _)
    have hl := ih (fun w hw => h w (List.mem_cons_of_mem _ hw))
    cases v <;> simp_all [Value.isInt, Value.getInt]

theorem map_float_getFloat (s : List Value) (h : ∀ v ∈ s, v.isFloat = true) :
    (s.map Value.getFloat).map Value.float = s := by
  induction s with
  | nil => rfl
  | cons v l ih =>
    have hv := h v (List.mem_cons_self _ _)
    have hl := ih (fun w hw => h w (List.mem_cons_of_mem _ hw))
    cases v <;> simp_all [Value.isFloat, Value.getFloat]

/-- `SortAndJoinSlice` on a slice of `float64` values without a NaN: a panic on the empty slice,
else the values with their order keys ascending, printed and joined. -/
theorem SortAndJoinSlice_floats (lib : StdLib) (l : List Float64) (sep : String)
    (hn : ∀ a ∈ l, a.isNaN = false) (hl : l ≠ []) :
    ∃ r : List Float64, r.Perm l ∧ (r.map Float64.key).Sorted (· ≤ ·)
      ∧ SortAndJoinSlice lib (l.map Value.float) sep
          = some (Join (r.map lib.sprintFloat) sep) := by
  obtain ⟨r, hr, hp, hs⟩ := sortSlice_keyed Value.float Float64.key lessFloat l (by
    intro a ha b hb
    simp [lessFloat, floatLess, hn a ha, hn b hb])
  refine ⟨r, hp, hs, ?_⟩
  cases l with
  | nil => exact absurd rfl hl
  | cons a l =>
    simp only [List.map_cons] at hr
    simp only [List.map_cons, SortAndJoinSlice, sortByFirst, hr, Option.map_some',
      List.map_map]
    rfl

theorem map_eq_of_injOn {β γ : Type} (k : β → γ) :
    ∀ (r r2 : List β), (∀ a ∈ r, ∀ b ∈ r2, k a = k b → a = b) → r.map k = r2.map k →
      r = r2 := by
  intro r
  induction r with
  | nil =>
    intro r2 _ h
    cases r2 with
    | nil => rfl
    | cons b l => simp at h
  | cons a l ih =>
    intro r2 hinj h
    cases r2 with
    | nil => simp at h
    | cons b l2 =>
      simp only [List.map_cons, List.cons.injEq] at h
      have hab := hinj a (List.mem_cons_self _ _) b (List.mem_cons_self _ _) h.1
      have hl := ih l2 (fun x hx y hy =>
        hinj x (List.mem_cons_of_mem _ hx) y (List.mem_cons_of_mem _ hy)) h.2
      rw [hab, hl]

/-- `SortAndJoinSlice` gives the same result on two orderings of `float64` values that `<`
orders strictly. -/
theorem SortAndJoinSlice_floats_perm (lib : StdLib) (l l2 : List Float64) (sep : String)
    (hp : l2.Perm l) (hn : ∀ a ∈ l, a.isNaN = false)
    (hinj : ∀ a ∈ l, ∀ b ∈ l, a.key = b.key → a = b) :
    SortAndJoinSlice lib (l2.map Value.float) sep
      = SortAndJoinSlice lib (l.map Value.float) sep := by
  by_cases h0 : l = []
  · have h2 : l2 = [] := by rw [h0] at hp; exact hp.eq_nil
    rw [h0, h2]
  · have h2 : l2 ≠ [] := fun h => h0 (by rw [h] at hp; exact hp.symm.eq_nil)
    obtain ⟨r, hrp, hrs, hr⟩ := SortAndJoinSlice_floats lib l sep hn h0
    obtain ⟨r2, hrp2, hrs2, hr2⟩ := SortAndJoinSlice_floats lib l2 sep
      (fun a ha => hn a (hp.mem_iff.1 ha)) h2
    have hk : r2.map Float64.key = r.map Float64.key :=
      List.eq_of_perm_of_sorted (((hrp2.trans hp).trans hrp.symm).map _) hrs2 hrs
    have he : r2 = r := map_eq_of_injOn Float64.key r2 r
      (fun a ha b hb => hinj a (hp.mem_iff.1 (hrp2.mem_iff.1 ha)) b (hrp.mem_iff.1 hb)) hk
    rw [hr, hr2, he]

set_option maxRecDepth 100000 in
/-- C6 (counterexample). Two orderings of the same homogeneous sequence of scalars get different
canonical strings. Booleans: `[true, false]` gives `"true,false"` and `[false, true]` gives
`"false,true"`, as the type switch of `SortAndJoinSlice` sorts strings, integers and floats
only. Floats that `<` does not order strictly: the zeros `[0, -0]` give `"0,-0"` and `[-0, 0]`
gives `"-0,0"`, as neither zero is less than the other; `[NaN, 1]` gives `"NaN,1"` and
`[1, NaN]` gives `"1,NaN"`, as nothing is less than a NaN and a NaN less than nothing. -/
theorem SortAndJoinSlice_order_dependent :
    ([Value.bool false, Value.bool true].Perm [Value.bool true, Value.bool false]
      ∧ (∀ v ∈ [Value.bool true, Value.bool false], v.isBool = true)
      ∧ SortAndJoinSlice sampleLib [Value.bool true, Value.bool false] "," = some "true,false"
      ∧ SortAndJoinSlice sampleLib [Value.bool false, Value.bool true] "," = some "false,true"
      ∧ SortAndJoinSlice sampleLib [Value.bool false, Value.bool true] ","
          ≠ SortAndJoinSlice sampleLib [Value.bool true, Value.bool false] ",")
    ∧ ([Value.float ⟨0x8000000000000000⟩, Value.float ⟨0⟩].Perm
          [Value.float ⟨0⟩, Value.float ⟨0x8000000000000000⟩]
      ∧ SortAndJoinSlice floatLib [Value.float ⟨0⟩, Value.float ⟨0x8000000000000000⟩] ","
          = some "0,-0"
      ∧ SortAndJoinSlice floatLib [Value.float ⟨0x8000000000000000⟩, Value.float ⟨0⟩] ","
          = some "-0,0")
    ∧ ([Value.float ⟨0x3FF0000000000000⟩, Value.float ⟨0x7FF8000000000001⟩].Perm
          [Value.float ⟨0x7FF8000000000001⟩, Value.float ⟨0x3FF0000000000000⟩]
      ∧ SortAndJoinSlice floatLib
          [Value.float ⟨0x7FF8000000000001⟩, Value.float ⟨0x3FF0000000000000⟩] ","
          = some "NaN,1"
      ∧ SortAndJoinSlice floatLib
          [Value.float ⟨0x3FF0000000000000⟩, Value.float ⟨0x7FF8000000000001⟩] ","
          = some "1,NaN") := by
  refine ⟨⟨List.Perm.swap _ _ _, ?_, by decide, by decide, by decide⟩,
    ⟨List.Perm.swap _ _ _, by decide, by decide⟩,
    ⟨List.Perm.swap _ _ _, by decide, by decide⟩⟩
  intro v hv
  simp only [List.mem_cons, List.mem_singleton, List.not_mem_nil, or_false] at hv
  rcases hv with rfl | rfl <;> rfl

/-- C6 (amended). For a sequence whose elements are all strings, or all integers, or all
`float64` values that `<` orders strictly (no NaN, and no two different values that compare
equal, as the zeros `0` and `-0` do), the result of `SortAndJoinSlice` (the canonical string,
or the panic on the empty sequence) is the same for every permutation of the sequence and
every separator. -/
theorem SortAndJoinSlice_perm_invariant (lib : StdLib) (s s2 : List Value) (sep : String)
    (hp : s2.Perm s)
    (hh : (∀ v ∈ s, v.isStr = true) ∨ (∀ v ∈ s, v.isInt = true) ∨ strictFloats s) :
    SortAndJoinSlice lib s2 sep = SortAndJoinSlice lib s sep := by
  rcases hh with hs | hs | hs
  · have hs2 : ∀ v ∈ s2, v.isStr = true := fun v hv => hs v (hp.mem_iff.1 hv)
    rw [← map_str_getStr s hs, ← map_str_getStr s2 hs2, SortAndJoinSlice_strings,
      SortAndJoinSlice_strings]
    have hperm : (s2.map Value.getStr).Perm (s.map Value.getStr) := hp.map _
    have hnil : (s2.map Value.getStr = []) ↔ (s.map Value.getStr = []) := by
      rw [← List.length_eq_zero, ← List.length_eq_zero, hperm.length_eq]
    rw [sortLess_eq_of_perm strLess strLess_iff hperm]
    by_cases h0 : s.map Value.getStr = []
    · rw [if_pos h0, if_pos (hnil.2 h0)]
    · rw [if_neg h0, if_neg (fun h => h0 (hnil.1 h))]
  · have hs2 : ∀ v ∈ s2, v.isInt = true := fun v hv => hs v (hp.mem_iff.1 hv)
    rw [← map_int_getInt s hs, ← map_int_getInt s2 hs2, SortAndJoinSlice_ints,
      SortAndJoinSlice_ints]
    have hperm : (s2.map Value.getInt).Perm (s.map Value.getInt) := hp.map _
    have hnil : (s2.map Value.getInt = []) ↔ (s.map Value.getInt = []) := by
      rw [← List.length_eq_zero, ← List.length_eq_zero, hperm.length_eq]
    rw [sortLess_eq_of_perm intLess intLess_iff hperm]
    by_cases h0 : s.map Value.getInt = []
    · rw [if_pos h0, if_pos (hnil.2 h0)]
    · rw [if_neg h0, if_neg (fun h => h0 (hnil.1 h))]
  · obtain ⟨hf, hinj⟩ := hs
    have hf1 : ∀ v ∈ s, v.isFloat = true := fun v hv => (hf v hv).1
    have hf2 : ∀ v ∈ s2, v.isFloat = true := fun v hv => hf1 v (hp.mem_iff.1 hv)
    rw [← map_float_getFloat s hf1, ← map_float_getFloat s2 hf2]
    apply SortAndJoinSlice_floats_perm lib _ _ sep (hp.map _)
    · intro a ha
      obtain ⟨v, hv, rfl⟩ := List.mem_map.1 ha
      exact (hf v hv).2
    · intro a ha b hb hk
      obtain ⟨v, hv, rfl⟩ := List.mem_map.1 ha
      obtain ⟨w, hw, rfl⟩ := List.mem_map.1 hb
      exact hinj v hv w hw hk

set_option maxRecDepth 100000 in
/-- Witness of `SortAndJoinSlice_perm_invariant`: `["c","a","b"]` and `["a","c","b"]`, and the
floats `[3.3, 1.1, 2.2]` and `[1.1, 3.3, 2.2]` of `TestSortAndJoinSlice`. -/
theorem SortAndJoinSlice_perm_invariant_witness :
    ([Value.str "c", Value.str "a", Value.str "b"].Perm
        [Value.str "a", Value.str "c", Value.str "b"]
      ∧ SortAndJoinSlice sampleLib [Value.str "a", Value.str "c", Value.str "b"] ","
          = some "a,b,c"
      ∧ SortAndJoinSlice sampleLib [Value.str "c", Value.str "a", Value.str "b"] ","
          = SortAndJoinSlice sampleLib [Value.str "a", Value.str "c", Value.str "b"] ",")
    ∧ ([Value.float ⟨0x400A666666666666⟩, Value.float ⟨0x3FF199999999999A⟩,
          Value.float ⟨0x400199999999999A⟩].Perm
        [Value.float ⟨0x3FF199999999999A⟩, Value.float ⟨0x400A666666666666⟩,
          Value.float ⟨0x400199999999999A⟩]
      ∧ strictFloats [Value.float ⟨0x3FF199999999999A⟩, Value.float ⟨0x400A666666666666⟩,
          Value.float ⟨0x400199999999999A⟩]
      ∧ SortAndJoinSlice floatLib [Value.float ⟨0x3FF199999999999A⟩,
          Value.float ⟨0x400A666666666666⟩, Value.float ⟨0x400199999999999A⟩] ","
          = some "1.1,2.2,3.3"
      ∧ SortAndJoinSlice floatLib [Value.float ⟨0x400A666666666666⟩,
          Value.float ⟨0x3FF199999999999A⟩, Value.float ⟨0x400199999999999A⟩] ","
          = SortAndJoinSlice floatLib [Value.float ⟨0x3FF199999999999A⟩,
              Value.float ⟨0x400A666666666666⟩, Value.float ⟨0x400199999999999A⟩] ",") :=
  ⟨⟨List.Perm.swap _ _ _, by decide,
    SortAndJoinSlice_perm_invariant sampleLib _ _ "," (List.Perm.swap _ _ _)
      (Or.inl (by
        intro v hv
        simp only [List.mem_cons, List.mem_singleton, List.not_mem_nil, or_false] at hv
        rcases hv with rfl | rfl | rfl <;> rfl))⟩,
    ⟨List.Perm.swap _ _ _, by unfold strictFloats; decide, by decide,
      SortAndJoinSlice_perm_invariant floatLib _ _ "," (List.Perm.swap _ _ _)
        (Or.inr (Or.inr (by unfold strictFloats; decide)))⟩⟩

/-- C7. For a non-empty sequence of strings and a non-empty sequence of integers,
`SortAndJoinSlice` returns the elements arranged in ascending order (a permutation of the
input that is sorted: lexicographically for strings, numerically for integers), each rendered
as text (an integer in decimal), joined by the separator. -/
theorem SortAndJoinSlice_sorted_join (lib : StdLib) (sep : String) (xs : List String)
    (ns : List Int) (hx : xs ≠ []) (hn : ns ≠ []) :
    (∃ ys : List String, ys.Perm xs ∧ ys.Sorted (· ≤ ·)
        ∧ SortAndJoinSlice lib (xs.map Value.str) sep = some (Join ys sep))
    ∧ (∃ ms : List Int, ms.Perm ns ∧ ms.Sorted (· ≤ ·)
        ∧ SortAndJoinSlice lib (ns.map Value.int) sep
            = some (Join (ms.map (fun n => toString n)) sep)) := by
  constructor
  · refine ⟨sortLess strLess xs, sortLess_perm _ _, sortLess_sorted _ strLess_iff _, ?_⟩
    rw [SortAndJoinSlice_strings, if_neg hx]
  · refine ⟨sortLess intLess ns, sortLess_perm _ _, sortLess_sorted _ intLess_iff _, ?_⟩
    rw [SortAndJoinSlice_ints, if_neg hn]
    rfl

/-- Witness of `SortAndJoinSlice_sorted_join`: `["a","c","b"]` and `[1,3,2]` with `","`, the
cases of `TestSortAndJoinSlice`, which give `"a,b,c"` and `"1,2,3"`. -/
theorem SortAndJoinSlice_sorted_join_witness :
    (SortAndJoinSlice sampleLib [Value.str "a", Value.str "c", Value.str "b"] "," = some "a,b,c"
      ∧ SortAndJoinSlice sampleLib [Value.int 1, Value.int 3, Value.int 2] "," = some "1,2,3")
    ∧ ((∃ ys : List String, ys.Perm ["a", "c", "b"] ∧ ys.Sorted (· ≤ ·)
        ∧ SortAndJoinSlice sampleLib (["a", "c", "b"].map Value.str) "," = some (Join ys ","))
      ∧ (∃ ms : List Int, ms.Perm [1, 3, 2] ∧ ms.Sorted (· ≤ ·)
        ∧ SortAndJoinSlice sampleLib ([1, 3, 2].map Value.int) ","
            = some (Join (ms.map (fun n => toString n)) ","))) :=
  ⟨⟨by decide, by decide⟩,
    SortAndJoinSlice_sorted_join sampleLib "," ["a", "c", "b"] [1, 3, 2] (by decide) (by decide)⟩


/-! ## `GetElementFromKey` -/

theorem splitAux_append (sep : Char) (a cs : List Char) (ha : sep ∉ a) :
    splitAux sep (a ++ sep :: cs) = (a, (splitAux sep cs).1 :: (splitAux sep cs).2) := by
  induction a with
  | nil => simp [splitAux]
  | cons c a ih =>
    have hc : c ≠ sep := fun h => ha (h ▸ List.mem_cons_self _ _)
    have ha2 : sep ∉ a := fun h => ha (List.mem_cons_of_mem _ h)
    simp [splitAux, hc, ih ha2]

theorem splitAux_no_sep (sep : Char) (a : List Char) (ha : sep ∉ a) :
    splitAux sep a = (a, []) := by
  induction a with
  | nil => rfl
  | cons c a ih =>
    have hc : c ≠ sep := fun h => ha (h ▸ List.mem_cons_self _ _)
    have ha2 : sep ∉ a := fun h => ha (List.mem_cons_of_mem _ h)
    simp [splitAux, hc, ih ha2]

theorem splitAux_no_sep_mem (sep : Char) (cs : List Char) :
    sep ∉ (splitAux sep cs).1 ∧ ∀ seg ∈ (splitAux sep cs).2, sep ∉ seg := by
  induction cs with
  | nil => simp [splitAux]
  | cons c cs ih =>
    by_cases hc : c = sep
    · simp only [splitAux, if_pos hc]
      refine ⟨by simp, ?_⟩
      intro seg hseg
      rcases List.mem_cons.1 hseg with rfl | h
      · exact ih.1
      · exact ih.2 seg h
    · simp only [splitAux, if_neg hc]
      refine ⟨?_, ih.2⟩
      intro h
      rcases List.mem_cons.1 h with h | h
      · exact hc h.symm
      · exact ih.1 h

/-- Splitting the join of segments that hold no separator gives the segments back. -/
theorem Split_Join (segs : List String) (hne : segs ≠ [])
    (hdot : ∀ s ∈ segs, '.' ∉ s.data) : Split (Join segs ".") '.' = segs := by
  induction segs with
  | nil => exact absurd rfl hne
  | cons a l ih =>
    cases l with
    | nil =>
      have ha := hdot a (List.mem_cons_self _ _)
      simp [Join, Split, splitAux_no_sep '.' a.data ha]
    | cons b l =>
      have ha := hdot a (List.mem_cons_self _ _)
      have ih2 := ih (by simp) (fun s hs => hdot s (List.mem_cons_of_mem _ hs))
      have hd : (Join (a :: b :: l) ".").data = a.data ++ '.' :: (Join (b :: l) ".").data := by
        simp [Join, String.data_append]
      simp only [Split, hd, splitAux_append '.' a.data _ ha, List.map_cons]
      simp only [Split, List.map_cons] at ih2
      rw [ih2]

/-- The segments of `strings.Split(k, ".")` hold no dot. -/
theorem Split_no_dot (k : String) : ∀ s ∈ Split k '.', '.' ∉ s.data := by
  intro s hs
  simp only [Split, List.map_cons, List.mem_cons, List.mem_map] at hs
  rcases hs with rfl | ⟨seg, hseg, rfl⟩
  · exact (splitAux_no_sep_mem '.' k.data).1
  · exact (splitAux_no_sep_mem '.' k.data).2 seg hseg

/-- The recursion of the source: `ks := strings.Split(k, ".")`, `elem := m[ks[0]]`; `elem` is
returned when `len(ks) == 1`; else, when `elem` is a `map[string]any`, the function is called
again with the key `strings.Join(ks[1:], ".")` and that map; else the result is `nil`. -/
theorem GetElementFromKey_rec (k : String) (m : GoMap) :
    GetElementFromKey k m =
      if (Split k '.').length = 1 then index m ((Split k '.').headD "")
      else
        match index m ((Split k '.').headD "") with
        | .map m2 => GetElementFromKey (Join (Split k '.').tail ".") m2
        | _ => Value.nil := by
  have hdot := Split_no_dot k
  obtain ⟨a, l, hs⟩ : ∃ a l, Split k '.' = a :: l := ⟨_, _, List.map_cons _ _ _⟩
  unfold GetElementFromKey
  rw [hs] at hdot ⊢
  cases l with
  | nil => simp [getElementFromKeys]
  | cons b l =>
    have hj : Split (Join (b :: l) ".") '.' = b :: l :=
      Split_Join (b :: l) (by simp) (fun s hs => hdot s (List.mem_cons_of_mem _ hs))
    simp only [getElementFromKeys, List.length_cons, List.headD_cons, List.tail_cons, hj]
    simp

theorem getElementFromKeys_eq_resolvePath (ks : List String) (m : GoMap) :
    getElementFromKeys ks m = (resolvePath ks m).getD Value.nil := by
  induction ks generalizing m with
  | nil => rfl
  | cons k ks ih =>
    cases ks with
    | nil => rfl
    | cons k2 ks =>
      simp only [getElementFromKeys, resolvePath, index]
      cases hl : List.lookup k m with
      | none => rfl
      | some v => cases v <;> simp [ih]

/-- C5 (counterexample). On the map with the one entry `"a": nil` the path `"a"` is found (its
one segment is present, and no intermediate segment exists), yet `GetElementFromKey` yields
`nil`: a result `nil` does not tell "not found" from a present `nil`. -/
theorem GetElementFromKey_nil_but_found :
    GetElementFromKey "a" [("a", Value.nil)] = Value.nil
    ∧ resolvePath (Split "a" '.') [("a", Value.nil)] = some Value.nil
    ∧ ¬ (GetElementFromKey "a" [("a", Value.nil)] = Value.nil
          ↔ resolvePath (Split "a" '.') [("a", Value.nil)] = none) := by
  refine ⟨rfl, rfl, ?_⟩
  intro h
  have h2 : resolvePath (Split "a" '.') [("a", Value.nil)] = none := h.1 rfl
  exact absurd h2 (by
    have h3 : resolvePath (Split "a" '.') [("a", Value.nil)] = some Value.nil := rfl
    rw [h3]; exact Option.some_ne_none _)

/-- C5 (amended). `GetElementFromKey(p, m)` returns the value reached by indexing one level
deeper per segment of `p` when every segment is present and every segment before the last
resolves to a mapping, and `nil` otherwise; so it yields `nil` if and only if the path is not
found (a segment is absent at its level, or a segment before the last resolves to a value that
is not a mapping) or the value reached is itself `nil`. -/
theorem GetElementFromKey_resolves (p : String) (m : GoMap) :
    GetElementFromKey p m = (resolvePath (Split p '.') m).getD Value.nil
    ∧ (∀ v, resolvePath (Split p '.') m = some v → GetElementFromKey p m = v)
    ∧ (resolvePath (Split p '.') m = none → GetElementFromKey p m = Value.nil)
    ∧ (GetElementFromKey p m = Value.nil
        ↔ resolvePath (Split p '.') m = none ∨ resolvePath (Split p '.') m = some Value.nil) := by
  have h := getElementFromKeys_eq_resolvePath (Split p '.') m
  refine ⟨h, ?_, ?_, ?_⟩
  · intro v hv
    unfold GetElementFromKey
    rw [h, hv]; rfl
  · intro hv
    unfold GetElementFromKey
    rw [h, hv]; rfl
  · unfold GetElementFromKey
    rw [h]
    cases hr : resolvePath (Split p '.') m with
    | none => simp
    | some v => simp


/-! ## Maps -/

theorem lookup_mem {β : Type} (m : List (String × β)) (k : String) (v : β)
    (h : m.lookup k = some v) : (k, v) ∈ m := by
  induction m with
  | nil => simp at h
  | cons e m ih =>
    obtain ⟨k2, v2⟩ := e
    by_cases hk : k = k2
    · subst hk
      simp only [List.lookup_cons_self, Option.some.injEq] at h
      subst h
      exact List.mem_cons_self _ _
    · have hb : (k == k2) = false := by simpa using hk
      rw [List.lookup_cons, hb] at h
      exact List.mem_cons_of_mem _ (ih h)

theorem lookup_none_of_not_mem {β : Type} (m : List (String × β)) (k : String)
    (h : k ∉ m.map Prod.fst) : m.lookup k = none := by
  induction m with
  | nil => rfl
  | cons e m ih =>
    obtain ⟨k2, v2⟩ := e
    have hk : k ≠ k2 := fun hk => h (by simp [hk])
    have hb : (k == k2) = false := by simpa using hk
    rw [List.lookup_cons, hb]
    exact ih (fun hm => h (by simp only [List.map_cons, List.mem_cons]; exact Or.inr hm))

theorem lookup_of_mem_nodup {β : Type} (m : List (String × β)) (k : String) (v : β)
    (hn : (m.map Prod.fst).Nodup) (h : (k, v) ∈ m) : m.lookup k = some v := by
  induction m with
  | nil => simp at h
  | cons e m ih =>
    obtain ⟨k2, v2⟩ := e
    simp only [List.map_cons, List.nodup_cons] at hn
    rcases List.mem_cons.1 h with heq | hmem
    · cases heq
      simp
    · have hk : k ≠ k2 := by
        rintro rfl
        exact hn.1 (List.mem_map.2 ⟨(k, v), hmem, rfl⟩)
      have hb : (k == k2) = false := by simpa using hk
      rw [List.lookup_cons, hb]
      exact ih hn.2 hmem

theorem lookup_perm {β : Type} (m m2 : List (String × β)) (k : String)
    (hn : (m.map Prod.fst).Nodup) (hp : m2.Perm m) : m2.lookup k = m.lookup k := by
  have hn2 : (m2.map Prod.fst).Nodup := (hp.map Prod.fst).nodup_iff.2 hn
  cases h : m.lookup k with
  | some v => exact lookup_of_mem_nodup m2 k v hn2 (hp.mem_iff.2 (lookup_mem m k v h))
  | none =>
    apply lookup_none_of_not_mem
    intro hk
    obtain ⟨e, he, hek⟩ := List.mem_map.1 hk
    have he2 : e ∈ m := hp.mem_iff.1 he
    have : m.lookup k = some e.2 := lookup_of_mem_nodup m k e.2 hn (by rw [← hek]; exact he2)
    rw [h] at this
    exact absurd this (by simp)

theorem index_perm (m m2 : GoMap) (k : String) (hn : NodupKeys m) (hp : m2.Perm m) :
    index m2 k = index m k := by
  unfold index
  rw [lookup_perm m m2 k hn hp]

theorem filterMap_eq_map_of_forall {α β : Type} (f : α → Option β) (g : α → β) (l : List α)
    (h : ∀ a ∈ l, f a = some (g a)) : l.filterMap f = l.map g := by
  induction l with
  | nil => rfl
  | cons a l ih =>
    rw [List.filterMap_cons, h a (List.mem_cons_self _ _), List.map_cons,
      ih (fun b hb => h b (List.mem_cons_of_mem _ hb))]

/-- C8. For a mapping whose values are strings or integers, `SortAndJoinMap` is the join of
the pairs `key:value` over the keys in ascending lexicographic order (a sorted permutation of
the keys), a string value as it is and an integer in decimal. -/
theorem SortAndJoinMap_sorted_pairs (lib : StdLib) (m : GoMap) (sep : String)
    (hv : ∀ kv ∈ m, kv.2.isStr = true ∨ kv.2.isInt = true) :
    ∃ ks : List String, ks.Perm (m.map Prod.fst) ∧ ks.Sorted (· ≤ ·)
      ∧ SortAndJoinMap lib m sep
          = Join (ks.map (fun k => k ++ ":" ++ renderScalar (index m k))) sep := by
  refine ⟨sortStrings (m.map Prod.fst), sortLess_perm _ _, sortLess_sorted _ strLess_iff _, ?_⟩
  unfold SortAndJoinMap
  congr 1
  apply filterMap_eq_map_of_forall
  intro k hk
  have hk2 : k ∈ m.map Prod.fst := (sortLess_perm strLess _).mem_iff.1 hk
  cases hl : m.lookup k with
  | none =>
    obtain ⟨e, he, hek⟩ := List.mem_map.1 hk2
    have hnone := List.lookup_eq_none_iff.1 hl e he
    simp [hek] at hnone
  | some v =>
    have hmem := lookup_mem m k v hl
    have hv2 := hv (k, v) hmem
    simp only [mapElem, index, hl, Option.getD_some]
    cases v <;> simp_all [Value.isStr, Value.isInt, renderScalar, fmtInt]

/-- Witness of `SortAndJoinMap_sorted_pairs`: the maps of `TestSortAndJoinMap`, with string
values and with integer values, both give `"a:1,b:2,c:3"`. -/
theorem SortAndJoinMap_sorted_pairs_witness :
    (SortAndJoinMap sampleLib [("a", Value.str "1"), ("c", Value.str "3"), ("b", Value.str "2")]
        "," = "a:1,b:2,c:3"
      ∧ SortAndJoinMap sampleLib [("a", Value.int 1), ("c", Value.int 3), ("b", Value.int 2)]
        "," = "a:1,b:2,c:3")
    ∧ ∃ ks : List String, ks.Perm ([("a", Value.int 1), ("c", Value.str "3"),
          ("b", Value.int 2)].map Prod.fst) ∧ ks.Sorted (· ≤ ·)
        ∧ SortAndJoinMap sampleLib [("a", Value.int 1), ("c", Value.str "3"), ("b", Value.int 2)]
            "," = Join (ks.map (fun k => k ++ ":" ++ renderScalar
              (index [("a", Value.int 1), ("c", Value.str "3"), ("b", Value.int 2)] k))) "," :=
  ⟨⟨by decide, by decide⟩,
    SortAndJoinMap_sorted_pairs sampleLib
      [("a", Value.int 1), ("c", Value.str "3"), ("b", Value.int 2)] "," (by
        intro kv hkv
        simp only [List.mem_cons, List.mem_singleton, List.not_mem_nil, or_false] at hkv
        rcases hkv with rfl | rfl | rfl
        · exact Or.inr rfl
        · exact Or.inl rfl
        · exact Or.inr rfl)⟩

/-- C9. The result of `SortAndJoinMap` does not depend on the order in which the entries of the
mapping are enumerated: two entry lists with distinct keys that are permutations of each other
give the same string, whatever the values and the separator. -/
theorem SortAndJoinMap_perm_invariant (lib : StdLib) (m m2 : GoMap) (sep : String)
    (hn : NodupKeys m) (hp : m2.Perm m) :
    SortAndJoinMap lib m2 sep = SortAndJoinMap lib m sep := by
  unfold SortAndJoinMap sortStrings
  rw [sortLess_eq_of_perm strLess strLess_iff (hp.map Prod.fst)]
  congr 1
  apply List.filterMap_congr
  intro k _
  simp only [mapElem, index_perm m m2 k hn hp]

/-- Witness of `SortAndJoinMap_perm_invariant`: two enumerations of the map with the entries
`"a": "1"`, `"c": 3` and `"b": true`. -/
theorem SortAndJoinMap_perm_invariant_witness :
    NodupKeys [("a", Value.str "1"), ("c", Value.int 3), ("b", Value.bool true)]
    ∧ [("c", Value.int 3), ("a", Value.str "1"), ("b", Value.bool true)].Perm
        [("a", Value.str "1"), ("c", Value.int 3), ("b", Value.bool true)]
    ∧ SortAndJoinMap sampleLib [("a", Value.str "1"), ("c", Value.int 3), ("b", Value.bool true)]
        "," = "a:1,c:3"
    ∧ SortAndJoinMap sampleLib [("c", Value.int 3), ("a", Value.str "1"), ("b", Value.bool true)]
          ","
        = SortAndJoinMap sampleLib
            [("a", Value.str "1"), ("c", Value.int 3), ("b", Value.bool true)] "," :=
  ⟨by unfold NodupKeys; decide, List.Perm.swap _ _ _, by decide,
    SortAndJoinMap_perm_invariant sampleLib _ _ "," (by unfold NodupKeys; decide)
      (List.Perm.swap _ _ _)⟩


/-! ## `GetValueByFieldNameFloat` -/

/-- C10 (counterexample). `"Name"` is not the name of a numeric field, yet
`GetValueByFieldNameFloat("Name")` does not return `0`: the field exists, its kind is
`string`, and `fv.Float()` panics. The same holds for `"Properties"`. -/
theorem GetValueByFieldNameFloat_panics_on_Name :
    "Name" ∉ numericFieldNames
    ∧ Allocation.GetValueByFieldNameFloat {} "Name" = none
    ∧ "Properties" ∉ numericFieldNames
    ∧ Allocation.GetValueByFieldNameFloat {} "Properties" = none := by
  refine ⟨by decide, by decide, by decide, by decide⟩

/-- C10 (amended). For every allocation record and every name that is not the name of any field
of the record, `GetValueByFieldNameFloat(name)` returns `0` and does not fail. -/
theorem GetValueByFieldNameFloat_unknown (a : Allocation) (name : String)
    (h : name ∉ a.fields.map Prod.fst) :
    a.GetValueByFieldNameFloat name = some Float64.zero := by
  unfold Allocation.GetValueByFieldNameFloat Allocation.FieldByName
  rw [lookup_none_of_not_mem a.fields name h]

/-- Witness of `GetValueByFieldNameFloat_unknown`: the name `"x"` of
`TestGetValueByFieldNameFloat`, on a record with `CPUCores` set. -/
theorem GetValueByFieldNameFloat_unknown_witness :
    "x" ∉ (Allocation.fields { CPUCores := ⟨0x4094E40000000000⟩ }).map Prod.fst
    ∧ Allocation.GetValueByFieldNameFloat { CPUCores := ⟨0x4094E40000000000⟩ } "x"
        = some Float64.zero :=
  ⟨by decide, GetValueByFieldNameFloat_unknown _ "x" (by decide)⟩


/-! ## Calendar and instants -/

theorem years_days (y era c q yy : Int) (h : y = 400 * era + 100 * c + 4 * q + yy)
    (hc0 : 0 ≤ c) (hc : c ≤ 3) (hq0 : 0 ≤ q) (hq : q ≤ 24) (hy0 : 0 ≤ yy) (hy : yy ≤ 3) :
    y / 400 = era ∧
    (y - y / 400 * 400) * 365 + (y - y / 400 * 400) / 4 - (y - y / 400 * 400) / 100
      = 36524 * c + 1461 * q + 365 * yy := by
  have h1 : y / 400 = era := by omega
  refine ⟨h1, ?_⟩
  rw [h1]
  have h2 : y - era * 400 = 100 * c + 4 * q + yy := by omega
  rw [h2]
  omega

/-- The date of a day number has that day number. -/
theorem daysFromCivil_civilFromDays (z : Int) :
    daysFromCivil (civilFromDays z).1 (civilFromDays z).2.1 (civilFromDays z).2.2 = z := by
  simp only [civilFromDays]
  generalize hera : (z + 719468) / 146097 = era
  generalize hdoe : z + 719468 - era * 146097 = doe
  have hdoe0 : 0 ≤ doe ∧ doe ≤ 146096 := by omega
  generalize hc : doe / 36524 - doe / 36524 / 4 = c
  have hcb : 0 ≤ c ∧ c ≤ 3 := by omega
  generalize hdoc : doe - 36524 * c = doc
  have hdocb : 0 ≤ doc ∧ doc ≤ 36524 := by omega
  generalize hq : doc / 1461 = q
  have hqb : 0 ≤ q ∧ q ≤ 24 := by omega
  generalize hdoq : doc - 1461 * q = doq
  have hdoqb : 0 ≤ doq ∧ doq ≤ 1460 := by omega
  generalize hyy : doq / 365 - doq / 365 / 4 = yy
  have hyyb : 0 ≤ yy ∧ yy ≤ 3 := by omega
  generalize hdoy : doq - 365 * yy = doy
  have hdoyb : 0 ≤ doy ∧ doy ≤ 365 := by omega
  generalize hmp : (5 * doy + 2) / 153 = mp
  have hmpb : 0 ≤ mp ∧ mp ≤ 11 := by omega
  obtain ⟨k1, k2⟩ := years_days (400 * era + 100 * c + 4 * q + yy) era c q yy rfl
    hcb.1 hcb.2 hqb.1 hqb.2 hyyb.1 hyyb.2
  obtain ⟨j1, j2⟩ := years_days (400 * era + 100 * c + 4 * q + yy + 1 - 1) era c q yy (by omega)
    hcb.1 hcb.2 hqb.1 hqb.2 hyyb.1 hyyb.2
  simp only [daysFromCivil]
  split_ifs <;> omega

/-- The instant `end` of `GetURL` in Unix nanoseconds: the wall-clock second of `now` rounded
down to a multiple of 60, taken back to UTC. -/
theorem windowEnd_unixNano (now : Time) :
    (windowEnd now).unixNano = (now.wallSec - now.wallSec % 60 - now.offset) * 1000000000 := by
  simp only [windowEnd, Date, Time.Year, Time.Month, Time.Day, Time.Hour, Time.Minute,
    daysFromCivil_civilFromDays]
  have : now.wallSec / 86400 * 86400 + now.wallSec % 86400 / 3600 * 3600
      + now.wallSec % 3600 / 60 * 60 + 0 - now.offset
      = now.wallSec - now.wallSec % 60 - now.offset := by omega
  rw [this]; ring

theorem windowEnd_offset (now : Time) : (windowEnd now).offset = now.offset := rfl

theorem windowEnd_wallSec (now : Time) :
    (windowEnd now).wallSec = now.wallSec - now.wallSec % 60 := by
  unfold Time.wallSec
  rw [windowEnd_unixNano, windowEnd_offset]
  rw [Int.mul_ediv_cancel _ (by norm_num : (1000000000 : Int) ≠ 0)]
  unfold Time.wallSec
  ring

/-- The fields of `end`: seconds and nanoseconds are zero, the date, hour, minute and location
are those of `now`; `end` is not after `now` and less than a minute before it. -/
theorem windowEnd_fields (now : Time) :
    (windowEnd now).Second = 0 ∧ (windowEnd now).Nanosecond = 0
    ∧ (windowEnd now).Year = now.Year ∧ (windowEnd now).Month = now.Month
    ∧ (windowEnd now).Day = now.Day ∧ (windowEnd now).Hour = now.Hour
    ∧ (windowEnd now).Minute = now.Minute ∧ (windowEnd now).offset = now.offset
    ∧ (windowEnd now).unixNano ≤ now.unixNano
    ∧ now.unixNano - (windowEnd now).unixNano < 60000000000 := by
  have hw := windowEnd_wallSec now
  have hd : (now.wallSec - now.wallSec % 60) / 86400 = now.wallSec / 86400 := by omega
  refine ⟨?_, ?_, ?_, ?_, ?_, ?_, ?_, rfl, ?_, ?_⟩
  · unfold Time.Second; rw [hw]; omega
  · unfold Time.Nanosecond; rw [windowEnd_unixNano]; omega
  · unfold Time.Year; rw [hw, hd]
  · unfold Time.Month; rw [hw, hd]
  · unfold Time.Day; rw [hw, hd]
  · unfold Time.Hour; rw [hw]; omega
  · unfold Time.Minute; rw [hw]; omega
  · rw [windowEnd_unixNano]; unfold Time.wallSec; omega
  · rw [windowEnd_unixNano]; unfold Time.wallSec; omega

/-! ## Durations -/

theorem wrapInt64_range (x : Int) : -(2 ^ 63) ≤ wrapInt64 x ∧ wrapInt64 x < 2 ^ 63 := by
  unfold wrapInt64
  omega

/-- A parsed duration is an `int64`. -/
theorem ParseDuration_range (lib : StdLib) (s : String) (dur : Int)
    (h : ParseDuration lib s = some dur) : -(2 ^ 63) ≤ dur ∧ dur < 2 ^ 63 := by
  unfold ParseDuration at h
  simp only at h
  split_ifs at h with h1 h2 h3
  · have h5 := Option.some.inj h
    omega
  · split at h
    · exact absurd h (by simp)
    · have h5 := Option.some.inj h
      rw [← h5]
      unfold negDuration
      exact wrapInt64_range _
  · split at h
    · exact absurd h (by simp)
    · split_ifs at h with h4
      have h5 := Option.some.inj h
      omega

/-- Negation of a duration is exact, except on the minimal duration, which it maps to itself. -/
theorem negDuration_eq (dur : Int) (h1 : -(2 ^ 63) ≤ dur) (h2 : dur < 2 ^ 63) :
    negDuration dur = if dur = minDuration then minDuration else -dur := by
  unfold negDuration wrapInt64 minDuration
  split_ifs <;> omega



/-! ## `time.ParseDuration` -/

theorem leadingInt_suffix (s : List Char) : ∀ (x v : Nat) (r : List Char),
    leadingInt x s = some (v, r) → r <:+ s := by
  induction s with
  | nil =>
    intro x v r h
    simp only [leadingInt, Option.some.injEq, Prod.mk.injEq] at h
    rw [← h.2]
  | cons c cs ih =>
    intro x v r h
    simp only [leadingInt] at h
    split_ifs at h with h1 h2 h3
    · exact (ih _ _ _ h).trans (List.suffix_cons c cs)
    · simp only [Option.some.injEq, Prod.mk.injEq] at h
      rw [← h.2]

theorem leadingFraction_suffix (s : List Char) : ∀ (x k : Nat) (o : Bool),
    (leadingFraction x k o s).2.2 <:+ s := by
  induction s with
  | nil => intro x k o; simp [leadingFraction]
  | cons c cs ih =>
    intro x k o
    simp only [leadingFraction]
    split_ifs <;> first
      | exact (ih _ _ _).trans (List.suffix_cons c cs)
      | exact List.suffix_refl _

theorem readFraction_no_dot (s1 : List Char) (h : '.' ∉ s1) :
    readFraction s1 = (0, 0, false, s1) := by
  unfold readFraction
  split
  · rename_i t
    exact absurd (List.mem_cons_self _ _) h
  · rfl

theorem readFraction_suffix (s1 : List Char) : (readFraction s1).2.2.2 <:+ s1 := by
  unfold readFraction
  split
  · rename_i t
    exact (leadingFraction_suffix t 0 0 false).trans (List.suffix_cons _ t)
  · exact List.suffix_refl _

/-- Without a point in the input, an element of a duration is read without `float64`
arithmetic: the result is the same for every `StdLib`. -/
theorem parseElem_no_dot (lib lib2 : StdLib) (s : List Char) (h : '.' ∉ s) :
    parseElem lib s = parseElem lib2 s := by
  cases s with
  | nil => rfl
  | cons c cs =>
    simp only [parseElem]
    split_ifs with h1
    · rfl
    · cases hl : leadingInt 0 (c :: cs) with
      | none => rfl
      | some p =>
        obtain ⟨v, s1⟩ := p
        have hs1 : '.' ∉ s1 := fun hm => h ((leadingInt_suffix _ _ _ _ hl).subset hm)
        simp only [readFraction_no_dot s1 hs1]
        simp

/-- The rest after an element is a proper suffix of the input. -/
theorem parseElem_rest (lib : StdLib) (s : List Char) (v : Nat) (r : List Char)
    (h : parseElem lib s = some (v, r)) : r <:+ s ∧ r.length < s.length := by
  cases s with
  | nil => simp [parseElem] at h
  | cons c cs =>
    simp only [parseElem] at h
    split_ifs at h with h1
    cases hl : leadingInt 0 (c :: cs) with
    | none => rw [hl] at h; simp at h
    | some p =>
      obtain ⟨v1, s1⟩ := p
      rw [hl] at h
      simp only at h
      have key : ¬ ((readFraction s1).2.2.2.takeWhile (fun x => !endsUnit x)).isEmpty = true
          ∧ r = (readFraction s1).2.2.2.dropWhile (fun x => !endsUnit x) := by
        by_cases h2 : (s1.length == (c :: cs).length && !(readFraction s1).2.2.1) = true
        · rw [if_pos h2] at h; exact absurd h (by simp)
        · rw [if_neg h2] at h
          by_cases h3 : ((readFraction s1).2.2.2.takeWhile (fun x => !endsUnit x)).isEmpty = true
          · rw [if_pos h3] at h; exact absurd h (by simp)
          · rw [if_neg h3] at h
            refine ⟨h3, ?_⟩
            cases hu : unitMap (String.mk
                ((readFraction s1).2.2.2.takeWhile (fun x => !endsUnit x))) with
            | none => rw [hu] at h; exact absurd h (by simp)
            | some unit =>
              rw [hu] at h
              simp only at h
              by_cases h4 : v1 > 2 ^ 63 / unit
              · rw [if_pos h4] at h; exact absurd h (by simp)
              · rw [if_neg h4] at h
                split_ifs at h <;>
                  exact (Prod.mk.inj (Option.some.inj h)).2.symm
      obtain ⟨h3, hr⟩ := key
      have hsuf1 := leadingInt_suffix _ _ _ _ hl
      have hsuf2 := readFraction_suffix s1
      have hdrop := List.dropWhile_suffix (fun x => !endsUnit x)
        (l := (readFraction s1).2.2.2)
      have htd := List.takeWhile_append_dropWhile (fun x => !endsUnit x)
        (readFraction s1).2.2.2
      have hlen := congrArg List.length htd
      rw [List.length_append] at hlen
      have htk : 0 < ((readFraction s1).2.2.2.takeWhile (fun x => !endsUnit x)).length := by
        apply List.length_pos.2
        intro he
        rw [he] at h3
        exact h3 rfl
      rw [hr]
      refine ⟨(hdrop.trans hsuf2).trans hsuf1, ?_⟩
      have l1 := hsuf1.length_le
      have l2 := hsuf2.length_le
      omega

theorem parseElems_no_dot (lib lib2 : StdLib) : ∀ (fuel d : Nat) (s : List Char),
    '.' ∉ s → parseElems lib fuel d s = parseElems lib2 fuel d s := by
  intro fuel
  induction fuel with
  | zero => intro d s _; cases s <;> rfl
  | succ n ih =>
    intro d s h
    cases s with
    | nil => rfl
    | cons c cs =>
      simp only [parseElems]
      rw [parseElem_no_dot lib lib2 (c :: cs) h]
      cases hp : parseElem lib2 (c :: cs) with
      | none => rfl
      | some p =>
        obtain ⟨v, r⟩ := p
        simp only
        have hr : '.' ∉ r := fun hm => h ((parseElem_rest lib2 _ _ _ hp).1.subset hm)
        rw [ih _ r hr]

/-- Enough fuel: with a fuel of at least the length of the input, the loop of
`time.ParseDuration` runs to its end, whatever the fuel. -/
theorem parseElems_fuel (lib : StdLib) : ∀ (fuel fuel2 d : Nat) (s : List Char),
    s.length ≤ fuel → s.length ≤ fuel2 → parseElems lib fuel d s = parseElems lib fuel2 d s := by
  intro fuel
  induction fuel with
  | zero =>
    intro fuel2 d s h1 _
    have : s = [] := List.length_eq_zero.1 (Nat.le_zero.1 h1)
    subst this
    cases fuel2 <;> rfl
  | succ n ih =>
    intro fuel2 d s h1 h2
    cases s with
    | nil => cases fuel2 <;> rfl
    | cons c cs =>
      cases fuel2 with
      | zero => simp at h2
      | succ n2 =>
        simp only [parseElems]
        cases hp : parseElem lib (c :: cs) with
        | none => rfl
        | some p =>
          obtain ⟨v, r⟩ := p
          simp only
          have hr := (parseElem_rest lib _ _ _ hp).2
          simp only [List.length_cons] at hr h1 h2
          rw [ih n2 _ r (by omega) (by omega)]

/-- A duration string without a point parses to the same result for every `StdLib`. -/
theorem ParseDuration_no_dot (lib lib2 : StdLib) (s : String) (h : '.' ∉ s.data) :
    ParseDuration lib s = ParseDuration lib2 s := by
  have hb : '.' ∉ (match s.data with
      | '-' :: t => t
      | '+' :: t => t
      | cs => cs) := by
    split
    · rename_i t ht; rw [ht] at h; exact fun hm => h (List.mem_cons_of_mem _ hm)
    · rename_i t ht; rw [ht] at h; exact fun hm => h (List.mem_cons_of_mem _ hm)
    · exact h
  unfold ParseDuration
  simp only
  rw [parseElems_no_dot lib lib2 _ _ _ hb]

set_option maxRecDepth 100000 in
/-- The duration `"1m"`, the fallback of `GetURL`, is 60 seconds. -/
theorem ParseDuration_1m (lib : StdLib) : ParseDuration lib "1m" = some 60000000000 := by
  rw [ParseDuration_no_dot lib sampleLib "1m" (by decide)]
  decide

set_option maxRecDepth 100000 in
/-- The unit `d` is unknown to `time.ParseDuration`: `"7d"` is an error. -/
theorem ParseDuration_7d (lib : StdLib) : ParseDuration lib "7d" = none := by
  rw [ParseDuration_no_dot lib sampleLib "7d" (by decide)]
  decide

theorem windowDuration_of_parse (lib : StdLib) (w : String) (dur : Int)
    (h : ParseDuration lib w = some dur) : windowDuration lib w = dur := by
  unfold windowDuration; rw [h]

theorem windowDuration_of_fail (lib : StdLib) (w : String) (h : ParseDuration lib w = none) :
    windowDuration lib w = 60000000000 := by
  unfold windowDuration; rw [h, ParseDuration_1m]; rfl


/-! ## The query of `GetURL` -/

theorem Values_values_Set (q : Values) (k v : String) : (q.Set k v).values k = [v] := by
  induction q with
  | nil => simp [Values.Set, Values.values]
  | cons e q ih =>
    obtain ⟨k2, vs⟩ := e
    simp only [Values.Set]
    split_ifs with h
    · subst h; simp [Values.values]
    · have hb : (k == k2) = false := by simpa using fun hk : k = k2 => h hk.symm
      simp only [Values.values, List.lookup_cons, hb] at ih ⊢
      exact ih

theorem addParams_append (pre post : GoMap) : ∀ q : Values,
    addParams q (pre ++ post) = (addParams q pre).bind (fun q2 => addParams q2 post) := by
  induction pre with
  | nil => intro q; rfl
  | cons e pre ih =>
    intro q
    obtain ⟨k, v⟩ := e
    cases v <;> simp [addParams, ih]

theorem addParams_strings (ps : GoMap) (hs : ∀ kv ∈ ps, kv.2.isStr = true) :
    ∀ q : Values, ∃ r, addParams q ps = some r := by
  induction ps with
  | nil => intro q; exact ⟨q, rfl⟩
  | cons e ps ih =>
    intro q
    obtain ⟨k, v⟩ := e
    have hv := hs (k, v) (List.mem_cons_self _ _)
    have ih2 := ih (fun kv hkv => hs kv (List.mem_cons_of_mem _ hkv))
    cases v <;> simp [Value.isStr] at hv
    simp only [addParams]
    exact ih2 _

theorem index_append_cons (pre post : GoMap) (k : String) (v : Value)
    (hk : k ∉ pre.map Prod.fst) : index (pre ++ (k, v) :: post) k = v := by
  unfold index
  rw [List.lookup_append, lookup_none_of_not_mem pre k hk]
  simp

theorem negDuration_of_ne_min (lib : StdLib) (d : String) (dur : Int)
    (hd : ParseDuration lib d = some dur) (hmin : dur ≠ minDuration) :
    negDuration dur = -dur := by
  have hr := ParseDuration_range lib d dur hd
  rw [negDuration_eq dur hr.1 hr.2, if_neg hmin]

/-- What `getURLQuery` and `GetURL` return when they return: the configured values with the
one value `window` under `"window"`. -/
theorem getURLQuery_window (lib : StdLib) (params : GoMap) (now : Time) (d : String)
    (hw : index params "window" = Value.str d) (q : Values)
    (h : getURLQuery lib params now = some q) :
    q.values "window" = [windowValue lib d now] := by
  unfold getURLQuery at h
  cases ha : addParams [] params with
  | none => rw [ha] at h; exact absurd h (by simp)
  | some q0 =>
    rw [ha, hw] at h
    simp only [Option.some.injEq] at h
    rw [← h]
    exact Values_values_Set _ _ _

theorem getURLQuery_strings (lib : StdLib) (params : GoMap) (now : Time) (d : String)
    (hw : index params "window" = Value.str d) (hs : ∀ kv ∈ params, kv.2.isStr = true) :
    ∃ q, getURLQuery lib params now = some q := by
  obtain ⟨q0, hq0⟩ := addParams_strings params hs []
  refine ⟨q0.Set "window" (windowValue lib d now), ?_⟩
  unfold getURLQuery
  rw [hq0, hw]

set_option maxRecDepth 100000 in
/-- The examples of C1: at `1970-01-01T01:33:07Z` the window strings `"1m"`, `"30m"` and `"1h"`
give the values of `TestGetURL`, and the first case gives its URL. -/
theorem GetURL_window_examples :
    windowValue sampleLib "1m" sampleNow = "1970-01-01T01:32:00Z,1970-01-01T01:33:00Z"
    ∧ windowValue sampleLib "30m" sampleNow = "1970-01-01T01:03:00Z,1970-01-01T01:33:00Z"
    ∧ windowValue sampleLib "1h" sampleNow = "1970-01-01T00:33:00Z,1970-01-01T01:33:00Z"
    ∧ GetURL sampleLib "localhost" 9003 "/allocation/compute" sampleParams sampleNow
        = some ("http://localhost:9003/allocation/compute?aggregate=pod"
            ++ "&window=1970-01-01T01%3A32%3A00Z%2C1970-01-01T01%3A33%3A00Z") := by
  refine ⟨by decide, by decide, by decide, by decide⟩

set_option maxRecDepth 100000 in
/-- C3 (what the code does). `"7d"` is not a duration for `time.ParseDuration`, so `GetURL`
falls back to one minute: for every instant the window is that of `"1m"`, `start = end - 60 s`.
At `1970-01-01T01:33:07Z` the URL carries `1970-01-01T01:32:00Z,1970-01-01T01:33:00Z`, where a
window of seven days would start at `1969-12-25T01:33:00Z`. -/
theorem GetURL_window_7d (lib : StdLib) (now : Time) :
    ParseDuration lib "7d" = none
    ∧ (windowStart lib "7d" now).unixNano = (windowEnd now).unixNano - 60000000000
    ∧ windowValue lib "7d" now = windowValue lib "1m" now
    ∧ GetURL sampleLib "localhost" 9003 "/allocation/compute"
          [("window", Value.str "7d"), ("aggregate", Value.str "pod")] sampleNow
        = some ("http://localhost:9003/allocation/compute?aggregate=pod"
            ++ "&window=1970-01-01T01%3A32%3A00Z%2C1970-01-01T01%3A33%3A00Z")
    ∧ ((windowEnd sampleNow).Add (-(7 * 24 * 3600000000000))).FormatRFC3339
        = "1969-12-25T01:33:00Z" := by
  have h7 : windowDuration lib "7d" = 60000000000 :=
    windowDuration_of_fail lib "7d" (ParseDuration_7d lib)
  have h1 : windowDuration lib "1m" = 60000000000 :=
    windowDuration_of_parse lib "1m" _ (ParseDuration_1m lib)
  refine ⟨ParseDuration_7d lib, ?_, ?_, by decide, by decide⟩
  · unfold windowStart Time.Add
    rw [h7]
    have : negDuration 60000000000 = -60000000000 := by decide
    rw [this]; ring
  · unfold windowValue windowStart
    rw [h7, h1]


/-! ## The fallback of `GetURL` -/

theorem clearFirst_Add_ne (k k2 v : String) (hk : k2 ≠ k) : ∀ q : Values,
    Values.clearFirst k (Values.Add q k2 v) = Values.Add (Values.clearFirst k q) k2 v := by
  intro q
  induction q with
  | nil => simp [Values.Add, Values.clearFirst, hk]
  | cons e q ih =>
    obtain ⟨k3, vs⟩ := e
    by_cases h3 : k3 = k2
    · have h4 : k3 ≠ k := h3 ▸ hk
      simp [Values.Add, Values.clearFirst, h3, hk]
    · by_cases h5 : k3 = k
      · subst h5
        simp [Values.Add, Values.clearFirst, h3]
      · simp [Values.Add, Values.clearFirst, h3, h5, ih]

theorem clearFirst_Add_same (k v v2 : String) : ∀ q q2 : Values,
    Values.clearFirst k q = Values.clearFirst k q2 →
    Values.clearFirst k (Values.Add q k v) = Values.clearFirst k (Values.Add q2 k v2) := by
  intro q
  induction q with
  | nil =>
    intro q2 h
    cases q2 with
    | nil => simp [Values.Add, Values.clearFirst]
    | cons e2 q2 =>
      obtain ⟨k3, vs⟩ := e2
      simp only [Values.clearFirst] at h
      split_ifs at h
  | cons e q ih =>
    intro q2 h
    obtain ⟨k3, vs⟩ := e
    cases q2 with
    | nil =>
      simp only [Values.clearFirst] at h
      split_ifs at h
    | cons e2 q2 =>
      obtain ⟨k4, vs2⟩ := e2
      by_cases h3 : k3 = k
      · by_cases h4 : k4 = k
        · simp only [Values.clearFirst, if_pos h3, if_pos h4, List.cons.injEq, Prod.mk.injEq,
            and_true] at h
          simp [Values.Add, Values.clearFirst, h3, h4, h.2]
        · simp only [Values.clearFirst, if_pos h3, if_neg h4, List.cons.injEq,
            Prod.mk.injEq] at h
          exact absurd (h.1.1.symm.trans h3) h4
      · by_cases h4 : k4 = k
        · simp only [Values.clearFirst, if_neg h3, if_pos h4, List.cons.injEq,
            Prod.mk.injEq] at h
          exact absurd (h.1.1.trans h4) h3
        · simp only [Values.clearFirst, if_neg h3, if_neg h4, List.cons.injEq,
            Prod.mk.injEq] at h
          have := ih q2 h.2
          simp [Values.Add, Values.clearFirst, h3, h4, h.1.1, h.1.2, this]

theorem clearFirst_Add_congr (k k2 v : String) (q q2 : Values)
    (h : Values.clearFirst k q = Values.clearFirst k q2) :
    Values.clearFirst k (Values.Add q k2 v) = Values.clearFirst k (Values.Add q2 k2 v) := by
  by_cases hk : k2 = k
  · subst hk; exact clearFirst_Add_same _ v v q q2 h
  · rw [clearFirst_Add_ne k k2 v hk, clearFirst_Add_ne k k2 v hk, h]

theorem Set_clearFirst (k x : String) : ∀ q : Values,
    Values.Set (Values.clearFirst k q) k x = Values.Set q k x := by
  intro q
  induction q with
  | nil => rfl
  | cons e q ih =>
    obtain ⟨k3, vs⟩ := e
    by_cases h3 : k3 = k <;> simp [Values.Set, Values.clearFirst, h3, ih]

theorem addParams_congr (k : String) (ps : GoMap) (hs : ∀ kv ∈ ps, kv.2.isStr = true) :
    ∀ q q2 : Values, Values.clearFirst k q = Values.clearFirst k q2 →
      ∃ r r2, addParams q ps = some r ∧ addParams q2 ps = some r2
        ∧ Values.clearFirst k r = Values.clearFirst k r2 := by
  induction ps with
  | nil => intro q q2 h; exact ⟨q, q2, rfl, rfl, h⟩
  | cons e ps ih =>
    intro q q2 h
    obtain ⟨k2, v⟩ := e
    have hv := hs (k2, v) (List.mem_cons_self _ _)
    have ih2 := ih (fun kv hkv => hs kv (List.mem_cons_of_mem _ hkv))
    cases v <;> simp [Value.isStr] at hv
    rename_i s
    simp only [addParams]
    exact ih2 _ _ (clearFirst_Add_congr k k2 s q q2 h)

/-- The `url.Values` built from two parameter maps that differ only in the string under
`"window"` agree once `"window"` is set. -/
theorem getURLQuery_window_irrelevant (pre post : GoMap) (w w2 x : String)
    (hs : ∀ kv ∈ pre ++ post, kv.2.isStr = true) :
    ∃ r r2, addParams [] (pre ++ ("window", Value.str w) :: post) = some r
      ∧ addParams [] (pre ++ ("window", Value.str w2) :: post) = some r2
      ∧ r.Set "window" x = r2.Set "window" x := by
  have hpre : ∀ kv ∈ pre, kv.2.isStr = true :=
    fun kv h => hs kv (List.mem_append_left _ h)
  have hpost : ∀ kv ∈ post, kv.2.isStr = true :=
    fun kv h => hs kv (List.mem_append_right _ h)
  obtain ⟨q0, hq0⟩ := addParams_strings pre hpre []
  obtain ⟨r, r2, hr, hr2, hc⟩ := addParams_congr "window" post hpost
    (q0.Add "window" w) (q0.Add "window" w2) (clearFirst_Add_same "window" w w2 q0 q0 rfl)
  refine ⟨r, r2, ?_, ?_, ?_⟩
  · rw [addParams_append, hq0]; exact hr
  · rw [addParams_append, hq0]; exact hr2
  · rw [← Set_clearFirst "window" x r, ← Set_clearFirst "window" x r2, hc]

set_option maxRecDepth 100000 in
/-- C2 (counterexample). With the window `"bad value"`, which does not parse, and a parameter
that is not a string (`accumulate: true`), `GetURL` does not return: the type assertion
`v.(string)` panics. -/
theorem GetURL_panics_on_non_string_param :
    ParseDuration sampleLib "bad value" = none
    ∧ GetURL sampleLib "localhost" 9003 "/allocation/compute"
        [("window", Value.str "bad value"), ("accumulate", Value.bool true)] sampleNow = none := by
  refine ⟨by decide, by decide⟩

/-- C2 (amended). For every window string that fails to parse as a duration, every instant,
host, port and path, and other parameters whose values are all strings, `GetURL` returns, and
its result is the URL it returns for the window string `"1m"` with the same other arguments at
the same instant. -/
theorem GetURL_unparsable_window (lib : StdLib) (host : String) (port : Int) (path : String)
    (pre post : GoMap) (w : String) (now : Time)
    (hw : ParseDuration lib w = none) (hk : "window" ∉ pre.map Prod.fst)
    (hs : ∀ kv ∈ pre ++ post, kv.2.isStr = true) :
    (∃ u, GetURL lib host port path (pre ++ ("window", Value.str w) :: post) now = some u)
    ∧ GetURL lib host port path (pre ++ ("window", Value.str w) :: post) now
        = GetURL lib host port path (pre ++ ("window", Value.str "1m") :: post) now := by
  have hv : windowValue lib w now = windowValue lib "1m" now := by
    unfold windowValue windowStart
    rw [windowDuration_of_fail lib w hw,
      windowDuration_of_parse lib "1m" _ (ParseDuration_1m lib)]
  obtain ⟨r, r2, hr, hr2, hset⟩ :=
    getURLQuery_window_irrelevant pre post w "1m" (windowValue lib "1m" now) hs
  have hq1 : getURLQuery lib (pre ++ ("window", Value.str w) :: post) now
      = some (r.Set "window" (windowValue lib "1m" now)) := by
    unfold getURLQuery
    rw [hr, index_append_cons pre post "window" _ hk]
    simp only [hv]
  have hq2 : getURLQuery lib (pre ++ ("window", Value.str "1m") :: post) now
      = some (r2.Set "window" (windowValue lib "1m" now)) := by
    unfold getURLQuery
    rw [hr2, index_append_cons pre post "window" _ hk]
  unfold GetURL
  rw [hq1, hq2, hset]
  exact ⟨⟨_, rfl⟩, rfl⟩

set_option maxRecDepth 100000 in
/-- Witness of `GetURL_unparsable_window`: the last case of `TestGetURL`, the window
`"bad value"` with the parameter `aggregate`, gives the URL of the window `"1m"`. -/
theorem GetURL_unparsable_window_witness :
    (ParseDuration sampleLib "bad value" = none
      ∧ "window" ∉ ([] : GoMap).map Prod.fst
      ∧ ∀ kv ∈ ([] : GoMap) ++ [("aggregate", Value.str "pod")], kv.2.isStr = true)
    ∧ GetURL sampleLib "localhost" 9003 "/allocation/compute"
        ([] ++ ("window", Value.str "bad value") :: [("aggregate", Value.str "pod")]) sampleNow
      = some ("http://localhost:9003/allocation/compute?aggregate=pod"
          ++ "&window=1970-01-01T01%3A32%3A00Z%2C1970-01-01T01%3A33%3A00Z")
    ∧ GetURL sampleLib "localhost" 9003 "/allocation/compute"
        ([] ++ ("window", Value.str "bad value") :: [("aggregate", Value.str "pod")]) sampleNow
      = GetURL sampleLib "localhost" 9003 "/allocation/compute"
        ([] ++ ("window", Value.str "1m") :: [("aggregate", Value.str "pod")]) sampleNow :=
  ⟨⟨by decide, by simp, by
      intro kv hkv
      simp only [List.nil_append, List.mem_singleton] at hkv
      rw [hkv]; rfl⟩,
    by decide,
    (GetURL_unparsable_window sampleLib "localhost" 9003 "/allocation/compute" []
      [("aggregate", Value.str "pod")] "bad value" sampleNow (by decide) (by simp) (by
        intro kv hkv
        simp only [List.nil_append, List.mem_singleton] at hkv
        rw [hkv]; rfl)).2⟩

/-! ## The polling loop -/

/-- Every round of the loop requests the URL that `RecordMetrics` built before the loop. -/
theorem Poller_run_urls (lib : StdLib) (cfg : Config) : ∀ (ticks : List Tick) (p : Poller)
    (urls : List String) (pf : Poller), p.run lib cfg ticks = some (urls, pf) →
    urls = List.replicate ticks.length p.url ∧ pf.url = p.url := by
  intro ticks
  induction ticks with
  | nil =>
    intro p urls pf h
    simp only [Poller.run, Option.some.injEq, Prod.mk.injEq] at h
    rw [← h.1, ← h.2]; exact ⟨rfl, rfl⟩
  | cons t ts ih =>
    intro p urls pf h
    simp only [Poller.run, Poller.round] at h
    cases hu : updateAll lib cfg (t.api p.url).allocations p.metrics with
    | none => rw [hu] at h; exact absurd h (by simp)
    | some ms =>
      rw [hu] at h
      simp only at h
      cases hr : Poller.run lib cfg ⟨p.url, p.interval, ms⟩ ts with
      | none => rw [hr] at h; exact absurd h (by simp)
      | some r =>
        obtain ⟨us, p3⟩ := r
        rw [hr] at h
        simp only [Option.map_some', Option.some.injEq, Prod.mk.injEq] at h
        have := ih _ _ _ hr
        rw [← h.1, ← h.2, this.1]
        exact ⟨rfl, this.2⟩

/-- The URL requested in every round is the one of the instant at which `RecordMetrics` was
called, whatever the instants of the rounds. -/
theorem RecordMetrics_urls (lib : StdLib) (cfg : Config) (metrics : PrometheusMetrics)
    (start : Time) (ticks : List Tick) (p pf : Poller) (urls : List String)
    (h : RecordMetrics lib cfg metrics start = some p)
    (hr : p.run lib cfg ticks = some (urls, pf)) :
    ∀ u ∈ urls,
      GetURL lib cfg.apiHost cfg.apiPort cfg.apiPath cfg.apiParameters start = some u := by
  have hp : GetURL lib cfg.apiHost cfg.apiPort cfg.apiPath cfg.apiParameters start
      = some p.url := by
    unfold RecordMetrics at h
    cases hg : GetURL lib cfg.apiHost cfg.apiPort cfg.apiPath cfg.apiParameters start with
    | none => rw [hg] at h; exact absurd h (by simp)
    | some u =>
      rw [hg] at h
      simp only at h
      split_ifs at h
      have := Option.some.inj h
      rw [← this]
  intro u hu
  rw [(Poller_run_urls lib cfg ticks p urls pf hr).1] at hu
  rw [hp, (List.eq_of_mem_replicate hu)]

set_option maxRecDepth 100000 in
/-- C4 (what the code does). `RecordMetrics` is called at `1970-01-01T01:33:07Z` with a window
of `"1m"`; the rounds of its loop run one and two minutes later. Both rounds request the URL
with the window `01:32:00Z,01:33:00Z` built before the loop, while `GetURL` at the instants of
the rounds gives the windows `01:33:00Z,01:34:00Z` and `01:34:00Z,01:35:00Z`. -/
theorem RecordMetrics_requests_stale_window :
    ((RecordMetrics sampleLib sampleConfig [] sampleNow).bind (fun p =>
        (p.run sampleLib sampleConfig
          [⟨⟨5647000000000, 0⟩, fun _ => ⟨[], none⟩⟩,
           ⟨⟨5707000000000, 0⟩, fun _ => ⟨[], none⟩⟩]).map Prod.fst))
      = some ["http://localhost:9003/allocation/compute?aggregate=pod"
            ++ "&window=1970-01-01T01%3A32%3A00Z%2C1970-01-01T01%3A33%3A00Z",
          "http://localhost:9003/allocation/compute?aggregate=pod"
            ++ "&window=1970-01-01T01%3A32%3A00Z%2C1970-01-01T01%3A33%3A00Z"]
    ∧ GetURL sampleLib sampleConfig.apiHost sampleConfig.apiPort sampleConfig.apiPath
          sampleConfig.apiParameters ⟨5647000000000, 0⟩
        = some ("http://localhost:9003/allocation/compute?aggregate=pod"
            ++ "&window=1970-01-01T01%3A33%3A00Z%2C1970-01-01T01%3A34%3A00Z")
    ∧ GetURL sampleLib sampleConfig.apiHost sampleConfig.apiPort sampleConfig.apiPath
          sampleConfig.apiParameters ⟨5707000000000, 0⟩
        = some ("http://localhost:9003/allocation/compute?aggregate=pod"
            ++ "&window=1970-01-01T01%3A34%3A00Z%2C1970-01-01T01%3A35%3A00Z") := by
  refine ⟨by decide, by decide, by decide⟩


/-! ## Fields by name -/

/-- The names of the numeric accessors are the names of the numeric fields, in order. -/
theorem numericAccessors_names : numericAccessors.map Prod.fst = numericFieldNames := by
  rfl

/-- C11. For every allocation record and every numeric field (its name and the field it
names), `GetValueByFieldNameFloat(name)` returns exactly the value stored in that field; so two
records that agree on the field get the same result, whatever their other fields hold. -/
theorem GetValueByFieldNameFloat_numeric (name : String) (field : Allocation → Float64)
    (h : (name, field) ∈ numericAccessors) :
    (∀ a : Allocation, a.GetValueByFieldNameFloat name = some (field a))
    ∧ (∀ a b : Allocation, field a = field b →
        a.GetValueByFieldNameFloat name = b.GetValueByFieldNameFloat name)
    ∧ name ∈ numericFieldNames := by
  have key : ∀ a : Allocation, a.GetValueByFieldNameFloat name = some (field a) := by
    intro a
    simp only [numericAccessors, List.mem_cons, List.mem_singleton, Prod.mk.injEq,
      List.not_mem_nil, or_false] at h
    rcases h with h | h | h | h | h | h | h | h | h | h | h | h | h | h | h | h | h | h | h | h
      | h | h | h | h | h | h | h | h | h | h | h | h | h <;>
    · obtain ⟨rfl, rfl⟩ := h
      rfl
  refine ⟨key, ?_, ?_⟩
  · intro a b hab
    rw [key a, key b, hab]
  · rw [← numericAccessors_names]
    exact List.mem_map.2 ⟨(name, field), h, rfl⟩

/-- Witness of `GetValueByFieldNameFloat_numeric`: the first case of
`TestGetValueByFieldNameFloat`, the field `CPUCores` of a record with `CPUCores = 1337`. -/
theorem GetValueByFieldNameFloat_numeric_witness :
    ("CPUCores", Allocation.CPUCores) ∈ numericAccessors
    ∧ Allocation.GetValueByFieldNameFloat { CPUCores := ⟨0x4094E40000000000⟩ } "CPUCores"
        = some ⟨0x4094E40000000000⟩ :=
  ⟨by simp [numericAccessors],
    (GetValueByFieldNameFloat_numeric "CPUCores" Allocation.CPUCores
      (by simp [numericAccessors])).1 { CPUCores := ⟨0x4094E40000000000⟩ }⟩


/-! ## `GetAllocation` -/

theorem appendAggregation_eq (as : List Allocation) (aggregation : List (String × Allocation)) :
    appendAggregation as aggregation = as ++ aggregation.map Prod.snd := by
  unfold appendAggregation
  induction aggregation generalizing as with
  | nil => simp
  | cons e l ih => simp [List.foldl_cons, ih]

theorem foldl_appendAggregation (data : List (List (String × Allocation)))
    (as : List Allocation) :
    data.foldl appendAggregation as = as ++ (data.map (fun b => b.map Prod.snd)).flatten := by
  induction data generalizing as with
  | nil => simp
  | cons b l ih => simp [List.foldl_cons, ih, appendAggregation_eq]

/-- C12. When the GET succeeds with status 200, the body is read and the envelope `r` is
decoded, `GetAllocation` returns no error and the records of all aggregation buckets of
`r.Data`, keys discarded, bucket after bucket in the order of enumeration: every record of every
bucket occurs once, and the length is the sum of the bucket sizes. An empty `Data` gives the
empty slice, which is not `nil`. -/
theorem GetAllocation_flattens (unmarshal : String → Except GoError Response)
    (get : String → Except GoError HTTPResponse) (url : String) (resp : HTTPResponse)
    (body : String) (r : Response)
    (hget : get url = Except.ok resp) (hstatus : resp.StatusCode = 200)
    (hbody : resp.Body = Except.ok body) (hdec : unmarshal body = Except.ok r) :
    (GetAllocation unmarshal get url).err = none
    ∧ (GetAllocation unmarshal get url).allocations
        = some ((r.Data.map (fun bucket => bucket.map Prod.snd)).flatten)
    ∧ (∀ as, (GetAllocation unmarshal get url).allocations = some as →
        as.length = (r.Data.map List.length).sum)
    ∧ (r.Data = [] → (GetAllocation unmarshal get url).allocations = some []) := by
  have h : GetAllocation unmarshal get url
      = ⟨some ((r.Data.map (fun bucket => bucket.map Prod.snd)).flatten), none⟩ := by
    unfold GetAllocation
    rw [hget]
    simp only [hstatus, ne_eq, not_true_eq_false, if_false, hbody, hdec]
    rw [foldl_appendAggregation]
    rfl
  refine ⟨by rw [h], by rw [h], ?_, ?_⟩
  · intro as has
    rw [h] at has
    simp only [Option.some.injEq] at has
    rw [← has, List.length_flatten, List.map_map]
    congr 1
    apply List.map_congr_left
    intro b _
    simp
  · intro hd
    rw [h, hd]
    rfl

/-- Witness of `GetAllocation_flattens`: an envelope with the buckets `a` and `b, c` gives the
three records in this order. -/
theorem GetAllocation_flattens_witness :
    (GetAllocation
        (fun _ => Except.ok ⟨200, "success",
          [[("a", { Name := "a" })], [("b", { Name := "b" }), ("c", { Name := "c" })]], "", ""⟩)
        (fun _ => Except.ok ⟨200, Except.ok "body"⟩) "url").allocations
      = some [{ Name := "a" }, { Name := "b" }, { Name := "c" }]
    ∧ (GetAllocation
        (fun _ => Except.ok ⟨200, "success",
          [[("a", { Name := "a" })], [("b", { Name := "b" }), ("c", { Name := "c" })]], "", ""⟩)
        (fun _ => Except.ok ⟨200, Except.ok "body"⟩) "url").err = none :=
  ⟨rfl,
    (GetAllocation_flattens
      (fun _ => Except.ok ⟨200, "success",
        [[("a", { Name := "a" })], [("b", { Name := "b" }), ("c", { Name := "c" })]], "", ""⟩)
      (fun _ => Except.ok ⟨200, Except.ok "body"⟩) "url" ⟨200, Except.ok "body"⟩ "body"
      ⟨200, "success",
        [[("a", { Name := "a" })], [("b", { Name := "b" }), ("c", { Name := "c" })]], "", ""⟩
      rfl rfl rfl rfl).1⟩

/-- The result of `GetAllocation` by failure condition: with a failure, the `nil` slice and the
error that wraps the sentinel, with the text of the sentinel, `": "` and the detail of the
failure; without one, a slice that is not `nil` and no error. -/
theorem GetAllocation_by_failure (unmarshal : String → Except GoError Response)
    (get : String → Except GoError HTTPResponse) (url : String) :
    (∀ f, fetchFailure unmarshal get url = some f →
      GetAllocation unmarshal get url = ⟨none, some (errFailed f.detail)⟩)
    ∧ (fetchFailure unmarshal get url = none →
      (GetAllocation unmarshal get url).err = none
      ∧ (GetAllocation unmarshal get url).allocations ≠ none) := by
  unfold fetchFailure GetAllocation
  cases hg : get url with
  | error cause =>
    refine ⟨?_, ?_⟩
    · intro f hf
      simp only [Option.some.injEq] at hf
      rw [← hf]; rfl
    · intro hf; simp at hf
  | ok resp =>
    simp only
    by_cases hs : resp.StatusCode ≠ 200
    · rw [if_pos hs, if_pos hs]
      refine ⟨?_, ?_⟩
      · intro f hf
        simp only [Option.some.injEq] at hf
        rw [← hf]; rfl
      · intro hf; simp at hf
    · rw [if_neg hs, if_neg hs]
      cases hb : resp.Body with
      | error cause =>
        refine ⟨?_, ?_⟩
        · intro f hf
          simp only [Option.some.injEq] at hf
          rw [← hf]; rfl
        · intro hf; simp at hf
      | ok body =>
        simp only
        cases hu : unmarshal body with
        | error cause =>
          refine ⟨?_, ?_⟩
          · intro f hf
            simp only [Option.some.injEq] at hf
            rw [← hf]; rfl
          · intro hf; simp at hf
        | ok r =>
          refine ⟨?_, ?_⟩
          · intro f hf; simp at hf
          · intro _; exact ⟨rfl, by simp⟩

theorem errFailed_Is (detail : String) : (errFailed detail).Is ErrFailedAllocationAPICall = true := by
  simp [errFailed, GoError.Is, ErrFailedAllocationAPICall]


theorem append_ne_of_take (a b x y : String) (n : Nat) (ha : n ≤ a.data.length)
    (hb : n ≤ b.data.length) (hne : a.data.take n ≠ b.data.take n) : a ++ x ≠ b ++ y := by
  intro h
  apply hne
  have h2 := congrArg (fun s : String => s.data.take n) h
  simp only [String.data_append] at h2
  rw [List.take_append_of_le_length ha, List.take_append_of_le_length hb] at h2
  exact h2

/-- The details of two failures of different conditions, neither a transport failure, differ:
they start with `unexpected status code: `, `unable to read response body: ` and
`unable to unmarshal response JSON: `. -/
theorem FetchFailure_detail_ne (f g : FetchFailure) (hf : f.isTransport = false)
    (hg : g.isTransport = false) (hk : f.sameKind g = false) : f.detail ≠ g.detail := by
  cases f <;> cases g <;> simp only [FetchFailure.isTransport, FetchFailure.sameKind] at hf hg hk
    <;> first
      | exact absurd hf (by decide)
      | exact absurd hg (by decide)
      | exact absurd hk (by decide)
      | exact append_ne_of_take _ _ _ _ 11 (by decide) (by decide) (by decide)

/-- C13 (counterexample). A transport failure whose cause has the text
`unexpected status code: 404` and a response with the status 404 give errors with the same
text: the text of a transport failure is the text of its cause, whatever it is. -/
theorem GetAllocation_transport_text_collides :
    (fetchFailure (fun _ => Except.ok ⟨0, "", [], "", ""⟩)
        (fun _ => Except.error (GoError.new "unexpected status code: 404")) "url").map
        FetchFailure.isTransport = some true
    ∧ (fetchFailure (fun _ => Except.ok ⟨0, "", [], "", ""⟩)
        (fun _ => Except.ok ⟨404, Except.ok ""⟩) "url").map FetchFailure.isTransport
        = some false
    ∧ (GetAllocation (fun _ => Except.ok ⟨0, "", [], "", ""⟩)
        (fun _ => Except.error (GoError.new "unexpected status code: 404")) "url").err
      = (GetAllocation (fun _ => Except.ok ⟨0, "", [], "", ""⟩)
        (fun _ => Except.ok ⟨404, Except.ok ""⟩) "url").err
    ∧ ((GetAllocation (fun _ => Except.ok ⟨0, "", [], "", ""⟩)
        (fun _ => Except.ok ⟨404, Except.ok ""⟩) "url").err.map GoError.Error
      = some ("Failed to retrieve cost allocation data from Allocation API: "
          ++ "unexpected status code: 404")) := by
  refine ⟨rfl, rfl, by decide, by decide⟩

/-- C13 (amended). `GetAllocation` returns the `nil` slice together with an error that wraps
`ErrFailedAllocationAPICall` in each of the four failure conditions (the text is that of the
sentinel, `": "` and the detail of the condition) and only in them: without a failure it
returns no error and a slice that is not `nil`. The three conditions other than a transport
failure are told apart by the text. -/
theorem GetAllocation_failures (unmarshal : String → Except GoError Response)
    (get : String → Except GoError HTTPResponse) (url : String) :
    (∀ f, fetchFailure unmarshal get url = some f →
      (GetAllocation unmarshal get url).allocations = none
      ∧ ∃ e, (GetAllocation unmarshal get url).err = some e
        ∧ e.Is ErrFailedAllocationAPICall = true
        ∧ e.Error = ErrFailedAllocationAPICall.Error ++ ": " ++ f.detail)
    ∧ (fetchFailure unmarshal get url = none →
      (GetAllocation unmarshal get url).err = none
      ∧ (GetAllocation unmarshal get url).allocations ≠ none)
    ∧ (∀ f g : FetchFailure, f.isTransport = false → g.isTransport = false →
        f.sameKind g = false →
        (errFailed f.detail).Error ≠ (errFailed g.detail).Error) := by
  have h := GetAllocation_by_failure unmarshal get url
  refine ⟨?_, h.2, ?_⟩
  · intro f hf
    rw [h.1 f hf]
    exact ⟨rfl, errFailed f.detail, rfl, errFailed_Is _, rfl⟩
  · intro f g hf hg hk heq
    have hd := FetchFailure_detail_ne f g hf hg hk
    simp only [errFailed, GoError.Error] at heq
    have h2 := congrArg String.data heq
    simp only [String.data_append, List.append_cancel_left_eq] at h2
    exact hd (String.ext h2)

/-! ## A failed fetch in the loop -/

/-- C19. Whenever `GetAllocation` returns an error, the round of the loop that made the call
sets no gauge (the state after the round is the state before it) and does not fail, and the
loop goes on with the next round. -/
theorem Poller_round_fetch_failure (lib : StdLib) (cfg : Config) (p : Poller) (t : Tick)
    (ts : List Tick) (unmarshal : String → Except GoError Response)
    (get : String → Except GoError HTTPResponse)
    (hapi : t.api p.url = (GetAllocation unmarshal get p.url).toFetchResult)
    (herr : (GetAllocation unmarshal get p.url).err ≠ none) :
    p.round lib cfg t = some (p.url, p)
    ∧ p.run lib cfg (t :: ts) = (p.run lib cfg ts).map (fun r => (p.url :: r.1, r.2)) := by
  have h := GetAllocation_by_failure unmarshal get p.url
  have hnil : (t.api p.url).allocations = [] := by
    cases hf : fetchFailure unmarshal get p.url with
    | none => exact absurd (h.2 hf).1 herr
    | some f => rw [hapi, h.1 f hf]; rfl
  have hround : p.round lib cfg t = some (p.url, p) := by
    unfold Poller.round
    rw [hnil]
    rfl
  refine ⟨hround, ?_⟩
  simp only [Poller.run, hround]

/-- Witness of `Poller_round_fetch_failure`: the GET is refused, as in `TestGetAllocation`; the
gauge of the poller keeps its value. -/
theorem Poller_round_fetch_failure_witness :
    (GetAllocation (fun _ => Except.ok ⟨0, "", [], "", ""⟩)
        (fun _ => Except.error (GoError.new "connection refused")) "url").err.map GoError.Error
      = some ("Failed to retrieve cost allocation data from Allocation API: "
          ++ "connection refused")
    ∧ (Poller.round sampleLib sampleConfig
        ⟨"url", 60000000000, [("CPUCost", ⟨["namespace"], [(["kube-system"], ⟨7⟩)]⟩)]⟩
        ⟨sampleNow, fun u => (GetAllocation (fun _ => Except.ok ⟨0, "", [], "", ""⟩)
          (fun _ => Except.error (GoError.new "connection refused")) u).toFetchResult⟩)
      = some ("url",
          ⟨"url", 60000000000, [("CPUCost", ⟨["namespace"], [(["kube-system"], ⟨7⟩)]⟩)]⟩) :=
  ⟨by decide,
    (Poller_round_fetch_failure sampleLib sampleConfig
      ⟨"url", 60000000000, [("CPUCost", ⟨["namespace"], [(["kube-system"], ⟨7⟩)]⟩)]⟩
      ⟨sampleNow, fun u => (GetAllocation (fun _ => Except.ok ⟨0, "", [], "", ""⟩)
        (fun _ => Except.error (GoError.new "connection refused")) u).toFetchResult⟩
      [] (fun _ => Except.ok ⟨0, "", [], "", ""⟩)
      (fun _ => Except.error (GoError.new "connection refused")) rfl (by decide)).1⟩


/-! ## The label set -/

theorem Labels_set_lookup_self (ls : Labels) (n v : String) :
    (ls.set n v).lookup n = some v := by
  induction ls with
  | nil => simp [Labels.set]
  | cons e ls ih =>
    obtain ⟨n2, v2⟩ := e
    simp only [Labels.set]
    split_ifs with h
    · subst h; simp
    · have hb : (n == n2) = false := by simpa using fun hk : n = n2 => h hk.symm
      rw [List.lookup_cons, hb]
      exact ih

theorem Labels_set_lookup_ne (ls : Labels) (n v k : String) (hk : k ≠ n) :
    (ls.set n v).lookup k = ls.lookup k := by
  induction ls with
  | nil =>
    have hb : (k == n) = false := by simpa using hk
    simp [Labels.set, List.lookup_cons, hb]
  | cons e ls ih =>
    obtain ⟨n2, v2⟩ := e
    simp only [Labels.set]
    split_ifs with h
    · subst h
      have hb : (k == n2) = false := by simpa using hk
      simp [List.lookup_cons, hb]
    · by_cases hk2 : k = n2
      · subst hk2; simp
      · have hb : (k == n2) = false := by simpa using hk2
        simp only [List.lookup_cons, hb]
        exact ih

theorem Labels_set_keys (ls : Labels) (n v k : String) :
    k ∈ (ls.set n v).map Prod.fst ↔ k = n ∨ k ∈ ls.map Prod.fst := by
  induction ls with
  | nil => simp [Labels.set]
  | cons e ls ih =>
    obtain ⟨n2, v2⟩ := e
    simp only [Labels.set]
    split_ifs with h
    · subst h
      simp only [List.map_cons, List.mem_cons]
      tauto
    · simp only [List.map_cons, List.mem_cons, ih]
      tauto

theorem Labels_set_nodup (ls : Labels) (n v : String) (h : (ls.map Prod.fst).Nodup) :
    ((ls.set n v).map Prod.fst).Nodup := by
  induction ls with
  | nil => simp [Labels.set]
  | cons e ls ih =>
    obtain ⟨n2, v2⟩ := e
    simp only [List.map_cons, List.nodup_cons] at h
    simp only [Labels.set]
    split_ifs with h2
    · simp only [List.map_cons, List.nodup_cons]
      exact h
    · simp only [List.map_cons, List.nodup_cons]
      refine ⟨?_, ih h.2⟩
      intro hm
      rcases (Labels_set_keys ls n v n2).1 hm with h3 | h3
      · exact h2 h3
      · exact h.1 h3

theorem fillLabels_append (lib : StdLib) (m : GoMap) (pre rest : List (String × String)) :
    ∀ acc : Labels, fillLabels lib m acc (pre ++ rest)
      = (fillLabels lib m acc pre).bind (fun a => fillLabels lib m a rest) := by
  induction pre with
  | nil => intro acc; rfl
  | cons e pre ih =>
    intro acc
    obtain ⟨n, k⟩ := e
    simp only [List.cons_append, fillLabels]
    cases labelValue lib m k with
    | none => rfl
    | some v => exact ih _

theorem fillLabels_keys (lib : StdLib) (m : GoMap) (labels : List (String × String)) :
    ∀ (acc ls : Labels), fillLabels lib m acc labels = some ls →
      (∀ k, k ∈ ls.map Prod.fst ↔ k ∈ acc.map Prod.fst ∨ k ∈ labels.map Prod.fst)
      ∧ ((acc.map Prod.fst).Nodup → (ls.map Prod.fst).Nodup) := by
  induction labels with
  | nil =>
    intro acc ls h
    simp only [fillLabels, Option.some.injEq] at h
    subst h
    simp
  | cons e labels ih =>
    intro acc ls h
    obtain ⟨n, key⟩ := e
    simp only [fillLabels] at h
    cases hv : labelValue lib m key with
    | none => rw [hv] at h; exact absurd h (by simp)
    | some v =>
      rw [hv] at h
      obtain ⟨h1, h2⟩ := ih _ _ h
      refine ⟨?_, fun hn => h2 (Labels_set_nodup acc n v hn)⟩
      intro k
      rw [h1 k, Labels_set_keys]
      simp only [List.map_cons, List.mem_cons]
      tauto

theorem fillLabels_lookup_acc (lib : StdLib) (m : GoMap) (labels : List (String × String))
    (n : String) (hn : n ∉ labels.map Prod.fst) :
    ∀ (acc ls : Labels), fillLabels lib m acc labels = some ls → ls.lookup n = acc.lookup n := by
  induction labels with
  | nil =>
    intro acc ls h
    simp only [fillLabels, Option.some.injEq] at h
    rw [h]
  | cons e labels ih =>
    intro acc ls h
    obtain ⟨n2, key⟩ := e
    simp only [List.map_cons, List.mem_cons, not_or] at hn
    simp only [fillLabels] at h
    cases hv : labelValue lib m key with
    | none => rw [hv] at h; exact absurd h (by simp)
    | some v =>
      rw [hv] at h
      rw [ih hn.2 _ _ h, Labels_set_lookup_ne acc n2 v n hn.1]

/-- The value of a label in the label set is that of the last configured entry with its
name. -/
theorem fillLabels_lookup (lib : StdLib) (m : GoMap) (pre post : List (String × String))
    (name key : String) (hlast : name ∉ post.map Prod.fst) (acc ls : Labels)
    (h : fillLabels lib m acc (pre ++ (name, key) :: post) = some ls) :
    ls.lookup name = labelValue lib m key ∧ labelValue lib m key ≠ none := by
  rw [fillLabels_append] at h
  cases hp : fillLabels lib m acc pre with
  | none => rw [hp] at h; exact absurd h (by simp)
  | some a =>
    rw [hp] at h
    simp only [Option.some_bind, fillLabels] at h
    cases hv : labelValue lib m key with
    | none => rw [hv] at h; exact absurd h (by simp)
    | some v =>
      rw [hv] at h
      rw [fillLabels_lookup_acc lib m post name hlast _ _ h, Labels_set_lookup_self]
      exact ⟨rfl, by simp⟩

theorem fillLabels_some (lib : StdLib) (m : GoMap) (labels : List (String × String))
    (h : ∀ l ∈ labels, labelValue lib m l.2 ≠ none) :
    ∀ acc : Labels, ∃ ls, fillLabels lib m acc labels = some ls := by
  induction labels with
  | nil => intro acc; exact ⟨acc, rfl⟩
  | cons e labels ih =>
    intro acc
    obtain ⟨n, key⟩ := e
    simp only [fillLabels]
    cases hv : labelValue lib m key with
    | none => exact absurd hv (h (n, key) (List.mem_cons_self _ _))
    | some v => exact ih (fun l hl => h l (List.mem_cons_of_mem _ hl)) _

theorem labelValue_ne_none (lib : StdLib) (m : GoMap) (key : String)
    (h : ∀ xs, GetElementFromKey key m = Value.slice xs → SortAndJoinSlice lib xs "," ≠ none) :
    labelValue lib m key ≠ none := by
  unfold labelValue
  cases hg : GetElementFromKey key m with
  | slice xs => exact h xs hg
  | _ => simp

theorem NewPrometheusMetrics_labelNames (cfg : Config) (ms : PrometheusMetrics)
    (names : List String) (h : NewPrometheusMetrics cfg = some ms)
    (hn : GetPrometheusMetricsLabelNames cfg = some names) :
    ∀ e ∈ ms, e.2.labelNames = names := by
  unfold NewPrometheusMetrics at h
  rw [hn] at h
  cases hnames : GetPrometheusMetricsNames cfg with
  | none => rw [hnames] at h; exact absurd h (by simp)
  | some ns =>
    rw [hnames] at h
    simp only [Option.some.injEq] at h
    rw [← h]
    have key : ∀ (l : List (String × String)) (acc : PrometheusMetrics),
        (∀ e ∈ acc, e.2.labelNames = names) →
        ∀ e ∈ l.foldl (fun (ms : PrometheusMetrics) n =>
          if (ms.lookup n.2).isSome
          then ms.map (fun e => if e.1 = n.2 then (e.1, ⟨names, []⟩) else e)
          else ms ++ [(n.2, ⟨names, []⟩)]) acc, e.2.labelNames = names := by
      intro l
      induction l with
      | nil => intro acc hacc; exact hacc
      | cons n l ih =>
        intro acc hacc
        simp only [List.foldl_cons]
        apply ih
        intro e he
        split_ifs at he with h1
        · obtain ⟨e0, he0, heq⟩ := List.mem_map.1 he
          split_ifs at heq with h2
          · rw [← heq]
          · rw [← heq]; exact hacc e0 he0
        · rcases List.mem_append.1 he with h3 | h3
          · exact hacc e h3
          · simp only [List.mem_singleton] at h3
            rw [h3]
    exact key ns [] (by simp)

/-- C14. Whenever `NewPrometheusLabelsFromValues` builds a label set, its keys are exactly the
configured label names, each once, whatever the properties mapping contains; it builds one
unless a configured key resolves to a sequence on which `SortAndJoinSlice` panics; and the
configured label names are the variable labels of every gauge of `NewPrometheusMetrics`. -/
theorem NewPrometheusLabelsFromValues_keys (lib : StdLib) (cfg : Config) (m : GoMap) :
    (∀ ls names, GetPrometheusMetricsLabelNames cfg = some names →
      NewPrometheusLabelsFromValues lib cfg m = some ls →
      (∀ n, n ∈ ls.map Prod.fst ↔ n ∈ names) ∧ (ls.map Prod.fst).Nodup)
    ∧ (∀ labels, GetPrometheusMetricsLabels cfg = some labels →
      (∀ l ∈ labels, ∀ xs, GetElementFromKey l.2 m = Value.slice xs →
        SortAndJoinSlice lib xs "," ≠ none) →
      ∃ ls, NewPrometheusLabelsFromValues lib cfg m = some ls)
    ∧ (∀ ms names, NewPrometheusMetrics cfg = some ms →
      GetPrometheusMetricsLabelNames cfg = some names → ∀ e ∈ ms, e.2.labelNames = names) := by
  refine ⟨?_, ?_, ?_⟩
  · intro ls names hn hr
    unfold GetPrometheusMetricsLabelNames at hn
    unfold NewPrometheusLabelsFromValues at hr
    cases hl : GetPrometheusMetricsLabels cfg with
    | none => rw [hl] at hr; exact absurd hr (by simp)
    | some labels =>
      rw [hl] at hn hr
      simp only [Option.map_some', Option.some.injEq] at hn
      obtain ⟨h1, h2⟩ := fillLabels_keys lib m labels [] ls hr
      refine ⟨?_, h2 (by simp)⟩
      intro n
      rw [h1 n, ← hn]
      simp
  · intro labels hl hs
    unfold NewPrometheusLabelsFromValues
    rw [hl]
    exact fillLabels_some lib m labels
      (fun l hlm => labelValue_ne_none lib m l.2 (hs l hlm)) []
  · intro ms names h hn
    exact NewPrometheusMetrics_labelNames cfg ms names h hn

/-- The cases of `TestNewPrometheusLabelsFromValues`, here the third: the key `key1.key2`, a
sequence and a mapping. -/
theorem NewPrometheusLabelsFromValues_example :
    NewPrometheusLabelsFromValues sampleLib testConfig testProperties
      = some [("label_a", "value1"), ("label_b", "value2a,value2b,value2c"),
          ("label_c", "key3a:value3a,key3b:value3b,key3c:value3c")]
    ∧ GetPrometheusMetricsLabelNames testConfig = some ["label_a", "label_b", "label_c"] := by
  refine ⟨by decide, by decide⟩

/-- The assignment `labels[name] = v` of one configured entry: `v` is the canonical string of
the entry's key, the label set holds it right after the assignment, and still holds it at the
end unless a later entry has the same name. -/
theorem fillLabels_assigned (lib : StdLib) (m : GoMap) (pre post : List (String × String))
    (name key : String) (acc ls : Labels)
    (h : fillLabels lib m acc (pre ++ (name, key) :: post) = some ls) :
    ∃ v mid, labelValue lib m key = some v
      ∧ fillLabels lib m acc (pre ++ [(name, key)]) = some mid
      ∧ mid.lookup name = some v
      ∧ (name ∉ post.map Prod.fst → ls.lookup name = some v) := by
  have hsplit : pre ++ (name, key) :: post = (pre ++ [(name, key)]) ++ post := by simp
  rw [hsplit, fillLabels_append] at h
  cases hmid : fillLabels lib m acc (pre ++ [(name, key)]) with
  | none => rw [hmid] at h; exact absurd h (by simp)
  | some mid =>
    rw [hmid] at h
    simp only [Option.some_bind] at h
    obtain ⟨h1, h2⟩ := fillLabels_lookup lib m pre [] name key (by simp) acc mid hmid
    cases hv : labelValue lib m key with
    | none => exact absurd hv h2
    | some v =>
      refine ⟨v, mid, rfl, rfl, by rw [h1, hv], ?_⟩
      intro hlast
      rw [fillLabels_lookup_acc lib m post name hlast _ _ h, h1, hv]

/-- C15. For every configured label (an entry `name`, `key` of the configured labels) and every
properties mapping, the value `v` that `NewPrometheusLabelsFromValues` assigns to the label is
the canonical string of `GetElementFromKey(key, m)`: the string itself for a string,
`SortAndJoinSlice(value, ",")` for a sequence and `SortAndJoinMap(value, ",")` for a mapping.
The label set holds `v` under `name` right after the assignment, and the returned label set
holds it unless a later entry has the same name and assigns again. -/
theorem NewPrometheusLabelsFromValues_value (lib : StdLib) (cfg : Config) (m : GoMap)
    (pre post : List (String × String)) (name key : String) (ls : Labels)
    (hl : GetPrometheusMetricsLabels cfg = some (pre ++ (name, key) :: post))
    (hr : NewPrometheusLabelsFromValues lib cfg m = some ls) :
    ∃ v, (∀ s, GetElementFromKey key m = Value.str s → v = s)
      ∧ (∀ xs, GetElementFromKey key m = Value.slice xs →
          SortAndJoinSlice lib xs "," = some v)
      ∧ (∀ kvs, GetElementFromKey key m = Value.map kvs → v = SortAndJoinMap lib kvs ",")
      ∧ (∃ mid, fillLabels lib m [] (pre ++ [(name, key)]) = some mid
          ∧ mid.lookup name = some v)
      ∧ (name ∉ post.map Prod.fst → ls.lookup name = some v) := by
  unfold NewPrometheusLabelsFromValues at hr
  rw [hl] at hr
  obtain ⟨v, mid, hv, hmid, hlook, hlast⟩ := fillLabels_assigned lib m pre post name key [] ls hr
  refine ⟨v, ?_, ?_, ?_, ⟨mid, hmid, hlook⟩, hlast⟩
  · intro s hs
    unfold labelValue at hv
    rw [hs] at hv
    exact (Option.some.inj hv).symm
  · intro xs hs
    unfold labelValue at hv
    rw [hs] at hv
    exact hv
  · intro kvs hs
    unfold labelValue at hv
    rw [hs] at hv
    exact (Option.some.inj hv).symm

/-- Witness of `NewPrometheusLabelsFromValues_value`: the label `label_b` of the third case of
`TestNewPrometheusLabelsFromValues`, whose key `key2` holds a sequence. -/
theorem NewPrometheusLabelsFromValues_value_witness :
    (GetPrometheusMetricsLabels testConfig
        = some ([("label_a", "key1.key2")] ++ ("label_b", "key2") :: [("label_c", "key3")])
      ∧ NewPrometheusLabelsFromValues sampleLib testConfig testProperties
        = some [("label_a", "value1"), ("label_b", "value2a,value2b,value2c"),
            ("label_c", "key3a:value3a,key3b:value3b,key3c:value3c")])
    ∧ GetElementFromKey "key2" testProperties
        = Value.slice [Value.str "value2a", Value.str "value2b", Value.str "value2c"]
    ∧ SortAndJoinSlice sampleLib
        [Value.str "value2a", Value.str "value2b", Value.str "value2c"] ","
        = some "value2a,value2b,value2c"
    ∧ ∃ v, (∀ s, GetElementFromKey "key2" testProperties = Value.str s → v = s)
      ∧ (∀ xs, GetElementFromKey "key2" testProperties = Value.slice xs →
          SortAndJoinSlice sampleLib xs "," = some v)
      ∧ (∀ kvs, GetElementFromKey "key2" testProperties = Value.map kvs →
          v = SortAndJoinMap sampleLib kvs ",")
      ∧ (∃ mid, fillLabels sampleLib testProperties []
            ([("label_a", "key1.key2")] ++ [("label_b", "key2")]) = some mid
          ∧ mid.lookup "label_b" = some v)
      ∧ ("label_b" ∉ [("label_c", "key3")].map Prod.fst →
          List.lookup "label_b" [("label_a", "value1"), ("label_b", "value2a,value2b,value2c"),
            ("label_c", "key3a:value3a,key3b:value3b,key3c:value3c")] = some v) :=
  ⟨⟨by decide, by decide⟩, rfl, by decide,
    NewPrometheusLabelsFromValues_value sampleLib testConfig testProperties
      [("label_a", "key1.key2")] [("label_c", "key3")] "label_b" "key2" _
      (by decide) (by decide)⟩

/-- C20. For every configured label (an entry `name`, `key` of the configured labels) whose
source value is neither a string, a sequence nor a mapping (`nil`, which is also the result for
a path that is not found, a boolean or a number), `NewPrometheusLabelsFromValues` assigns the
empty string to the label and the returned label set includes the label, with the empty string
unless a later entry has the same name and assigns again. -/
theorem NewPrometheusLabelsFromValues_empty_value (lib : StdLib) (cfg : Config) (m : GoMap)
    (pre post : List (String × String)) (name key : String) (ls : Labels)
    (hl : GetPrometheusMetricsLabels cfg = some (pre ++ (name, key) :: post))
    (hr : NewPrometheusLabelsFromValues lib cfg m = some ls)
    (hv : (GetElementFromKey key m).hasCanonicalForm = false) :
    name ∈ ls.map Prod.fst
    ∧ (∃ mid, fillLabels lib m [] (pre ++ [(name, key)]) = some mid
        ∧ mid.lookup name = some "")
    ∧ (name ∉ post.map Prod.fst → ls.lookup name = some "") := by
  unfold NewPrometheusLabelsFromValues at hr
  rw [hl] at hr
  obtain ⟨v, mid, hval, hmid, hlook, hlast⟩ :=
    fillLabels_assigned lib m pre post name key [] ls hr
  have hval2 : labelValue lib m key = some "" := by
    unfold labelValue
    cases hg : GetElementFromKey key m <;> rw [hg] at hv <;>
      simp [Value.hasCanonicalForm] at hv ⊢
  have hve : v = "" := Option.some.inj (hval.symm.trans hval2)
  subst hve
  refine ⟨?_, ⟨mid, hmid, hlook⟩, hlast⟩
  rw [(fillLabels_keys lib m _ [] ls hr).1 name]
  right
  simp

/-- A path that is not found resolves to `nil`, which has no canonical form. -/
theorem not_found_hasCanonicalForm (key : String) (m : GoMap)
    (h : resolvePath (Split key '.') m = none) :
    (GetElementFromKey key m).hasCanonicalForm = false := by
  unfold GetElementFromKey
  rw [getElementFromKeys_eq_resolvePath, h]
  rfl

/-- Witness of `NewPrometheusLabelsFromValues_empty_value`: the label `label_b` of
`testConfig` on properties whose `key2` is a boolean; the same on properties without
`key2`. -/
theorem NewPrometheusLabelsFromValues_empty_value_witness :
    (GetPrometheusMetricsLabels testConfig
        = some ([("label_a", "key1.key2")] ++ ("label_b", "key2") :: [("label_c", "key3")])
      ∧ NewPrometheusLabelsFromValues sampleLib testConfig [("key2", Value.bool true)]
        = some [("label_a", ""), ("label_b", ""), ("label_c", "")]
      ∧ (GetElementFromKey "key2" [("key2", Value.bool true)]).hasCanonicalForm = false)
    ∧ NewPrometheusLabelsFromValues sampleLib testConfig
          [("key1", Value.str "x"), ("key3", Value.int 3)]
        = some [("label_a", ""), ("label_b", ""), ("label_c", "")]
    ∧ "label_b" ∈ [("label_a", ""), ("label_b", ""), ("label_c", "")].map Prod.fst
    ∧ (∃ mid, fillLabels sampleLib [("key2", Value.bool true)] []
          ([("label_a", "key1.key2")] ++ [("label_b", "key2")]) = some mid
        ∧ mid.lookup "label_b" = some "")
    ∧ ("label_b" ∉ [("label_c", "key3")].map Prod.fst →
        List.lookup "label_b" [("label_a", ""), ("label_b", ""), ("label_c", "")] = some "") :=
  ⟨⟨by decide, by decide, rfl⟩, by decide,
    NewPrometheusLabelsFromValues_empty_value sampleLib testConfig [("key2", Value.bool true)]
      [("label_a", "key1.key2")] [("label_c", "key3")] "label_b" "key2" _
      (by decide) (by decide) rfl⟩


/-! ## Alignment of the window -/

theorem windowDuration_range (lib : StdLib) (d : String) :
    -(2 ^ 63) ≤ windowDuration lib d ∧ windowDuration lib d < 2 ^ 63 := by
  cases h : ParseDuration lib d with
  | none => rw [windowDuration_of_fail lib d h]; omega
  | some dur =>
    rw [windowDuration_of_parse lib d dur h]
    exact ParseDuration_range lib d dur h

set_option maxRecDepth 100000 in
/-- C17 (counterexample). The window strings `"1s"` and `"1ms"` parse as durations. At
`1970-01-01T01:33:07Z` the start of the window of `"1s"` is `01:32:59`, with the seconds 59,
and the start of the window of `"1ms"` has the sub-second part 999 ms. -/
theorem GetURL_window_start_not_aligned :
    ParseDuration sampleLib "1s" = some 1000000000
    ∧ (windowStart sampleLib "1s" sampleNow).Second = 59
    ∧ windowValue sampleLib "1s" sampleNow = "1970-01-01T01:32:59Z,1970-01-01T01:33:00Z"
    ∧ ParseDuration sampleLib "1ms" = some 1000000
    ∧ (windowStart sampleLib "1ms" sampleNow).Nanosecond = 999000000 := by
  refine ⟨by decide, by decide, by decide, by decide, by decide⟩

/-- C17 (amended). For every duration string `d` and every instant `now`, the end of the window
of `GetURL` has zero seconds and a zero sub-second part, and the start has both if and only if
the duration used (that of `d`, or one minute when `d` does not parse) is a whole number of
minutes. -/
theorem GetURL_window_alignment (lib : StdLib) (d : String) (now : Time) :
    ((windowEnd now).Second = 0 ∧ (windowEnd now).Nanosecond = 0)
    ∧ (((windowStart lib d now).Second = 0 ∧ (windowStart lib d now).Nanosecond = 0)
        ↔ windowDuration lib d % 60000000000 = 0) := by
  refine ⟨⟨(windowEnd_fields now).1, (windowEnd_fields now).2.1⟩, ?_⟩
  have hr := windowDuration_range lib d
  have hn := negDuration_eq (windowDuration lib d) hr.1 hr.2
  unfold Time.Second Time.Nanosecond Time.wallSec windowStart Time.Add
  simp only [windowEnd_unixNano, windowEnd_offset]
  generalize windowDuration lib d = dur at hr hn ⊢
  generalize negDuration dur = nd at hn ⊢
  generalize now.wallSec = W
  generalize now.offset = off
  unfold minDuration at hn
  split_ifs at hn with h1
  · subst h1; subst hn
    constructor
    · intro h; omega
    · intro h; omega
  · subst hn
    constructor
    · intro h; omega
    · intro h; omega


/-! ## The query of the URL -/

theorem Values_Add_fresh (q : Values) (k v : String) (h : k ∉ q.map Prod.fst) :
    q.Add k v = q ++ [(k, [v])] := by
  induction q with
  | nil => rfl
  | cons e q ih =>
    obtain ⟨k2, vs⟩ := e
    simp only [List.map_cons, List.mem_cons, not_or] at h
    simp only [Values.Add]
    rw [if_neg (fun hk => h.1 hk.symm), ih h.2]
    rfl

/-- Parameters that are strings under distinct keys are added one after the other, each with
its one value. -/
theorem addParams_nodup (ps : GoMap) (hs : ∀ kv ∈ ps, kv.2.isStr = true) :
    ∀ acc : Values, (acc.map Prod.fst ++ ps.map Prod.fst).Nodup →
      addParams acc ps = some (acc ++ ps.map (fun kv => (kv.1, [kv.2.getStr]))) := by
  induction ps with
  | nil => intro acc _; simp [addParams]
  | cons e ps ih =>
    intro acc hn
    obtain ⟨k, v⟩ := e
    have hv := hs (k, v) (List.mem_cons_self _ _)
    have ih2 := ih (fun kv hkv => hs kv (List.mem_cons_of_mem _ hkv))
    cases v <;> simp [Value.isStr] at hv
    rename_i s
    simp only [addParams]
    have hk : k ∉ acc.map Prod.fst := by
      intro hm
      have := (List.nodup_append.1 hn).2.2
      exact this hm (by simp)
    rw [Values_Add_fresh acc k s hk]
    have hn2 : ((acc ++ [(k, [s])]).map Prod.fst ++ ps.map Prod.fst).Nodup := by
      simpa using hn
    rw [ih2 _ hn2]
    simp [Value.getStr]

theorem Values_Set_keys (q : Values) (k v : String) (h : k ∈ q.map Prod.fst) :
    (q.Set k v).map Prod.fst = q.map Prod.fst := by
  induction q with
  | nil => simp at h
  | cons e q ih =>
    obtain ⟨k2, vs⟩ := e
    simp only [Values.Set]
    split_ifs with h2
    · rfl
    · simp only [List.map_cons, List.mem_cons] at h
      rcases h with h | h
      · exact absurd h.symm h2
      · simp only [List.map_cons, ih h]

theorem Values_values_Set_ne (q : Values) (k v k2 : String) (h : k2 ≠ k) :
    (q.Set k v).values k2 = q.values k2 := by
  induction q with
  | nil =>
    have hb : (k2 == k) = false := by simpa using h
    simp [Values.Set, Values.values, List.lookup_cons, hb]
  | cons e q ih =>
    obtain ⟨k3, vs⟩ := e
    simp only [Values.Set]
    split_ifs with h3
    · subst h3
      have hb : (k2 == k3) = false := by simpa using h
      simp [Values.values, List.lookup_cons, hb]
    · by_cases h4 : k2 = k3
      · subst h4; simp [Values.values]
      · have hb : (k2 == k3) = false := by simpa using h4
        simp only [Values.values, List.lookup_cons, hb] at ih ⊢
        exact ih

theorem flatMap_eq_map_of_singleton {α β : Type} (F : α → List β) (G : α → β) :
    ∀ l : List α, (∀ a ∈ l, F a = [G a]) → l.flatMap F = l.map G := by
  intro l
  induction l with
  | nil => intro _; rfl
  | cons a l ih =>
    intro h
    rw [List.flatMap_cons, List.map_cons, h a (List.mem_cons_self _ _),
      ih (fun b hb => h b (List.mem_cons_of_mem _ hb))]
    rfl

set_option maxRecDepth 100000 in
/-- C18 (counterexample). A parameter mapping with a `window` entry on which `GetURL` does not
return: the window given as the number `60`, and the window `"1m"` next to the number `step: 2`.
The type assertion `v.(string)` panics on either. -/
theorem GetURL_panics_on_non_string_window :
    GetURL sampleLib "localhost" 9003 "/allocation/compute"
        [("window", Value.int 60), ("aggregate", Value.str "pod")] sampleNow = none
    ∧ GetURL sampleLib "localhost" 9003 "/allocation/compute"
        [("window", Value.str "1m"), ("step", Value.int 2)] sampleNow = none := by
  refine ⟨by decide, by decide⟩

/-- C18 (amended). For every host, port, path and every parameter mapping whose values are all
strings and that has a `window` entry, `GetURL` returns the URL of scheme `http`, host
`host:port`, the path and the encoded query as `url.URL.String` renders them. The query has
exactly the configured keys, every key other than `window` with exactly its one configured
value, and `window` with exactly one value, the computed pair; encoded, it is the pairs
`key=value` by ascending key, joined by `&`. -/
theorem GetURL_query (lib : StdLib) (host : String) (port : Int) (path : String)
    (params : GoMap) (now : Time) (w : String)
    (hn : NodupKeys params) (hs : ∀ kv ∈ params, kv.2.isStr = true)
    (hw : index params "window" = Value.str w) :
    ∃ q, getURLQuery lib params now = some q
      ∧ GetURL lib host port path params now
          = some (urlString "http" (host ++ ":" ++ fmtInt port) path q.Encode)
      ∧ q.map Prod.fst = params.map Prod.fst
      ∧ q.values "window" = [windowValue lib w now]
      ∧ (∀ k v, (k, Value.str v) ∈ params → k ≠ "window" → q.values k = [v])
      ∧ q.Encode = Join ((sortStrings (params.map Prod.fst)).map (fun k =>
          QueryEscape k ++ "=" ++ QueryEscape
            (if k = "window" then windowValue lib w now else (index params k).getStr))) "&" := by
  have ha := addParams_nodup params hs [] (by simpa [NodupKeys] using hn)
  simp only [List.nil_append] at ha
  have hkeys : (params.map (fun kv => (kv.1, [kv.2.getStr]))).map Prod.fst
      = params.map Prod.fst := by
    rw [List.map_map]; rfl
  have hwin : "window" ∈ params.map Prod.fst := by
    by_contra hc
    unfold index at hw
    rw [lookup_none_of_not_mem params "window" hc] at hw
    exact absurd hw (by simp)
  have hq : getURLQuery lib params now
      = some (Values.Set (params.map (fun kv => (kv.1, [kv.2.getStr]))) "window"
          (windowValue lib w now)) := by
    unfold getURLQuery
    rw [ha, hw]
  have hqk : (Values.Set (params.map (fun kv => (kv.1, [kv.2.getStr]))) "window"
      (windowValue lib w now)).map Prod.fst = params.map Prod.fst := by
    rw [Values_Set_keys _ _ _ (by rw [hkeys]; exact hwin), hkeys]
  have hval : ∀ k v, (k, Value.str v) ∈ params → k ≠ "window" →
      Values.values (Values.Set (params.map (fun kv => (kv.1, [kv.2.getStr]))) "window"
        (windowValue lib w now)) k = [v] := by
    intro k v hm hk
    rw [Values_values_Set_ne _ _ _ _ hk]
    unfold Values.values
    rw [lookup_of_mem_nodup _ k [v] (by rw [hkeys]; exact hn)
      (List.mem_map.2 ⟨(k, Value.str v), hm, rfl⟩)]
    rfl
  refine ⟨_, hq, ?_, hqk, Values_values_Set _ _ _, hval, ?_⟩
  · unfold GetURL
    rw [hq]; rfl
  · unfold Values.Encode
    rw [hqk]
    congr 1
    apply flatMap_eq_map_of_singleton
    intro k hk
    have hk2 : k ∈ params.map Prod.fst :=
      (sortLess_perm strLess (params.map Prod.fst)).mem_iff.1 hk
    by_cases hkw : k = "window"
    · subst hkw
      rw [Values_values_Set, if_pos rfl]
      rfl
    · obtain ⟨kv, hkv, hfst⟩ := List.mem_map.1 hk2
      obtain ⟨k3, v⟩ := kv
      simp only at hfst
      subst hfst
      have hv := hs (k3, v) hkv
      cases v <;> simp [Value.isStr] at hv
      rename_i s
      rw [hval k3 s hkv hkw, if_neg hkw]
      have hi : index params k3 = Value.str s := by
        unfold index
        rw [lookup_of_mem_nodup params k3 _ hn hkv]
        rfl
      rw [hi]
      rfl

set_option maxRecDepth 100000 in
/-- Witness of `GetURL_query`: the first case of `TestGetURL`, the parameters `window: 1m` and
`aggregate: pod` at `1970-01-01T01:33:07Z`. -/
theorem GetURL_query_witness :
    (NodupKeys sampleParams ∧ (∀ kv ∈ sampleParams, kv.2.isStr = true)
      ∧ index sampleParams "window" = Value.str "1m")
    ∧ GetURL sampleLib "localhost" 9003 "/allocation/compute" sampleParams sampleNow
        = some ("http://localhost:9003/allocation/compute?aggregate=pod"
            ++ "&window=1970-01-01T01%3A32%3A00Z%2C1970-01-01T01%3A33%3A00Z")
    ∧ ∃ q, getURLQuery sampleLib sampleParams sampleNow = some q
      ∧ GetURL sampleLib "localhost" 9003 "/allocation/compute" sampleParams sampleNow
          = some (urlString "http" ("localhost" ++ ":" ++ fmtInt 9003) "/allocation/compute"
              q.Encode)
      ∧ q.map Prod.fst = sampleParams.map Prod.fst
      ∧ q.values "window" = [windowValue sampleLib "1m" sampleNow]
      ∧ (∀ k v, (k, Value.str v) ∈ sampleParams → k ≠ "window" → q.values k = [v])
      ∧ q.Encode = Join ((sortStrings (sampleParams.map Prod.fst)).map (fun k =>
          QueryEscape k ++ "=" ++ QueryEscape
            (if k = "window" then windowValue sampleLib "1m" sampleNow
              else (index sampleParams k).getStr))) "&" :=
  ⟨⟨by unfold NodupKeys; decide, by
      intro kv hkv
      simp only [sampleParams, List.mem_cons, List.mem_singleton, List.not_mem_nil,
        or_false] at hkv
      rcases hkv with h | h <;> rw [h] <;> rfl, rfl⟩,
    by decide,
    GetURL_query sampleLib "localhost" 9003 "/allocation/compute" sampleParams sampleNow "1m"
      (by unfold NodupKeys; decide) (by
        intro kv hkv
        simp only [sampleParams, List.mem_cons, List.mem_singleton, List.not_mem_nil,
          or_false] at hkv
        rcases hkv with h | h <;> rw [h] <;> rfl) rfl⟩


/-! ## Construction of the schema -/

theorem stringPair_eq (k1 k2 : String) (e : Value) :
    stringPair k1 k2 e
      = if entryAccepted k1 k2 e = true then some (entryStrings k1 k2 e) else none := by
  cases e with
  | map em =>
    simp only [stringPair, GetElementOrZeroValue, entryAccepted, entryStrings]
    cases h1 : index em k1 <;> cases h2 : index em k2 <;>
      simp [assertType, BasicType.zero, Value.isStr, Value.isNil, Value.getStr]
  | _ => simp [stringPair, entryAccepted]

theorem stringPairs_eq (k1 k2 : String) (es : List Value) :
    stringPairs k1 k2 es
      = if es.all (entryAccepted k1 k2) = true then some (es.map (entryStrings k1 k2))
        else none := by
  induction es with
  | nil => simp [stringPairs]
  | cons e es ih =>
    simp only [stringPairs, stringPair_eq, ih, List.all_cons, List.map_cons, Bool.and_eq_true]
    by_cases h1 : entryAccepted k1 k2 e = true
    · by_cases h2 : es.all (entryAccepted k1 k2) = true
      · simp [h1, h2]
      · simp [h1, h2]
    · simp [h1]

theorem entryCarries_accepted (k1 k2 : String) (e : Value)
    (h : entryCarries k1 k2 e = true) : entryAccepted k1 k2 e = true := by
  cases e with
  | map em =>
    simp only [entryCarries, Bool.and_eq_true] at h
    simp [entryAccepted, h.1, h.2]
  | _ => simp [entryCarries] at h

theorem stringPairs_isSome (k1 k2 : String) (v : Value) :
    (match v with
      | .slice es => stringPairs k1 k2 es
      | _ => none).isSome = listAccepted k1 k2 v := by
  cases v with
  | slice es =>
    simp only [listAccepted, stringPairs_eq]
    split_ifs with h
    · simp [h]
    · simp only [Bool.not_eq_true] at h
      simp [h]
  | _ => simp [listAccepted]

set_option maxRecDepth 100000 in
/-- C16 (counterexample). A configuration whose metric entry carries a `name` but no `field`
and whose label entry carries a `name` but no `key` is not well-formed, yet nothing fails:
the missing strings default to the empty string and `NewPrometheusMetrics` returns a schema,
one gauge stored under the empty field name. -/
theorem schema_defaults_missing_entry :
    listWellFormed "name" "field" (index noFieldConfig.metrics "names") = false
    ∧ listWellFormed "name" "key" (index noFieldConfig.metrics "labels") = false
    ∧ GetPrometheusMetricsNames noFieldConfig = some [("cpu_cost", "")]
    ∧ GetPrometheusMetricsLabels noFieldConfig = some [("pod", "")]
    ∧ (NewPrometheusMetrics noFieldConfig).map (fun ms => ms.map Prod.fst) = some [""] := by
  refine ⟨by decide, by decide, by decide, by decide, by decide⟩

/-- C16 (amended). `GetPrometheusMetricsNames` and `GetPrometheusMetricsLabels` return if and
only if `metrics.names`, respectively `metrics.labels`, is a list whose entries are all
mappings in which each of the two keys is absent (or `nil`) or holds a string, and they panic
otherwise; `NewPrometheusMetrics` returns a schema if and only if both do. What they return
are the two strings of every entry, the empty string for an absent one. A well-formed
configuration (every entry carrying its two strings) is accepted. -/
theorem schema_construction (cfg : Config) :
    (GetPrometheusMetricsNames cfg).isSome
        = listAccepted "name" "field" (index cfg.metrics "names")
    ∧ (GetPrometheusMetricsLabels cfg).isSome
        = listAccepted "name" "key" (index cfg.metrics "labels")
    ∧ (NewPrometheusMetrics cfg).isSome
        = (listAccepted "name" "field" (index cfg.metrics "names")
          && listAccepted "name" "key" (index cfg.metrics "labels"))
    ∧ (∀ es ns, index cfg.metrics "names" = Value.slice es →
        GetPrometheusMetricsNames cfg = some ns → ns = es.map (entryStrings "name" "field"))
    ∧ (∀ es ls, index cfg.metrics "labels" = Value.slice es →
        GetPrometheusMetricsLabels cfg = some ls → ls = es.map (entryStrings "name" "key"))
    ∧ (∀ k1 k2 v, listWellFormed k1 k2 v = true → listAccepted k1 k2 v = true) := by
  have h1 : (GetPrometheusMetricsNames cfg).isSome
      = listAccepted "name" "field" (index cfg.metrics "names") :=
    stringPairs_isSome "name" "field" _
  have h2 : (GetPrometheusMetricsLabels cfg).isSome
      = listAccepted "name" "key" (index cfg.metrics "labels") :=
    stringPairs_isSome "name" "key" _
  refine ⟨h1, h2, ?_, ?_, ?_, ?_⟩
  · rw [← h1, ← h2]
    unfold NewPrometheusMetrics GetPrometheusMetricsLabelNames
    cases GetPrometheusMetricsNames cfg <;> cases GetPrometheusMetricsLabels cfg <;> rfl
  · intro es ns he hr
    unfold GetPrometheusMetricsNames at hr
    rw [he] at hr
    simp only [stringPairs_eq] at hr
    split_ifs at hr with h
    exact (Option.some.inj hr).symm
  · intro es ls he hr
    unfold GetPrometheusMetricsLabels at hr
    rw [he] at hr
    simp only [stringPairs_eq] at hr
    split_ifs at hr with h
    exact (Option.some.inj hr).symm
  · intro k1 k2 v h
    cases v with
    | slice es =>
      simp only [listWellFormed, List.all_eq_true] at h
      simp only [listAccepted, List.all_eq_true]
      exact fun e he => entryCarries_accepted k1 k2 e (h e he)
    | _ => simp [listWellFormed] at h


/-! ## Writing through a slice -/

theorem index_of_lookup (m : GoMap) (k : String) (v : Value) (h : m.lookup k = some v) :
    index m k = v := by
  unfold index; rw [h]; rfl

theorem lookup_of_index_slice (m : GoMap) (k : String) (xs : List Value)
    (h : index m k = Value.slice xs) : m.lookup k = some (Value.slice xs) := by
  unfold index at h
  cases hl : m.lookup k with
  | none => rw [hl] at h; exact absurd h (by simp)
  | some v => rw [hl] at h; simp only [Option.getD_some] at h; rw [h]

theorem lookup_of_index_map (m : GoMap) (k : String) (kvs : GoMap)
    (h : index m k = Value.map kvs) : m.lookup k = some (Value.map kvs) := by
  unfold index at h
  cases hl : m.lookup k with
  | none => rw [hl] at h; exact absurd h (by simp)
  | some v => rw [hl] at h; simp only [Option.getD_some] at h; rw [h]

theorem replaceValue_keys (m : GoMap) (k : String) (v : Value) :
    (replaceValue m k v).map Prod.fst = m.map Prod.fst := by
  induction m with
  | nil => rfl
  | cons e m ih =>
    obtain ⟨k2, v2⟩ := e
    simp only [replaceValue]
    split_ifs with h
    · rfl
    · simp only [List.map_cons, ih]

theorem replaceValue_same (m : GoMap) (k : String) (v : Value) (h : m.lookup k = some v) :
    replaceValue m k v = m := by
  induction m with
  | nil => rfl
  | cons e m ih =>
    obtain ⟨k2, v2⟩ := e
    simp only [replaceValue]
    by_cases hk : k2 = k
    · subst hk
      simp only [List.lookup_cons, beq_self_eq_true, Option.some.injEq] at h
      rw [if_pos rfl, h]
    · have hb : (k == k2) = false := by simpa using fun hh : k = k2 => hk hh.symm
      simp only [List.lookup_cons, hb] at h
      rw [if_neg hk, ih h]

theorem lookup_replaceValue_ne (m : GoMap) (k k2 : String) (v : Value) (h : k2 ≠ k) :
    (replaceValue m k v).lookup k2 = m.lookup k2 := by
  induction m with
  | nil => rfl
  | cons e m ih =>
    obtain ⟨k3, v3⟩ := e
    simp only [replaceValue]
    by_cases hk : k3 = k
    · subst hk
      have hb : (k2 == k3) = false := by simpa using h
      simp [List.lookup_cons, hb]
    · rw [if_neg hk]
      by_cases h3 : k2 = k3
      · subst h3; simp
      · have hb : (k2 == k3) = false := by simpa using h3
        simp only [List.lookup_cons, hb]
        exact ih

theorem lookup_replaceValue_self (m : GoMap) (k : String) (v old : Value)
    (h : m.lookup k = some old) : (replaceValue m k v).lookup k = some v := by
  induction m with
  | nil => simp at h
  | cons e m ih =>
    obtain ⟨k3, v3⟩ := e
    simp only [replaceValue]
    by_cases hk : k3 = k
    · subst hk; simp
    · have hb : (k == k3) = false := by simpa using fun hh : k = k3 => hk hh.symm
      simp only [List.lookup_cons, hb] at h
      rw [if_neg hk]
      simp only [List.lookup_cons, hb]
      exact ih h

theorem index_replaceValue_ne (m : GoMap) (k k2 : String) (v : Value) (h : k2 ≠ k) :
    index (replaceValue m k v) k2 = index m k2 := by
  unfold index; rw [lookup_replaceValue_ne m k k2 v h]

theorem index_replaceValue_self (m : GoMap) (k : String) (v old : Value)
    (h : m.lookup k = some old) : index (replaceValue m k v) k = v := by
  unfold index; rw [lookup_replaceValue_self m k v old h]; rfl

theorem writeSliceAt_keys (xs : List Value) : ∀ (ks : List String) (m : GoMap),
    (writeSliceAt ks m xs).map Prod.fst = m.map Prod.fst := by
  intro ks m
  match ks with
  | [] => rfl
  | [k] =>
    simp only [writeSliceAt]
    split
    · exact replaceValue_keys _ _ _
    · rfl
  | k :: k2 :: ks =>
    simp only [writeSliceAt]
    split
    · exact replaceValue_keys _ _ _
    · rfl

/-- Writing to a path that holds no slice writes nothing. -/
theorem writeSliceAt_not_slice (xs : List Value) : ∀ (ks : List String) (m : GoMap),
    (getElementFromKeys ks m).isSlice = false → writeSliceAt ks m xs = m := by
  intro ks
  induction ks with
  | nil => intro m _; rfl
  | cons k ks ih =>
    intro m h
    cases ks with
    | nil =>
      simp only [getElementFromKeys] at h
      simp only [writeSliceAt]
      split
      · rename_i ys hi
        rw [hi] at h
        exact absurd h (by simp [Value.isSlice])
      · rfl
    | cons k2 ks =>
      simp only [getElementFromKeys] at h
      simp only [writeSliceAt]
      split
      · rename_i m2 hi
        rw [hi] at h
        simp only at h
        rw [ih m2 h]
        exact replaceValue_same m k _ (lookup_of_index_map m k m2 hi)
      · rfl

/-- Writing back the elements that a slice holds changes nothing. -/
theorem writeSliceAt_same (xs : List Value) : ∀ (ks : List String) (m : GoMap),
    getElementFromKeys ks m = Value.slice xs → writeSliceAt ks m xs = m := by
  intro ks
  induction ks with
  | nil => intro m _; rfl
  | cons k ks ih =>
    intro m h
    cases ks with
    | nil =>
      simp only [getElementFromKeys] at h
      simp only [writeSliceAt, h]
      exact replaceValue_same m k _ (lookup_of_index_slice m k xs h)
    | cons k2 ks =>
      simp only [getElementFromKeys] at h
      simp only [writeSliceAt]
      split
      · rename_i m2 hi
        rw [hi] at h
        simp only at h
        rw [ih m2 h]
        exact replaceValue_same m k _ (lookup_of_index_map m k m2 hi)
      · rfl

/-- Reading after a write through the slice at `ks`: the path `ks` holds the elements written,
a path above it holds the mapping with the write carried out inside, and every other path holds
what it held. -/
theorem getElementFromKeys_writeSliceAt (xs old : List Value) :
    ∀ (ks : List String) (m : GoMap), getElementFromKeys ks m = Value.slice old →
      ∀ ks2 : List String,
        getElementFromKeys ks2 (writeSliceAt ks m xs) = getElementFromKeys ks2 m
        ∨ (ks2 = ks ∧ getElementFromKeys ks2 (writeSliceAt ks m xs) = Value.slice xs)
        ∨ ∃ m2 rest, getElementFromKeys ks2 m = Value.map m2
            ∧ getElementFromKeys rest m2 = Value.slice old
            ∧ getElementFromKeys ks2 (writeSliceAt ks m xs)
                = Value.map (writeSliceAt rest m2 xs) := by
  intro ks
  induction ks with
  | nil => intro m h; simp [getElementFromKeys] at h
  | cons k ks ih =>
    intro m h ks2
    cases ks with
    | nil =>
      simp only [getElementFromKeys] at h
      have hl := lookup_of_index_slice m k old h
      simp only [writeSliceAt, h]
      match ks2 with
      | [] => left; rfl
      | [k3] =>
        by_cases hk : k3 = k
        · subst hk
          right; left
          exact ⟨rfl, by simp only [getElementFromKeys]; exact index_replaceValue_self m k3 _ _ hl⟩
        · left
          simp only [getElementFromKeys]
          exact index_replaceValue_ne m k k3 _ hk
      | k3 :: k4 :: ks3 =>
        left
        by_cases hk : k3 = k
        · subst hk
          simp only [getElementFromKeys, index_replaceValue_self m k3 _ _ hl, h]
        · simp only [getElementFromKeys, index_replaceValue_ne m k k3 _ hk]
    | cons k2 ks =>
      simp only [getElementFromKeys] at h
      simp only [writeSliceAt]
      cases hi : index m k with
      | map m2 =>
        rw [hi] at h
        simp only at h
        have hl := lookup_of_index_map m k m2 hi
        simp only
        match ks2 with
        | [] => left; rfl
        | [k3] =>
          by_cases hk : k3 = k
          · subst hk
            right; right
            refine ⟨m2, k2 :: ks, ?_, h, ?_⟩
            · simp only [getElementFromKeys]; exact hi
            · simp only [getElementFromKeys]
              exact index_replaceValue_self m k3 _ _ hl
          · left
            simp only [getElementFromKeys]
            exact index_replaceValue_ne m k k3 _ hk
        | k3 :: k4 :: ks3 =>
          by_cases hk : k3 = k
          · subst hk
            simp only [getElementFromKeys, index_replaceValue_self m k3 _ _ hl, hi]
            rcases ih m2 h (k4 :: ks3) with h1 | ⟨h1, h2⟩ | ⟨m3, rest, h1, h2, h3⟩
            · left; exact h1
            · right; left
              exact ⟨by rw [h1], h2⟩
            · right; right
              exact ⟨m3, rest, h1, h2, h3⟩
          · left
            simp only [getElementFromKeys, index_replaceValue_ne m k k3 _ hk]
      | _ => rw [hi] at h; simp at h


/-! ## The properties mapping after the label set is built -/

theorem insertSorted_perm {α : Type} (less : α → α → Option Bool) (a : α) :
    ∀ (l r : List α), insertSorted less a l = some r → r.Perm (a :: l) := by
  intro l
  induction l with
  | nil =>
    intro r h
    simp only [insertSorted, Option.some.injEq] at h
    rw [← h]
  | cons b l ih =>
    intro r h
    simp only [insertSorted] at h
    cases hl : less a b with
    | none => rw [hl] at h; exact absurd h (by simp)
    | some c =>
      rw [hl] at h
      cases c with
      | false =>
        simp only [Option.some.injEq] at h
        rw [← h]
      | true =>
        simp only at h
        cases hi : insertSorted less a l with
        | none => rw [hi] at h; exact absurd h (by simp)
        | some r2 =>
          rw [hi] at h
          simp only [Option.map_some', Option.some.injEq] at h
          rw [← h]
          exact ((ih r2 hi).cons b).trans (List.Perm.swap a b l)

theorem sortFrom_perm {α : Type} (less : α → α → Option Bool) :
    ∀ (l rev r : List α), sortFrom less rev l = some r → r.Perm (rev ++ l) := by
  intro l
  induction l with
  | nil =>
    intro rev r h
    simp only [sortFrom, Option.some.injEq] at h
    rw [← h]
    simp
  | cons a l ih =>
    intro rev r h
    simp only [sortFrom] at h
    cases hs : insertSorted less a rev with
    | none => rw [hs] at h; exact absurd h (by simp)
    | some r2 =>
      rw [hs] at h
      simp only [Option.some_bind] at h
      exact (ih r2 r h).trans
        (((insertSorted_perm less a rev r2 hs).append_right l).trans List.perm_middle.symm)

theorem sortSlice_perm {α : Type} (less : α → α → Option Bool) :
    ∀ (l r : List α), sortSlice less l = some r → r.Perm l := by
  intro l r h
  simpa using sortFrom_perm less l [] r h

theorem sortByFirst_perm (x0 : Value) (x r : List Value) (h : sortByFirst x0 x = some r) :
    r.Perm x := by
  unfold sortByFirst at h
  cases x0 with
  | str s => exact sortSlice_perm _ _ _ h
  | int n => exact sortSlice_perm _ _ _ h
  | float f => exact sortSlice_perm _ _ _ h
  | nil => simp only [Option.some.injEq] at h; rw [← h]
  | bool b => simp only [Option.some.injEq] at h; rw [← h]
  | slice xs => simp only [Option.some.injEq] at h; rw [← h]
  | map kvs => simp only [Option.some.injEq] at h; rw [← h]

theorem SortAndJoinSliceInPlace_perm (lib : StdLib) (x : List Value) (sep : String)
    (r : List Value × String) (h : SortAndJoinSliceInPlace lib x sep = some r) :
    r.1.Perm x ∧ SortAndJoinSlice lib x sep = some r.2 := by
  unfold SortAndJoinSliceInPlace at h
  unfold SortAndJoinSlice
  cases x with
  | nil => exact absurd h (by simp)
  | cons x0 l =>
    simp only at h ⊢
    cases hs : sortByFirst x0 (x0 :: l) with
    | none => rw [hs] at h; exact absurd h (by simp)
    | some sorted =>
      rw [hs] at h
      simp only [Option.map_some', Option.some.injEq] at h
      rw [← h]
      exact ⟨sortByFirst_perm _ _ _ hs, rfl⟩

theorem SortAndJoinSliceInPlace_snd (lib : StdLib) (x : List Value) (sep : String) :
    (SortAndJoinSliceInPlace lib x sep).map Prod.snd = SortAndJoinSlice lib x sep := by
  unfold SortAndJoinSliceInPlace SortAndJoinSlice
  cases x with
  | nil => rfl
  | cons x0 l =>
    simp only
    cases sortByFirst x0 (x0 :: l) <;> rfl

theorem SortAndJoinSliceInPlace_strings (lib : StdLib) (l : List String) (sep : String)
    (hl : l ≠ []) :
    SortAndJoinSliceInPlace lib (l.map Value.str) sep
      = some ((sortStrings l).map Value.str, Join (sortStrings l) sep) := by
  cases l with
  | nil => exact absurd rfl hl
  | cons a l =>
    have hs := sortSlice_map Value.str lessString strLess (fun _ _ => rfl) strLess_iff (a :: l)
    simp only [List.map_cons] at hs
    simp only [List.map_cons, SortAndJoinSliceInPlace, sortByFirst, hs, Option.map_some',
      List.map_map, sortStrings]
    have : (Sprint lib ∘ Value.str) = id := by funext s; rfl
    simp [this]

theorem SortAndJoinSliceInPlace_ints (lib : StdLib) (l : List Int) (sep : String)
    (hl : l ≠ []) :
    SortAndJoinSliceInPlace lib (l.map Value.int) sep
      = some ((sortLess intLess l).map Value.int, Join ((sortLess intLess l).map fmtInt) sep) := by
  cases l with
  | nil => exact absurd rfl hl
  | cons a l =>
    have hs := sortSlice_map Value.int lessInt intLess (fun _ _ => rfl)
      (fun a b => by simp [intLess]) (a :: l)
    simp only [List.map_cons] at hs
    simp only [List.map_cons, SortAndJoinSliceInPlace, sortByFirst, hs, Option.map_some',
      List.map_map]
    have : (Sprint lib ∘ Value.int) = fmtInt := by funext s; rfl
    simp [this]

/-- A sort changes a list exactly when the list is not sorted. -/
theorem sortLess_eq_self_iff {α : Type} [LinearOrder α] (less : α → α → Bool)
    (h : ∀ a b, less a b = true ↔ a < b) (l : List α) :
    sortLess less l = l ↔ l.Sorted (· ≤ ·) := by
  constructor
  · intro he
    rw [← he]
    exact sortLess_sorted less h l
  · intro hs
    exact List.eq_of_perm_of_sorted (sortLess_perm less l) (sortLess_sorted less h l) hs

theorem sameUpToOrder_refl (v : Value) : v.sameUpToOrder v := by
  cases v with
  | slice xs => exact ⟨xs, rfl, List.Perm.refl _⟩
  | map kvs => exact ⟨kvs, rfl, rfl⟩
  | nil => rfl
  | bool b => rfl
  | str s => rfl
  | int n => rfl
  | float f => rfl

theorem sameUpToOrder_trans (u v w : Value) (h1 : u.sameUpToOrder v)
    (h2 : v.sameUpToOrder w) : u.sameUpToOrder w := by
  cases u with
  | slice xs =>
    obtain ⟨ys, hv, hp⟩ := h1
    subst hv
    obtain ⟨zs, hw, hq⟩ := h2
    exact ⟨zs, hw, hq.trans hp⟩
  | map kvs =>
    obtain ⟨kvs2, hv, hp⟩ := h1
    subst hv
    obtain ⟨kvs3, hw, hq⟩ := h2
    exact ⟨kvs3, hw, hq.trans hp⟩
  | nil => simp only [Value.sameUpToOrder] at h1; subst h1; exact h2
  | bool b => simp only [Value.sameUpToOrder] at h1; subst h1; exact h2
  | str s => simp only [Value.sameUpToOrder] at h1; subst h1; exact h2
  | int n => simp only [Value.sameUpToOrder] at h1; subst h1; exact h2
  | float f => simp only [Value.sameUpToOrder] at h1; subst h1; exact h2

theorem writeSliceAt_sameUpToOrder (xs old : List Value) (hp : xs.Perm old)
    (ks : List String) (m : GoMap) (h : getElementFromKeys ks m = Value.slice old)
    (ks2 : List String) :
    (getElementFromKeys ks2 m).sameUpToOrder (getElementFromKeys ks2 (writeSliceAt ks m xs)) := by
  rcases getElementFromKeys_writeSliceAt xs old ks m h ks2 with h1 | ⟨h1, h2⟩ | ⟨m2, rest, h1, _, h3⟩
  · rw [h1]; exact sameUpToOrder_refl _
  · rw [h2, h1, h]
    exact ⟨xs, rfl, hp⟩
  · rw [h3, h1]
    exact ⟨_, rfl, writeSliceAt_keys xs rest m2⟩

/-- One round of the loop: the value is that of `labelValue`, and the map keeps its keys and
holds at every path what it held, up to the order of a sequence. -/
theorem labelStep_frame (lib : StdLib) (m : GoMap) (key : String) (r : GoMap × String)
    (h : labelStep lib m key = some r) :
    labelValue lib m key = some r.2 ∧ r.1.map Prod.fst = m.map Prod.fst
    ∧ ∀ ks2, (getElementFromKeys ks2 m).sameUpToOrder (getElementFromKeys ks2 r.1) := by
  unfold labelStep at h
  unfold labelValue
  cases hg : GetElementFromKey key m with
  | slice xs =>
    rw [hg] at h
    simp only at h ⊢
    cases hs : SortAndJoinSliceInPlace lib xs "," with
    | none => rw [hs] at h; exact absurd h (by simp)
    | some s =>
      rw [hs] at h
      simp only [Option.map_some', Option.some.injEq] at h
      obtain ⟨hp, hj⟩ := SortAndJoinSliceInPlace_perm lib xs "," s hs
      rw [← h]
      exact ⟨hj, writeSliceAt_keys _ _ _,
        fun ks2 => writeSliceAt_sameUpToOrder s.1 xs hp _ m hg ks2⟩
  | str s =>
    rw [hg] at h
    simp only [Option.some.injEq] at h
    rw [← h]
    exact ⟨rfl, rfl, fun _ => sameUpToOrder_refl _⟩
  | map kvs =>
    rw [hg] at h
    simp only [Option.some.injEq] at h
    rw [← h]
    exact ⟨rfl, rfl, fun _ => sameUpToOrder_refl _⟩
  | nil =>
    rw [hg] at h
    simp only [Option.some.injEq] at h
    rw [← h]
    exact ⟨rfl, rfl, fun _ => sameUpToOrder_refl _⟩
  | bool b =>
    rw [hg] at h
    simp only [Option.some.injEq] at h
    rw [← h]
    exact ⟨rfl, rfl, fun _ => sameUpToOrder_refl _⟩
  | int n =>
    rw [hg] at h
    simp only [Option.some.injEq] at h
    rw [← h]
    exact ⟨rfl, rfl, fun _ => sameUpToOrder_refl _⟩
  | float f =>
    rw [hg] at h
    simp only [Option.some.injEq] at h
    rw [← h]
    exact ⟨rfl, rfl, fun _ => sameUpToOrder_refl _⟩

theorem fillLabelsInPlace_frame (lib : StdLib) (labels : List (String × String)) :
    ∀ (m : GoMap) (acc : Labels) (r : GoMap × Labels),
      fillLabelsInPlace lib m acc labels = some r →
      r.1.map Prod.fst = m.map Prod.fst
      ∧ ∀ ks2, (getElementFromKeys ks2 m).sameUpToOrder (getElementFromKeys ks2 r.1) := by
  induction labels with
  | nil =>
    intro m acc r h
    simp only [fillLabelsInPlace, Option.some.injEq] at h
    rw [← h]
    exact ⟨rfl, fun _ => sameUpToOrder_refl _⟩
  | cons e labels ih =>
    intro m acc r h
    obtain ⟨name, key⟩ := e
    simp only [fillLabelsInPlace] at h
    cases hs : labelStep lib m key with
    | none => rw [hs] at h; exact absurd h (by simp)
    | some s =>
      rw [hs] at h
      simp only at h
      obtain ⟨_, hk, hf⟩ := labelStep_frame lib m key s hs
      obtain ⟨hk2, hf2⟩ := ih _ _ _ h
      exact ⟨hk2.trans hk, fun ks2 => sameUpToOrder_trans _ _ _ (hf ks2) (hf2 ks2)⟩

/-- A round that sorts nothing leaves the map as it is. -/
theorem labelStep_unchanged (lib : StdLib) (m : GoMap) (key : String) (r : GoMap × String)
    (h : labelStep lib m key = some r)
    (hu : ∀ xs s, GetElementFromKey key m = Value.slice xs →
      SortAndJoinSliceInPlace lib xs "," = some s → s.1 = xs) : r.1 = m := by
  unfold labelStep at h
  cases hg : GetElementFromKey key m with
  | slice xs =>
    rw [hg] at h
    simp only at h
    cases hs : SortAndJoinSliceInPlace lib xs "," with
    | none => rw [hs] at h; exact absurd h (by simp)
    | some s =>
      rw [hs] at h
      simp only [Option.map_some', Option.some.injEq] at h
      rw [← h, hu xs s hg hs]
      exact writeSliceAt_same xs _ m hg
  | str s => rw [hg] at h; simp only [Option.some.injEq] at h; rw [← h]
  | map kvs => rw [hg] at h; simp only [Option.some.injEq] at h; rw [← h]
  | nil => rw [hg] at h; simp only [Option.some.injEq] at h; rw [← h]
  | bool b => rw [hg] at h; simp only [Option.some.injEq] at h; rw [← h]
  | int n => rw [hg] at h; simp only [Option.some.injEq] at h; rw [← h]
  | float f => rw [hg] at h; simp only [Option.some.injEq] at h; rw [← h]

theorem fillLabelsInPlace_unchanged (lib : StdLib) (m : GoMap)
    (labels : List (String × String))
    (hu : ∀ l ∈ labels, ∀ xs s, GetElementFromKey l.2 m = Value.slice xs →
      SortAndJoinSliceInPlace lib xs "," = some s → s.1 = xs) :
    ∀ (acc : Labels) (r : GoMap × Labels),
      fillLabelsInPlace lib m acc labels = some r →
      r.1 = m ∧ fillLabels lib m acc labels = some r.2 := by
  induction labels with
  | nil =>
    intro acc r h
    simp only [fillLabelsInPlace, Option.some.injEq] at h
    rw [← h]
    exact ⟨rfl, rfl⟩
  | cons e labels ih =>
    intro acc r h
    obtain ⟨name, key⟩ := e
    simp only [fillLabelsInPlace] at h
    cases hs : labelStep lib m key with
    | none => rw [hs] at h; exact absurd h (by simp)
    | some s =>
      rw [hs] at h
      simp only at h
      have h1 := labelStep_unchanged lib m key s hs (hu (name, key) (List.mem_cons_self _ _))
      have h2 := (labelStep_frame lib m key s hs).1
      rw [h1] at h
      obtain ⟨h3, h4⟩ := ih (fun l hl => hu l (List.mem_cons_of_mem _ hl)) _ _ h
      refine ⟨h3, ?_⟩
      simp only [fillLabels, h2]
      exact h4


/-! ## The label values do not depend on the writes -/

theorem labelValue_eq_canonicalString (lib : StdLib) (m : GoMap) (key : String) :
    labelValue lib m key = canonicalString lib (GetElementFromKey key m) := by
  unfold labelValue canonicalString
  cases GetElementFromKey key m <;> rfl

theorem labelStep_snd (lib : StdLib) (m : GoMap) (key : String) :
    (labelStep lib m key).map Prod.snd = labelValue lib m key := by
  unfold labelStep labelValue
  cases hg : GetElementFromKey key m with
  | slice xs =>
    simp only [Option.map_map]
    rw [← SortAndJoinSliceInPlace_snd]
    rfl
  | _ => rfl

theorem homogeneous_perm (xs ys : List Value) (hp : ys.Perm xs) (h : homogeneous xs) :
    homogeneous ys := by
  rcases h with h | h
  · exact Or.inl (fun v hv => h v (hp.mem_iff.1 hv))
  · exact Or.inr (fun v hv => h v (hp.mem_iff.1 hv))

/-- Sorting a sequence of strings or of integers a second time gives the same string. -/
theorem SortAndJoinSlice_sorted_again (lib : StdLib) (xs : List Value) (sep : String)
    (r : List Value × String) (hx : homogeneous xs)
    (h : SortAndJoinSliceInPlace lib xs sep = some r) :
    SortAndJoinSlice lib r.1 sep = SortAndJoinSlice lib xs sep := by
  rcases hx with hx | hx
  · have hm := map_str_getStr xs hx
    have hne : xs.map Value.getStr ≠ [] := by
      intro he
      rw [← hm, he] at h
      exact absurd h (by simp [SortAndJoinSliceInPlace])
    rw [← hm] at h ⊢
    rw [SortAndJoinSliceInPlace_strings lib _ sep hne] at h
    simp only [Option.some.injEq] at h
    rw [← h]
    simp only
    have hne2 : sortStrings (xs.map Value.getStr) ≠ [] := by
      intro he
      have hp := sortLess_perm strLess (xs.map Value.getStr)
      unfold sortStrings at he
      rw [he] at hp
      exact hne hp.nil_eq.symm
    rw [SortAndJoinSlice_strings, SortAndJoinSlice_strings, if_neg hne, if_neg hne2]
    unfold sortStrings
    rw [sortLess_eq_of_perm strLess strLess_iff (sortLess_perm strLess _)]
  · have hm := map_int_getInt xs hx
    have hne : xs.map Value.getInt ≠ [] := by
      intro he
      rw [← hm, he] at h
      exact absurd h (by simp [SortAndJoinSliceInPlace])
    rw [← hm] at h ⊢
    rw [SortAndJoinSliceInPlace_ints lib _ sep hne] at h
    simp only [Option.some.injEq] at h
    rw [← h]
    simp only
    have hne2 : sortLess intLess (xs.map Value.getInt) ≠ [] := by
      intro he
      have hp := sortLess_perm intLess (xs.map Value.getInt)
      rw [he] at hp
      exact hne hp.nil_eq.symm
    rw [SortAndJoinSlice_ints, SortAndJoinSlice_ints, if_neg hne, if_neg hne2]
    rw [sortLess_eq_of_perm intLess intLess_iff (sortLess_perm intLess _)]

theorem mapElem_writeSliceAt (lib : StdLib) (xs old : List Value) (ks : List String)
    (m : GoMap) (h : getElementFromKeys ks m = Value.slice old) (k : String) :
    mapElem lib (writeSliceAt ks m xs) k = mapElem lib m k := by
  have hc := getElementFromKeys_writeSliceAt xs old ks m h [k]
  simp only [getElementFromKeys] at hc
  unfold mapElem
  rcases hc with h1 | ⟨h1, h2⟩ | ⟨m2, rest, h1, _, h3⟩
  · rw [h1]
  · subst h1
    simp only [getElementFromKeys] at h
    rw [h2, h]
  · rw [h3, h1]

theorem SortAndJoinMap_writeSliceAt (lib : StdLib) (xs old : List Value) (ks : List String)
    (m : GoMap) (h : getElementFromKeys ks m = Value.slice old) (sep : String) :
    SortAndJoinMap lib (writeSliceAt ks m xs) sep = SortAndJoinMap lib m sep := by
  unfold SortAndJoinMap
  rw [writeSliceAt_keys]
  have : mapElem lib (writeSliceAt ks m xs) = mapElem lib m := by
    funext k
    exact mapElem_writeSliceAt lib xs old ks m h k
  rw [this]

/-- One round of the loop, on a key that holds no sequence or a sequence of strings or of
integers, leaves the value of every label as it is. -/
theorem labelStep_canonicalString (lib : StdLib) (m : GoMap) (key : String)
    (r : GoMap × String) (h : labelStep lib m key = some r)
    (hh : ∀ xs, GetElementFromKey key m = Value.slice xs → homogeneous xs)
    (ks2 : List String) :
    canonicalString lib (getElementFromKeys ks2 r.1)
      = canonicalString lib (getElementFromKeys ks2 m) := by
  unfold labelStep at h
  cases hg : GetElementFromKey key m with
  | slice xs =>
    rw [hg] at h
    simp only at h
    cases hs : SortAndJoinSliceInPlace lib xs "," with
    | none => rw [hs] at h; exact absurd h (by simp)
    | some s =>
      rw [hs] at h
      simp only [Option.map_some', Option.some.injEq] at h
      rw [← h]
      simp only
      rcases getElementFromKeys_writeSliceAt s.1 xs (Split key '.') m hg ks2
        with h1 | ⟨h1, h2⟩ | ⟨m2, rest, h1, h2, h3⟩
      · rw [h1]
      · rw [h2, h1]
        have hg2 : getElementFromKeys (Split key '.') m = Value.slice xs := hg
        rw [hg2]
        simp only [canonicalString]
        exact SortAndJoinSlice_sorted_again lib xs "," s (hh xs hg) hs
      · rw [h3, h1]
        simp only [canonicalString]
        rw [SortAndJoinMap_writeSliceAt lib s.1 xs rest m2 h2]
  | str s => rw [hg] at h; simp only [Option.some.injEq] at h; rw [← h]
  | map kvs => rw [hg] at h; simp only [Option.some.injEq] at h; rw [← h]
  | nil => rw [hg] at h; simp only [Option.some.injEq] at h; rw [← h]
  | bool b => rw [hg] at h; simp only [Option.some.injEq] at h; rw [← h]
  | int n => rw [hg] at h; simp only [Option.some.injEq] at h; rw [← h]
  | float f => rw [hg] at h; simp only [Option.some.injEq] at h; rw [← h]

/-- The labels that the loop returns are those computed on the map as it was before the
call, when every configured key that holds a sequence holds one of strings or of integers. -/
theorem fillLabelsInPlace_labels (lib : StdLib) (m : GoMap)
    (labels : List (String × String))
    (hh : ∀ l ∈ labels, ∀ xs, GetElementFromKey l.2 m = Value.slice xs → homogeneous xs) :
    ∀ (c : GoMap) (acc : Labels),
      (∀ ks2, (getElementFromKeys ks2 m).sameUpToOrder (getElementFromKeys ks2 c)
        ∧ canonicalString lib (getElementFromKeys ks2 c)
            = canonicalString lib (getElementFromKeys ks2 m)) →
      (fillLabelsInPlace lib c acc labels).map Prod.snd = fillLabels lib m acc labels := by
  induction labels with
  | nil => intro c acc _; rfl
  | cons e labels ih =>
    intro c acc hinv
    obtain ⟨name, key⟩ := e
    have hv : labelValue lib c key = labelValue lib m key := by
      rw [labelValue_eq_canonicalString, labelValue_eq_canonicalString]
      exact (hinv (Split key '.')).2
    have hsnd := labelStep_snd lib c key
    simp only [fillLabelsInPlace, fillLabels]
    cases hs : labelStep lib c key with
    | none =>
      rw [hs] at hsnd
      simp only [Option.map_none'] at hsnd
      rw [← hv, ← hsnd]
      rfl
    | some s =>
      rw [hs] at hsnd
      simp only [Option.map_some'] at hsnd
      rw [← hv, ← hsnd]
      simp only
      have hc : ∀ xs, GetElementFromKey key c = Value.slice xs → homogeneous xs := by
        intro xs hx
        have hso := (hinv (Split key '.')).1
        have hx2 : getElementFromKeys (Split key '.') c = Value.slice xs := hx
        rw [hx2] at hso
        cases hm : getElementFromKeys (Split key '.') m with
        | slice old =>
          rw [hm] at hso
          obtain ⟨ys, hy, hp⟩ := hso
          have hy2 : xs = ys := by injection hy
          subst hy2
          exact homogeneous_perm old xs hp (hh (name, key) (List.mem_cons_self _ _) old hm)
        | map kvs =>
          rw [hm] at hso
          obtain ⟨kvs2, hy, _⟩ := hso
          exact absurd hy (by simp)
        | nil => rw [hm] at hso; exact absurd hso (by simp [Value.sameUpToOrder])
        | bool b => rw [hm] at hso; exact absurd hso (by simp [Value.sameUpToOrder])
        | str b => rw [hm] at hso; exact absurd hso (by simp [Value.sameUpToOrder])
        | int b => rw [hm] at hso; exact absurd hso (by simp [Value.sameUpToOrder])
        | float b => rw [hm] at hso; exact absurd hso (by simp [Value.sameUpToOrder])
      apply ih (fun l hl => hh l (List.mem_cons_of_mem _ hl))
      intro ks2
      obtain ⟨_, _, hf⟩ := labelStep_frame lib c key s hs
      refine ⟨sameUpToOrder_trans _ _ _ (hinv ks2).1 (hf ks2), ?_⟩
      rw [labelStep_canonicalString lib c key s hs hc ks2]
      exact (hinv ks2).2


/-! ## The record after the label set is built -/

set_option maxRecDepth 100000 in
/-- C21 (counterexample). After `SortAndJoinSlice(x, ",")` on `x = ["a", "c", "b"]`, the first
case of `TestSortAndJoinSlice`, `x` holds `["a", "b", "c"]`, not its elements in their original
order; and after `NewPrometheusLabelsFromValues` with the label key `key2` on the properties
`key2: ["a", "c", "b"]`, the properties hold `key2: ["a", "b", "c"]`. -/
theorem SortAndJoinSlice_sorts_in_place :
    SortAndJoinSliceInPlace sampleLib [Value.str "a", Value.str "c", Value.str "b"] ","
      = some ([Value.str "a", Value.str "b", Value.str "c"], "a,b,c")
    ∧ ([Value.str "a", Value.str "b", Value.str "c"] : List Value)
      ≠ [Value.str "a", Value.str "c", Value.str "b"]
    ∧ NewPrometheusLabelsFromValuesInPlace sampleLib testConfig
        [("key2", Value.slice [Value.str "a", Value.str "c", Value.str "b"])]
      = some ([("key2", Value.slice [Value.str "a", Value.str "b", Value.str "c"])],
          [("label_a", ""), ("label_b", "a,b,c"), ("label_c", "")])
    ∧ ([("key2", Value.slice [Value.str "a", Value.str "b", Value.str "c"])] : GoMap)
      ≠ [("key2", Value.slice [Value.str "a", Value.str "c", Value.str "b"])] := by
  refine ⟨rfl, ?_, rfl, ?_⟩
  · intro h
    simp at h
  · intro h
    simp at h

/-- C21 (amended). `SortAndJoinSlice(x, sep)` leaves in `x` the elements of `x`, reordered: a
sequence of strings or of integers is left in ascending order, in its original order exactly
when it was ascending before. `NewPrometheusLabelsFromValues(v, m)` leaves the keys of `m` as
they are and at every path of `m` the same scalar, a sequence with the same elements or a
mapping with the same keys; it leaves `m` unchanged when no sequence under a configured key is
reordered by its sort. The labels returned are those of the map as it was before the call when
the sequences under the configured keys are of strings or of integers. -/
theorem NewPrometheusLabelsFromValues_frame (lib : StdLib) :
    (∀ x sep r, SortAndJoinSliceInPlace lib x sep = some r →
      r.1.Perm x ∧ SortAndJoinSlice lib x sep = some r.2)
    ∧ (∀ (l : List String) sep, l ≠ [] →
        SortAndJoinSliceInPlace lib (l.map Value.str) sep
          = some ((sortStrings l).map Value.str, Join (sortStrings l) sep)
        ∧ (sortStrings l).Sorted (· ≤ ·) ∧ (sortStrings l = l ↔ l.Sorted (· ≤ ·)))
    ∧ (∀ (l : List Int) sep, l ≠ [] →
        SortAndJoinSliceInPlace lib (l.map Value.int) sep
          = some ((sortLess intLess l).map Value.int,
              Join ((sortLess intLess l).map fmtInt) sep)
        ∧ (sortLess intLess l).Sorted (· ≤ ·) ∧ (sortLess intLess l = l ↔ l.Sorted (· ≤ ·)))
    ∧ (∀ cfg m r, NewPrometheusLabelsFromValuesInPlace lib cfg m = some r →
        r.1.map Prod.fst = m.map Prod.fst
        ∧ (∀ key, (GetElementFromKey key m).sameUpToOrder (GetElementFromKey key r.1))
        ∧ (∀ labels, GetPrometheusMetricsLabels cfg = some labels →
            (∀ l ∈ labels, ∀ xs s, GetElementFromKey l.2 m = Value.slice xs →
              SortAndJoinSliceInPlace lib xs "," = some s → s.1 = xs) → r.1 = m)
        ∧ (∀ labels, GetPrometheusMetricsLabels cfg = some labels →
            (∀ l ∈ labels, ∀ xs, GetElementFromKey l.2 m = Value.slice xs → homogeneous xs) →
            NewPrometheusLabelsFromValues lib cfg m = some r.2)) := by
  refine ⟨fun x sep r h => SortAndJoinSliceInPlace_perm lib x sep r h, ?_, ?_, ?_⟩
  · intro l sep hl
    exact ⟨SortAndJoinSliceInPlace_strings lib l sep hl, sortLess_sorted strLess strLess_iff l,
      sortLess_eq_self_iff strLess strLess_iff l⟩
  · intro l sep hl
    exact ⟨SortAndJoinSliceInPlace_ints lib l sep hl, sortLess_sorted intLess intLess_iff l,
      sortLess_eq_self_iff intLess intLess_iff l⟩
  · intro cfg m r h
    unfold NewPrometheusLabelsFromValuesInPlace at h
    cases hl : GetPrometheusMetricsLabels cfg with
    | none => rw [hl] at h; exact absurd h (by simp)
    | some labels =>
      rw [hl] at h
      simp only at h
      obtain ⟨h1, h2⟩ := fillLabelsInPlace_frame lib labels m [] r h
      refine ⟨h1, fun key => h2 (Split key '.'), ?_, ?_⟩
      · intro labels2 hl2 hu
        have he : labels2 = labels := (Option.some.inj hl2).symm
        subst he
        exact (fillLabelsInPlace_unchanged lib m labels2 hu [] r h).1
      · intro labels2 hl2 hh
        have he : labels2 = labels := (Option.some.inj hl2).symm
        subst he
        have hr := fillLabelsInPlace_labels lib m labels2 hh m []
          (fun ks2 => ⟨sameUpToOrder_refl _, rfl⟩)
        rw [h] at hr
        unfold NewPrometheusLabelsFromValues
        rw [hl]
        exact hr.symm

/-! ## The empty sequence -/

theorem fillLabels_none (lib : StdLib) (m : GoMap) (name key : String)
    (hv : labelValue lib m key = none) (labels : List (String × String))
    (hm : (name, key) ∈ labels) : ∀ acc : Labels, fillLabels lib m acc labels = none := by
  induction labels with
  | nil => simp at hm
  | cons e labels ih =>
    intro acc
    obtain ⟨n2, k2⟩ := e
    simp only [fillLabels]
    cases hv2 : labelValue lib m k2 with
    | none => rfl
    | some v =>
      simp only
      rcases List.mem_cons.1 hm with h | h
      · have hk : key = k2 := (Prod.mk.inj h).2
        rw [hk, hv2] at hv
        exact absurd hv (by simp)
      · exact ih h _

theorem fillLabelsInPlace_none (lib : StdLib) (name key : String)
    (labels : List (String × String)) (hm : (name, key) ∈ labels) :
    ∀ (c : GoMap) (acc : Labels), GetElementFromKey key c = Value.slice [] →
      fillLabelsInPlace lib c acc labels = none := by
  induction labels with
  | nil => simp at hm
  | cons e labels ih =>
    intro c acc hc
    obtain ⟨n2, k2⟩ := e
    simp only [fillLabelsInPlace]
    cases hs : labelStep lib c k2 with
    | none => rfl
    | some s =>
      simp only
      rcases List.mem_cons.1 hm with h | h
      · have hk : key = k2 := (Prod.mk.inj h).2
        subst hk
        unfold labelStep at hs
        rw [hc] at hs
        exact absurd hs (by simp [SortAndJoinSliceInPlace])
      · apply ih h
        obtain ⟨_, _, hf⟩ := labelStep_frame lib c k2 s hs
        have h1 := hf (Split key '.')
        have hc2 : getElementFromKeys (Split key '.') c = Value.slice [] := hc
        rw [hc2] at h1
        obtain ⟨ys, hy, hp⟩ := h1
        rw [hp.eq_nil] at hy
        exact hy

/-- C22. `SortAndJoinSlice` returns a string on a sequence of strings, or of integers, exactly
when the sequence is not empty, whatever the separator; on the empty sequence it panics on
`x[0]` and returns nothing, and so does `NewPrometheusLabelsFromValues` when the key of a
configured label holds an empty sequence. -/
theorem SortAndJoinSlice_total_iff_nonempty (lib : StdLib) (sep : String) :
    (∀ xs : List Value, (∀ v ∈ xs, v.isStr = true) →
      ((∃ s, SortAndJoinSlice lib xs sep = some s) ↔ xs ≠ []))
    ∧ (∀ xs : List Value, (∀ v ∈ xs, v.isInt = true) →
      ((∃ s, SortAndJoinSlice lib xs sep = some s) ↔ xs ≠ []))
    ∧ SortAndJoinSlice lib [] sep = none
    ∧ (∀ cfg m labels name key, GetPrometheusMetricsLabels cfg = some labels →
        (name, key) ∈ labels → GetElementFromKey key m = Value.slice [] →
        NewPrometheusLabelsFromValues lib cfg m = none
        ∧ NewPrometheusLabelsFromValuesInPlace lib cfg m = none) := by
  refine ⟨?_, ?_, rfl, ?_⟩
  · intro xs hx
    have hm := map_str_getStr xs hx
    rw [← hm, SortAndJoinSlice_strings]
    by_cases he : xs.map Value.getStr = []
    · rw [if_pos he, he]
      simp
    · rw [if_neg he]
      constructor
      · intro _ h2
        exact he (by simpa using h2)
      · intro _
        exact ⟨_, rfl⟩
  · intro xs hx
    have hm := map_int_getInt xs hx
    rw [← hm, SortAndJoinSlice_ints]
    by_cases he : xs.map Value.getInt = []
    · rw [if_pos he, he]
      simp
    · rw [if_neg he]
      constructor
      · intro _ h2
        exact he (by simpa using h2)
      · intro _
        exact ⟨_, rfl⟩
  · intro cfg m labels name key hl hm hg
    constructor
    · unfold NewPrometheusLabelsFromValues
      rw [hl]
      apply fillLabels_none lib m name key _ labels hm
      unfold labelValue
      rw [hg]
      rfl
    · unfold NewPrometheusLabelsFromValuesInPlace
      rw [hl]
      exact fillLabelsInPlace_none lib name key labels hm m [] hg

set_option maxRecDepth 100000 in
/-- The cases of `TestSortAndJoinSlice` on strings and integers return their strings; the
empty sequence, alone or under the key `key2` of the label `label_b`, makes the call panic. -/
theorem SortAndJoinSlice_total_examples :
    SortAndJoinSlice sampleLib [Value.str "a", Value.str "c", Value.str "b"] "," = some "a,b,c"
    ∧ SortAndJoinSlice sampleLib [Value.int 1, Value.int 3, Value.int 2] "," = some "1,2,3"
    ∧ SortAndJoinSlice sampleLib [] "," = none
    ∧ NewPrometheusLabelsFromValues sampleLib testConfig [("key2", Value.slice [])] = none
    ∧ NewPrometheusLabelsFromValuesInPlace sampleLib testConfig [("key2", Value.slice [])]
        = none := by
  refine ⟨by decide, by decide, rfl, by decide, rfl⟩


/-! ## `GetURL` in a location with zone transitions -/

theorem dateOffset_settled (loc : Location) (g o : Int) (h1 : (loc.lookup g).offset = o)
    (h2 : (loc.lookup (g - o)).offset = o) : Zoned.dateOffset loc g = o := by
  unfold Zoned.dateOffset
  rw [h1, h2]
  split_ifs with h3 h4
  · rfl
  · rfl
  · simp only [ne_eq, not_not] at h3
    exact h3.symm

theorem dateOffset_FixedZone (off g : Int) : Zoned.dateOffset (FixedZone off) g = off :=
  dateOffset_settled (FixedZone off) g off rfl rfl

theorem settled_inFixedZone (t : Time) : t.inFixedZone.settled := ⟨rfl, rfl⟩

/-- The instant `end` of `GetURL` in Unix nanoseconds, where the offset of `now` is settled: the
wall-clock second of `now` rounded down to a multiple of 60, taken back to UTC. -/
theorem Zoned_windowEnd_unixNano (now : Zoned.Time) (h : now.settled) :
    (Zoned.windowEnd now).unixNano
      = (now.wallSec - now.wallSec % 60 - now.offset) * 1000000000 := by
  have hg : Zoned.dateUnix now.Year now.Month now.Day now.Hour now.Minute 0
      = now.wallSec - now.wallSec % 60 := by
    simp only [Zoned.dateUnix, Zoned.Time.Year, Zoned.Time.Month, Zoned.Time.Day,
      Zoned.Time.Hour, Zoned.Time.Minute, daysFromCivil_civilFromDays]
    omega
  simp only [Zoned.windowEnd, Zoned.Date]
  rw [hg, dateOffset_settled now.loc _ now.offset h.1 h.2]
  ring

theorem Zoned_windowEnd_unixSec (now : Zoned.Time) (h : now.settled) :
    (Zoned.windowEnd now).unixSec = now.wallSec - now.wallSec % 60 - now.offset := by
  unfold Zoned.Time.unixSec
  rw [Zoned_windowEnd_unixNano now h]
  exact Int.mul_ediv_cancel _ (by norm_num)

theorem Zoned_windowEnd_offset (now : Zoned.Time) (h : now.settled) :
    (Zoned.windowEnd now).offset = now.offset := by
  unfold Zoned.Time.offset
  rw [Zoned_windowEnd_unixSec now h]
  exact h.2

theorem Zoned_windowEnd_wallSec (now : Zoned.Time) (h : now.settled) :
    (Zoned.windowEnd now).wallSec = now.wallSec - now.wallSec % 60 := by
  unfold Zoned.Time.wallSec
  rw [Zoned_windowEnd_unixSec now h, Zoned_windowEnd_offset now h]
  unfold Zoned.Time.wallSec
  ring

/-- The fields of `end` where the offset of `now` is settled: seconds and nanoseconds are zero,
the date, hour, minute, offset and location are those of `now`; `end` is not after `now` and
less than a minute before it. -/
theorem Zoned_windowEnd_fields (now : Zoned.Time) (h : now.settled) :
    (Zoned.windowEnd now).Second = 0 ∧ (Zoned.windowEnd now).Nanosecond = 0
    ∧ (Zoned.windowEnd now).Year = now.Year ∧ (Zoned.windowEnd now).Month = now.Month
    ∧ (Zoned.windowEnd now).Day = now.Day ∧ (Zoned.windowEnd now).Hour = now.Hour
    ∧ (Zoned.windowEnd now).Minute = now.Minute ∧ (Zoned.windowEnd now).offset = now.offset
    ∧ (Zoned.windowEnd now).loc = now.loc
    ∧ (Zoned.windowEnd now).unixNano ≤ now.unixNano
    ∧ now.unixNano - (Zoned.windowEnd now).unixNano < 60000000000 := by
  have hw := Zoned_windowEnd_wallSec now h
  have hd : (now.wallSec - now.wallSec % 60) / 86400 = now.wallSec / 86400 := by omega
  refine ⟨?_, ?_, ?_, ?_, ?_, ?_, ?_, Zoned_windowEnd_offset now h, rfl, ?_, ?_⟩
  · unfold Zoned.Time.Second; rw [hw]; omega
  · unfold Zoned.Time.Nanosecond; rw [Zoned_windowEnd_unixNano now h]; omega
  · unfold Zoned.Time.Year; rw [hw, hd]
  · unfold Zoned.Time.Month; rw [hw, hd]
  · unfold Zoned.Time.Day; rw [hw, hd]
  · unfold Zoned.Time.Hour; rw [hw]; omega
  · unfold Zoned.Time.Minute; rw [hw]; omega
  · rw [Zoned_windowEnd_unixNano now h]; unfold Zoned.Time.wallSec Zoned.Time.unixSec; omega
  · rw [Zoned_windowEnd_unixNano now h]; unfold Zoned.Time.wallSec Zoned.Time.unixSec; omega

/-- In a location with a fixed offset, `end` is the instant of the model with one offset. -/
theorem windowEnd_inFixedZone (t : Time) :
    Zoned.windowEnd t.inFixedZone = (windowEnd t).inFixedZone := by
  simp only [Zoned.windowEnd, Zoned.Date, Time.inFixedZone, dateOffset_FixedZone]
  rfl

theorem FormatRFC3339_inFixedZone (t : Time) :
    t.inFixedZone.FormatRFC3339 = t.FormatRFC3339 := rfl

theorem windowValue_inFixedZone (lib : StdLib) (w : String) (t : Time) :
    Zoned.windowValue lib w t.inFixedZone = windowValue lib w t := by
  unfold Zoned.windowValue Zoned.windowStart windowValue windowStart
  rw [windowEnd_inFixedZone]
  rfl

/-- In a location with a fixed offset, `GetURL` is that of the model with one offset. -/
theorem GetURL_inFixedZone (lib : StdLib) (host : String) (port : Int) (path : String)
    (params : GoMap) (t : Time) :
    Zoned.getURLQuery lib params t.inFixedZone = getURLQuery lib params t
    ∧ Zoned.GetURL lib host port path params t.inFixedZone
        = GetURL lib host port path params t := by
  have hq : Zoned.getURLQuery lib params t.inFixedZone = getURLQuery lib params t := by
    unfold Zoned.getURLQuery getURLQuery
    simp only [windowValue_inFixedZone]
  refine ⟨hq, ?_⟩
  unfold Zoned.GetURL GetURL
  rw [hq]

theorem Zoned_getURLQuery_window (lib : StdLib) (params : GoMap) (now : Zoned.Time)
    (d : String) (hw : index params "window" = Value.str d) (q : Values)
    (h : Zoned.getURLQuery lib params now = some q) :
    q.values "window" = [Zoned.windowValue lib d now] := by
  unfold Zoned.getURLQuery at h
  cases ha : addParams [] params with
  | none => rw [ha] at h; exact absurd h (by simp)
  | some q0 =>
    rw [ha, hw] at h
    simp only [Option.some.injEq] at h
    rw [← h]
    exact Values_values_Set _ _ _

theorem Zoned_getURLQuery_strings (lib : StdLib) (params : GoMap) (now : Zoned.Time)
    (d : String) (hw : index params "window" = Value.str d)
    (hs : ∀ kv ∈ params, kv.2.isStr = true) :
    ∃ q, Zoned.getURLQuery lib params now = some q := by
  obtain ⟨q0, hq0⟩ := addParams_strings params hs []
  refine ⟨q0.Set "window" (Zoned.windowValue lib d now), ?_⟩
  unfold Zoned.getURLQuery
  rw [hq0, hw]

set_option maxRecDepth 100000 in
/-- C1 (counterexample). The window string `"-9223372036854775808ns"` parses as a duration,
the minimal `int64`. Its negation `-dur` overflows to itself, so `start` is `2^63` ns before
`end` (in 1677) where `end - d` is `2^63` ns after `end` (in 2262). And in `America/New_York`
at 2021-11-07T01:30:30-05:00, after the clocks were set back, `time.Date` resolves the wall
clock 01:30:00 in the zone UTC-4: `end` is 2021-11-07T01:30:00-04:00, an hour and 30 s before
`now`, not `now` with its seconds set to zero. -/
theorem GetURL_window_failures :
    (ParseDuration sampleLib "-9223372036854775808ns" = some minDuration
      ∧ (Zoned.windowStart sampleLib "-9223372036854775808ns" sampleNow.inFixedZone).unixNano
          = (Zoned.windowEnd sampleNow.inFixedZone).unixNano + minDuration
      ∧ (Zoned.windowStart sampleLib "-9223372036854775808ns" sampleNow.inFixedZone).unixNano
          ≠ (Zoned.windowEnd sampleNow.inFixedZone).unixNano - minDuration
      ∧ Zoned.getURLQuery sampleLib [("window", Value.str "-9223372036854775808ns")]
            sampleNow.inFixedZone
          = some [("window", ["1677-09-21T01:45:43Z,1970-01-01T01:33:00Z"])]
      ∧ ((Zoned.windowEnd sampleNow.inFixedZone).Add (-minDuration)).FormatRFC3339
          = "2262-04-12T01:20:16Z")
    ∧ (nyFallBack.FormatRFC3339 = "2021-11-07T01:30:30-05:00"
      ∧ (Zoned.windowEnd nyFallBack).FormatRFC3339 = "2021-11-07T01:30:00-04:00"
      ∧ nyFallBack.unixNano - (Zoned.windowEnd nyFallBack).unixNano = 3630000000000
      ∧ (Zoned.windowEnd nyFallBack).offset ≠ nyFallBack.offset
      ∧ Zoned.windowValue sampleLib "1m" nyFallBack
          = "2021-11-07T01:29:00-04:00,2021-11-07T01:30:00-04:00") := by
  refine ⟨⟨by decide, by decide, by decide, by decide, by decide⟩,
    ⟨by decide, by decide, by decide, by decide, by decide⟩⟩

/-- C1 (amended). For every window string `d` that parses as a duration other than the minimal
one (`-2^63` ns) and every instant `now`, in any location, at which the zone offset is settled
(as it is at every instant of a location with a fixed offset, `settled_inFixedZone`): `end` is
`now` with its seconds and sub-second part set to zero (same date, hour, minute, offset and
location), `start = end - d` exactly, whenever `GetURL` returns its URL carries under `window`
the one value `RFC3339(start) + "," + RFC3339(end)`, and it does return when all parameters are
strings. -/
theorem GetURL_window (lib : StdLib) (host : String) (port : Int) (path : String)
    (params : GoMap) (now : Zoned.Time) (d : String) (dur : Int)
    (hw : index params "window" = Value.str d) (hd : ParseDuration lib d = some dur)
    (hmin : dur ≠ minDuration) (hz : now.settled) :
    ((Zoned.windowEnd now).Second = 0 ∧ (Zoned.windowEnd now).Nanosecond = 0
      ∧ (Zoned.windowEnd now).Year = now.Year ∧ (Zoned.windowEnd now).Month = now.Month
      ∧ (Zoned.windowEnd now).Day = now.Day ∧ (Zoned.windowEnd now).Hour = now.Hour
      ∧ (Zoned.windowEnd now).Minute = now.Minute
      ∧ (Zoned.windowEnd now).offset = now.offset
      ∧ (Zoned.windowEnd now).loc = now.loc
      ∧ (Zoned.windowEnd now).unixNano ≤ now.unixNano
      ∧ now.unixNano - (Zoned.windowEnd now).unixNano < 60000000000)
    ∧ (Zoned.windowStart lib d now).unixNano = (Zoned.windowEnd now).unixNano - dur
    ∧ (Zoned.windowStart lib d now).loc = now.loc
    ∧ (∀ q, Zoned.getURLQuery lib params now = some q →
        q.values "window"
            = [(Zoned.windowStart lib d now).FormatRFC3339 ++ ","
                ++ (Zoned.windowEnd now).FormatRFC3339]
          ∧ Zoned.GetURL lib host port path params now
            = some (urlString "http" (host ++ ":" ++ fmtInt port) path q.Encode))
    ∧ ((∀ kv ∈ params, kv.2.isStr = true) →
        ∃ q, Zoned.getURLQuery lib params now = some q) := by
  refine ⟨Zoned_windowEnd_fields now hz, ?_, rfl, ?_, ?_⟩
  · unfold Zoned.windowStart Zoned.Time.Add
    rw [windowDuration_of_parse lib d dur hd, negDuration_of_ne_min lib d dur hd hmin]
    ring
  · intro q hq
    refine ⟨Zoned_getURLQuery_window lib params now d hw q hq, ?_⟩
    unfold Zoned.GetURL
    rw [hq]; rfl
  · exact Zoned_getURLQuery_strings lib params now d hw

set_option maxRecDepth 100000 in
/-- Witness of `GetURL_window`: the first case of `TestGetURL`, window `"1m"` at
`1970-01-01T01:33:07Z` in UTC, and the window `"30m"` at 2021-07-01T12:00:30-04:00 in
`America/New_York`. -/
theorem GetURL_window_witness :
    ((index sampleParams "window" = Value.str "1m"
        ∧ ParseDuration sampleLib "1m" = some 60000000000
        ∧ (60000000000 : Int) ≠ minDuration ∧ sampleNow.inFixedZone.settled)
      ∧ (Zoned.windowStart sampleLib "1m" sampleNow.inFixedZone).unixNano
          = (Zoned.windowEnd sampleNow.inFixedZone).unixNano - 60000000000
      ∧ (Zoned.windowEnd sampleNow.inFixedZone).FormatRFC3339 = "1970-01-01T01:33:00Z"
      ∧ (Zoned.windowStart sampleLib "1m" sampleNow.inFixedZone).FormatRFC3339
          = "1970-01-01T01:32:00Z")
    ∧ ((index [("window", Value.str "30m")] "window" = Value.str "30m"
        ∧ ParseDuration sampleLib "30m" = some 1800000000000
        ∧ (1800000000000 : Int) ≠ minDuration ∧ nySummer.settled)
      ∧ (Zoned.windowStart sampleLib "30m" nySummer).unixNano
          = (Zoned.windowEnd nySummer).unixNano - 1800000000000
      ∧ Zoned.windowValue sampleLib "30m" nySummer
          = "2021-07-01T11:30:00-04:00,2021-07-01T12:00:00-04:00") :=
  ⟨⟨⟨rfl, by decide, by decide, settled_inFixedZone sampleNow⟩,
      (GetURL_window sampleLib "localhost" 9003 "/allocation/compute" sampleParams
        sampleNow.inFixedZone "1m" 60000000000 rfl (by decide) (by decide)
        (settled_inFixedZone sampleNow)).2.1,
      by decide, by decide⟩,
    ⟨⟨rfl, by decide, by decide, by unfold Zoned.Time.settled; decide⟩,
      (GetURL_window sampleLib "localhost" 9003 "/allocation/compute"
        [("window", Value.str "30m")] nySummer "30m" 1800000000000 rfl (by decide) (by decide)
        (by unfold Zoned.Time.settled; decide)).2.1,
      by decide⟩⟩

end KubecostExporter
